import Mathlib

/-!
# TextReaderQuiz: the text-analysis core of `app.js`

A shallow embedding of the pure text-processing functions of `src/app.js`
(garbage-file detection, text cleaning, stemming, letter frequencies, language
detection, tokenizing, document assembly, query expansion and keyword search)
and of the index arithmetic of the search navigation, together with theorems
about them.

## Conventions of the embedding

* A JavaScript string is the list of its UTF-16 code units (`JSString`), so
  `.length` is `List.length` and a regular expression without the `u` flag
  sees one list element per character.
* `String.prototype.toLowerCase`, double-precision arithmetic with `toFixed(2)`
  and the members of `Object.prototype` belong to the host, not to the
  repository.  They are fields of `Host`, constrained only by laws every
  ECMAScript engine satisfies; theorems are stated for every host.  `jsHost` is
  a concrete host, used to evaluate the functions on given inputs; its
  lower-casing is the Unicode one on Basic Latin, Latin-1 Supplement and a few
  listed code units.
* The thresholds `0.01`, `0.05`, `0.7`, `0.3`, `0.1` multiply a length and are
  compared with an integer count; the comparisons are stated on integers
  (`n < 100 * k` for `k > n * 0.01`), which is what the double-precision
  evaluation decides for every length a string can have.
* A two-decimal percentage (`toFixed(2)`) is a natural number of hundredths.
* The regular expressions of the search are `\b`, a sequence of characters and
  `\w*`, `\b`, with the flags `g` and `i`; they are matched by a backtracking
  matcher written for this shape (`matchItems`, `matchAllAux`).  The comparison
  of two units under the flag `i` is a field of `CaseFold`.
-/

namespace TextReader

/-- A JavaScript string: its UTF-16 code units. -/
abbrev JSString := List Nat

/-- UTF-16 encoding of one Unicode scalar value. -/
def utf16 (n : Nat) : List Nat :=
  if n < 0x10000 then [n]
  else [0xD800 + (n - 0x10000) / 0x400, 0xDC00 + (n - 0x10000) % 0x400]

/-- Code units of a list of characters. -/
def encode : List Char → JSString
  | [] => []
  | c :: cs => utf16 c.toNat ++ encode cs

/-- The JavaScript string denoted by a literal. -/
def js (s : String) : JSString := encode s.toList

/-! ## Character classes of the regular expressions used by the source -/

/-- The class `\s`: white space and line terminators of ECMAScript. -/
def isWhiteSpace (c : Nat) : Bool :=
  c == 9 || c == 10 || c == 11 || c == 12 || c == 13 || c == 32 || c == 0xA0 ||
  c == 0x1680 || (0x2000 ≤ c && c ≤ 0x200A) || c == 0x2028 || c == 0x2029 ||
  c == 0x202F || c == 0x205F || c == 0x3000 || c == 0xFEFF

/-- The class `\d`. -/
def isDigit (c : Nat) : Bool := 48 ≤ c && c ≤ 57

/-- The class `[a-z]`. -/
def isLowerAZ (c : Nat) : Bool := 97 ≤ c && c ≤ 122

/-- The class `[A-Z]`. -/
def isUpperAZ (c : Nat) : Bool := 65 ≤ c && c ≤ 90

/-- The class `[\x00-\x7F]`. -/
def isAscii (c : Nat) : Bool := c ≤ 0x7F

/-- Line terminators: the characters `.` does not match. -/
def isLineTerminator (c : Nat) : Bool :=
  c == 10 || c == 13 || c == 0x2028 || c == 0x2029

/-- Lower-casing of one ASCII code unit. -/
def asciiLower (c : Nat) : Nat := if isUpperAZ c then c + 32 else c

/-! ## The host -/

/-- What the embedding takes from the JavaScript engine: `toLowerCase`, the
two-decimal percentage of a quotient, and the inherited members of an object. -/
structure Host where
  /-- The engine's `String.prototype.toLowerCase`. -/
  toLowerCase : JSString → JSString
  /-- On ASCII input the mapping is the ASCII one, unit by unit. -/
  lower_ascii : ∀ s : JSString, (∀ c ∈ s, isAscii c = true) → toLowerCase s = s.map asciiLower
  /-- An ASCII letter of the input is in the output, lower-cased. -/
  lower_letter : ∀ (s : JSString) (c : Nat), c ∈ s → (isLowerAZ c || isUpperAZ c) = true →
    asciiLower c ∈ toLowerCase s
  /-- The hundredths shown by `((c / t) * 100).toFixed(2)`, evaluated in double
  precision, for integers `c ≤ t`, `0 < t`. -/
  percent2 : Nat → Nat → Nat
  /-- The value shown is within 0.51 hundredths of the exact quotient: rounding to
  two decimals moves it by at most half a hundredth, double precision by far
  less than a hundredth of one. -/
  percent2_near : ∀ c t : Nat, 0 < t → c ≤ t →
    100 * (percent2 c t * t) ≤ 100 * (10000 * c) + 51 * t ∧
    100 * (10000 * c) ≤ 100 * (percent2 c t * t) + 51 * t
  /-- The text of `Object.prototype[key]` for a key every object inherits. -/
  inherited : JSString → Option JSString

/-- Unicode lower-casing of one code unit, on Basic Latin, Latin-1 Supplement,
`U+0130` (capital I with dot above, which becomes the two units `i`, `U+0307`),
`U+0178`, `U+212A` (Kelvin sign, which becomes `k`) and `U+212B`; other code
units are returned as they are. -/
def lowerUnit (c : Nat) : List Nat :=
  if isUpperAZ c then [c + 32]
  else if 0xC0 ≤ c && c ≤ 0xDE && c != 0xD7 then [c + 32]
  else if c == 0x130 then [0x69, 0x307]
  else if c == 0x178 then [0xFF]
  else if c == 0x212A then [0x6B]
  else if c == 0x212B then [0xE5]
  else [c]

/-- Lower-casing of a string, unit by unit. -/
def lowerUnits : JSString → JSString
  | [] => []
  | c :: cs => lowerUnit c ++ lowerUnits cs

/-- Rounding of `10000 * c / t` to the nearest integer, halves upwards: the
hundredths of `c / t * 100` rounded to two decimals. -/
def roundPercent (c t : Nat) : Nat := (20000 * c + t) / (2 * t)

/-- The one all-lower-case key every object inherits from `Object.prototype`. -/
def inheritedText (key : JSString) : Option JSString :=
  if key == js "constructor" then some (js "function Object() \x7b [native code] \x7d") else none

/-! ## JavaScript string primitives -/

/-- Whether `s` starts with `p`. -/
def startsWith : JSString → JSString → Bool
  | _, [] => true
  | [], _ :: _ => false
  | c :: cs, d :: ds => c == d && startsWith cs ds

/-- The method `String.prototype.includes`. -/
def includes : JSString → JSString → Bool
  | [], p => startsWith [] p
  | c :: cs, p => startsWith (c :: cs) p || includes cs p

/-- Whether `s` ends with `p`: what `/p$/.test(s)` decides for a literal `p`. -/
def endsWith (s p : JSString) : Bool := startsWith s.reverse p.reverse

/-- The fields of `s.split(/\s+/)`: `cur` is the field being read (reversed),
`inWs` tells that the previous unit was white space. -/
def splitAux : JSString → JSString → Bool → List JSString
  | [], cur, _ => [cur.reverse]
  | c :: cs, cur, inWs =>
    if isWhiteSpace c then
      if inWs then splitAux cs [] true else cur.reverse :: splitAux cs [] true
    else splitAux cs (c :: cur) false

/-- The call `s.split(/\s+/)`. -/
def splitWs (s : JSString) : List JSString := splitAux s [] false

/-- The call `s.replace(/\s+/g, ' ')`: `inWs` tells that the previous unit was
white space, already replaced. -/
def collapseAux : Bool → JSString → JSString
  | _, [] => []
  | inWs, c :: cs =>
    if isWhiteSpace c then
      if inWs then collapseAux true cs else 32 :: collapseAux true cs
    else c :: collapseAux false cs

/-- Removal of trailing white space. -/
def trimEnd : JSString → JSString
  | [] => []
  | c :: cs =>
    match trimEnd cs with
    | [] => if isWhiteSpace c then [] else [c]
    | r :: rs => c :: r :: rs

/-- Removal of leading white space. -/
def trimStart : JSString → JSString
  | [] => []
  | c :: cs => if isWhiteSpace c then trimStart cs else c :: cs

/-- The method `String.prototype.trim`. -/
def trim (s : JSString) : JSString := trimEnd (trimStart s)

/-! ## `cleanText` (app.js 674-682) -/

/-- The function `cleanText`: the six steps of the source, in order. -/
def cleanText (H : Host) (text : JSString) : JSString :=
  let s1 := text.filter isAscii
  let s2 := H.toLowerCase s1
  let s3 := s2.map (fun c => if isDigit c then 32 else c)
  let s4 := s3.map (fun c => if isLowerAZ c || isWhiteSpace c then c else 32)
  let s5 := collapseAux false s4
  trim s5

/-! ## `stemWord` (app.js 77-136) -/

/-- One entry of `suffixRules`: the pattern `/suffix$/`, the replacement and the
optional `minLength`. -/
structure SuffixRule where
  suffix : JSString
  replacement : JSString
  minLength : Option Nat
  deriving DecidableEq

/-- The table `suffixRules` of `stemWord`, in source order. -/
def suffixRules : List SuffixRule :=
  [ ⟨js "ies", js "y", none⟩,
    ⟨js "ied", js "y", none⟩,
    ⟨js "ies", js "ie", none⟩,
    ⟨js "s", [], some 4⟩,
    ⟨js "eed", js "ee", none⟩,
    ⟨js "ed", [], some 4⟩,
    ⟨js "ing", [], some 4⟩,
    ⟨js "est", [], some 4⟩,
    ⟨js "er", [], some 4⟩,
    ⟨js "ly", [], some 4⟩,
    ⟨js "tion", js "te", none⟩,
    ⟨js "sion", js "s", none⟩,
    ⟨js "ness", [], none⟩,
    ⟨js "ment", [], none⟩,
    ⟨js "able", [], none⟩,
    ⟨js "ible", [], none⟩,
    ⟨js "ful", [], none⟩,
    ⟨js "less", [], none⟩,
    ⟨js "ous", [], none⟩,
    ⟨js "ive", [], none⟩,
    ⟨js "ize", [], none⟩,
    ⟨js "ise", [], none⟩ ]

/-- The call `word.replace(rule.pattern, rule.replacement)` for a word that
matches the pattern. -/
def replaceSuffix (word : JSString) (r : SuffixRule) : JSString :=
  word.take (word.length - r.suffix.length) ++ r.replacement

/-- The test `!rule.minLength || newWord.length >= rule.minLength`. -/
def meetsMinLength (r : SuffixRule) (newWord : JSString) : Bool :=
  match r.minLength with
  | none => true
  | some m => m == 0 || m ≤ newWord.length

/-- The loop over `suffixRules`, with its `break`. -/
def applySuffixRules (word : JSString) : List SuffixRule → JSString
  | [] => word
  | r :: rs =>
    if endsWith word r.suffix then
      if meetsMinLength r (replaceSuffix word r) then replaceSuffix word r
      else applySuffixRules word rs
    else applySuffixRules word rs

/-- The test `word.match(/(.)\1$/)`: the last two units are equal and are not a
line terminator. -/
def endsInDoubledChar (word : JSString) : Bool :=
  match word.reverse with
  | a :: b :: _ => a == b && !isLineTerminator a
  | _ => false

/-- The function `stemWord`. -/
def stemWord (H : Host) (word : JSString) : JSString :=
  if word.length ≤ 2 then word
  else
    let w := applySuffixRules (H.toLowerCase word) suffixRules
    if 3 < w.length && endsInDoubledChar w then w.dropLast else w

/-! ## `detectGarbageFile` (app.js 508-611) -/

/-- The result object of `detectGarbageFile`. -/
structure GarbageCheck where
  isGarbage : Bool
  reason : JSString
  deriving DecidableEq

/-- Reason of the PDF check. -/
def reasonPdf : JSString :=
  js "This appears to be a PDF file. PDF files cannot be directly converted to .txt format. Please use a proper PDF-to-text converter or save the content as plain text."

/-- Reason of the binary-signature check. -/
def reasonBinary : JSString :=
  js "This appears to be a binary file (image, archive, etc.) disguised as text. Binary files cannot be processed as text documents."

/-- Reason of the length check. -/
def reasonEmpty : JSString := js "The file appears to be empty."

/-- Reason of the null-byte check. -/
def reasonNullBytes : JSString :=
  js "This file contains null bytes and appears to be binary data. Please ensure you are uploading a plain text (.txt) file."

/-- Reason of the non-printable check. -/
def reasonNonPrintable : JSString :=
  js "This file contains excessive non-printable characters and may be corrupted or in an unsupported format."

/-- Reason given when `words` is empty. -/
def reasonNoWords : JSString := js "The file does not contain recognizable words or text."

/-- Reason of the valid-word check. -/
def reasonFewWords : JSString :=
  js "The file does not contain enough recognizable words. It may be corrupted, encoded incorrectly, or not a text document."

/-- The array `binarySignatures`, in source order. -/
def binarySignatures : List JSString :=
  [ [0x50, 0x4B, 0x03, 0x04],
    [0x89, 0x50, 0x4E, 0x47],
    [0xFF, 0xD8, 0xFF],
    [0x47, 0x49, 0x46, 0x38],
    [0x00, 0x00, 0x01, 0x00],
    [0x52, 0x49, 0x46, 0x46],
    [0x1F, 0x8B, 0x08],
    [0x50, 0x4B, 0x03, 0x04] ]

/-- One turn of the counting loop: the state is
`(nonPrintableCount, nullByteCount)`. -/
def countStep (st : Nat × Nat) (charCode : Nat) : Nat × Nat :=
  let nullByteCount := if charCode == 0 then st.2 + 1 else st.2
  let nonPrintableCount :=
    if charCode < 32 && charCode != 9 && charCode != 10 && charCode != 13 then st.1 + 1 else st.1
  (nonPrintableCount, nullByteCount)

/-- The character class of the letter count of `detectGarbageFile`, as the
source file spells it: `a-z`, `A-Z`, `U+221A`, the range `U+00C4`-`U+221A` and
`U+00F8`. -/
def isWordLetter (c : Nat) : Bool :=
  isLowerAZ c || isUpperAZ c || c == 0x221A || (0xC4 ≤ c && c ≤ 0x221A) || c == 0xF8

/-- The body of the loop over `words.slice(0, 100)`: whether the word counts
as valid (`letterCount > word.length * 0.7 && word.length > 1 && word.length < 50`). -/
def isValidWord (word : JSString) : Bool :=
  let letterCount := (word.filter isWordLetter).length
  7 * word.length < 10 * letterCount && 1 < word.length && word.length < 50

/-- The function `detectGarbageFile`. -/
def detectGarbageFile (content : JSString) : GarbageCheck :=
  if includes content (js "%PDF") || includes content (js "%%EOF") then ⟨true, reasonPdf⟩
  else if binarySignatures.any (fun signature => includes content signature) then
    ⟨true, reasonBinary⟩
  else
    let totalChars := content.length
    if totalChars == 0 then ⟨true, reasonEmpty⟩
    else
      let counts := content.foldl countStep (0, 0)
      if totalChars < 100 * counts.2 then ⟨true, reasonNullBytes⟩
      else if 5 * totalChars < 100 * counts.1 then ⟨true, reasonNonPrintable⟩
      else
        let words := (splitWs content).filter (fun word => 0 < word.length)
        if words.length == 0 then ⟨true, reasonNoWords⟩
        else
          let validWordCount := ((words.take 100).filter isValidWord).length
          let wordSampleSize := min 100 words.length
          if 10 * validWordCount < 3 * wordSampleSize then ⟨true, reasonFewWords⟩
          else ⟨false, []⟩

/-! ## Frequency tables (app.js 743-793, 1025-1033) -/

/-- A JavaScript object used as a table: its own keys with their values, in
insertion order. -/
abbrev JSObject (α : Type) := List (JSString × α)

/-- Property read `obj[key]` on own keys. -/
def getProp {α : Type} (obj : JSObject α) (key : JSString) : Option α :=
  (obj.find? (fun e => e.1 == key)).map (fun e => e.2)

/-- Whether `key` is an own key of `obj`. -/
def hasProp {α : Type} (obj : JSObject α) (key : JSString) : Bool :=
  obj.any (fun e => e.1 == key)

/-- Replacement of the value under an own key. -/
def updateProp {α : Type} (obj : JSObject α) (key : JSString) (f : α → α) : JSObject α :=
  obj.map (fun e => if e.1 == key then (e.1, f e.2) else e)

/-- Property write `obj[key] = v`. -/
def setProp {α : Type} (obj : JSObject α) (key : JSString) (v : α) : JSObject α :=
  if hasProp obj key then updateProp obj key (fun _ => v) else obj ++ [(key, v)]

/-- High surrogates. -/
def isHighSurrogate (c : Nat) : Bool := 0xD800 ≤ c && c ≤ 0xDBFF

/-- Low surrogates. -/
def isLowSurrogate (c : Nat) : Bool := 0xDC00 ≤ c && c ≤ 0xDFFF

/-- The characters a `for ... of` loop over a string visits: one code point
each, a surrogate pair being one character of two units. -/
def codePoints : JSString → List JSString
  | [] => []
  | [c] => [[c]]
  | c :: d :: rest =>
    if isHighSurrogate c && isLowSurrogate d then [c, d] :: codePoints rest
    else [c] :: codePoints (d :: rest)

/-- String comparison `a <= b` of JavaScript: by code units. -/
def jsLe : JSString → JSString → Bool
  | [], _ => true
  | _ :: _, [] => false
  | a :: as, b :: bs => a < b || (a == b && jsLe as bs)

/-- The test `char >= 'a' && char <= 'z'` of `calculateLetterFrequency`. -/
def isLetterChar (char : JSString) : Bool := jsLe (js "a") char && jsLe char (js "z")

/-- The table `freq` after its initialisation loop: the keys `a` to `z`. -/
def initialLetterCounts : JSObject Nat := (List.range' 97 26).map (fun i => ([i], 0))

/-- One turn of the counting loop of `calculateLetterFrequency`: the state is
`(freq, totalLetters)`.  A character that passes the test is one of the 26
keys (`isLetterChar_codePoints`), so `freq[char]++` updates an own key. -/
def letterStep (st : JSObject Nat × Nat) (char : JSString) : JSObject Nat × Nat :=
  if isLetterChar char then (updateProp st.1 char (fun n => n + 1), st.2 + 1) else st

/-- The function `calculateLetterFrequency`: for each key of `freq` the
hundredths of its percentage, `0` when no letter was counted. -/
def calculateLetterFrequency (H : Host) (text : JSString) : JSObject Nat :=
  let counted := (codePoints (H.toLowerCase text)).foldl letterStep (initialLetterCounts, 0)
  let freq := counted.1
  let totalLetters := counted.2
  freq.map (fun e => (e.1, if 0 < totalLetters then H.percent2 e.2 totalLetters else 0))

/-- The function `calculateCharacterFrequency`: raw counts of the characters
matching `/[a-z]/` in the lower-cased text. -/
def calculateCharacterFrequency (H : Host) (text : JSString) : JSObject Nat :=
  (codePoints (H.toLowerCase text)).foldl
    (fun freq char =>
      if char.any isLowerAZ then setProp freq char ((getProp freq char).getD 0 + 1) else freq)
    []

/-- A value of the `frequency` table of `calculateWordFrequency`: a count, or
the text that `+ 1` builds from an inherited, non-numeric value. -/
inductive FreqValue where
  | count (n : Nat)
  | text (s : JSString)
  deriving DecidableEq

/-- The assignment `frequency[word] = (frequency[word] || 0) + 1`. -/
def bumpWord (H : Host) (frequency : JSObject FreqValue) (word : JSString) : JSObject FreqValue :=
  match getProp frequency word with
  | some (FreqValue.count n) =>
    if n == 0 then setProp frequency word (FreqValue.count 1)
    else setProp frequency word (FreqValue.count (n + 1))
  | some (FreqValue.text s) =>
    if s.length == 0 then setProp frequency word (FreqValue.count 1)
    else setProp frequency word (FreqValue.text (s ++ js "1"))
  | none =>
    match H.inherited word with
    | some s => setProp frequency word (FreqValue.text (s ++ js "1"))
    | none => setProp frequency word (FreqValue.count 1)

/-- The function `calculateWordFrequency`. -/
def calculateWordFrequency (H : Host) (words : List JSString) : JSObject FreqValue :=
  words.foldl (bumpWord H) []

/-! ## Accented characters (app.js 800-854) -/

/-- One entry of the array returned by `findForeignCharacters`. -/
structure ForeignChar where
  char : JSString
  count : Nat
  description : JSString
  deriving DecidableEq

/-- The character class of `findForeignCharacters`, as the source file spells
it: `U+221A`, the range `U+00C4`-`U+221A` and `U+00F8`. -/
def isAccentClass (c : Nat) : Bool := c == 0x221A || (0xC4 ≤ c && c ≤ 0x221A) || c == 0xF8

/-- One turn of the loop of `findForeignCharacters` over the characters. -/
def foreignStep (foreignChars : JSObject Nat) (char : JSString) : JSObject Nat :=
  if char.any (fun c => !isAscii c) then
    if char.any isAccentClass then
      setProp foreignChars char ((getProp foreignChars char).getD 0 + 1)
    else foreignChars
  else foreignChars

/-- Insertion of an entry before the first entry whose count is not larger. -/
def insertByCount (e : JSString × Nat) : List (JSString × Nat) → List (JSString × Nat)
  | [] => [e]
  | x :: xs => if e.2 < x.2 then x :: insertByCount e xs else e :: x :: xs

/-- The call `.sort(([,a], [,b]) => b - a)`: counts descending, entries of equal
count in their former order. -/
def sortByCountDesc (entries : List (JSString × Nat)) : List (JSString × Nat) :=
  entries.foldr insertByCount []

/-- The table `descriptions` of `getCharacterDescription`, keys as the source
file spells them. -/
def descriptions : JSObject JSString :=
  [ (js "√†", js "a with grave accent"),
    (js "√°", js "a with acute accent"),
    (js "√¢", js "a with circumflex"),
    (js "√£", js "a with tilde"),
    (js "√§", js "a with diaeresis"),
    (js "√•", js "a with ring above"),
    (js "√®", js "e with grave accent"),
    (js "√©", js "e with acute accent"),
    (js "√™", js "e with circumflex"),
    (js "√´", js "e with diaeresis"),
    (js "√¨", js "i with grave accent"),
    (js "√≠", js "i with acute accent"),
    (js "√Æ", js "i with circumflex"),
    (js "√Ø", js "i with diaeresis"),
    (js "√≤", js "o with grave accent"),
    (js "√≥", js "o with acute accent"),
    (js "√¥", js "o with circumflex"),
    (js "√µ", js "o with tilde"),
    (js "√∂", js "o with diaeresis"),
    (js "√π", js "u with grave accent"),
    (js "√∫", js "u with acute accent"),
    (js "√ª", js "u with circumflex"),
    (js "√º", js "u with diaeresis"),
    (js "√ß", js "c with cedilla"),
    (js "√±", js "n with tilde") ]

/-- The function `getCharacterDescription`. -/
def getCharacterDescription (H : Host) (char : JSString) : JSString :=
  match getProp descriptions (H.toLowerCase char) with
  | some d => d
  | none => js "accented character (" ++ char ++ js ")"

/-- The function `findForeignCharacters`. -/
def findForeignCharacters (H : Host) (text : JSString) : List ForeignChar :=
  (sortByCountDesc ((codePoints text).foldl foreignStep [])).map
    (fun e => ⟨e.1, e.2, getCharacterDescription H e.1⟩)

/-! ## `detectLanguage` (app.js 868-1018) -/

/-- The class `\w`. -/
def isWordChar (c : Nat) : Bool := isLowerAZ c || isUpperAZ c || isDigit c || c == 95

/-- The assertion `\b` between two neighbours, either of which may be missing
at an end of the string. -/
def isBoundary (before after : Option Nat) : Bool :=
  (before.any isWordChar) != (after.any isWordChar)

/-- Whether `/\bword\b/` matches at the start of `s`, the unit before `s` being
`before`; `word` is a literal without regular-expression operators. -/
def wordMatchesAt (word : JSString) (before : Option Nat) (s : JSString) : Bool :=
  startsWith s word && isBoundary before s.head? &&
    isBoundary (if word.length == 0 then before else word.getLast?) (s.drop word.length).head?

/-- The number of matches of the global expression `/\bword\b/g` in `s`:
`before` is the unit before `s`, `skip` the number of units of `s` an earlier
match still covers. -/
def countWordMatchesAux (word : JSString) : Option Nat → Nat → JSString → Nat
  | _, _, [] => 0
  | before, skip, c :: cs =>
    if skip == 0 && wordMatchesAt word before (c :: cs) then
      1 + countWordMatchesAux word (some c) (word.length - 1) cs
    else countWordMatchesAux word (some c) (skip - 1) cs

/-- The value `(lowerText.match(regex) || []).length` for one common word. -/
def countWordMatches (word lowerText : JSString) : Nat :=
  countWordMatchesAux word none 0 lowerText

/-- The array `commonEnglishWords`. -/
def commonEnglishWords : List JSString :=
  [js "the", js "and", js "of", js "to", js "a", js "in", js "for", js "is", js "on", js "that"]

/-- The array `commonFrenchWords`, as the source file spells it. -/
def commonFrenchWords : List JSString :=
  [js "le", js "de", js "et", js "un", js "√†", js "√™tre", js "ce", js "il", js "que", js "ne"]

/-- The array `commonSpanishWords`. -/
def commonSpanishWords : List JSString :=
  [js "el", js "de", js "que", js "y", js "a", js "en", js "un", js "es", js "se", js "no",
   js "te", js "lo", js "le", js "da", js "su", js "por", js "son", js "con", js "para", js "al"]

/-- The score of one language: the matches of all its common words. -/
def wordScore (words : List JSString) (lowerText : JSString) : Nat :=
  words.foldl (fun score word => score + countWordMatches word lowerText) 0

/-- The characters counted as uniquely Spanish, as the source file spells them. -/
def spanishUnique : List JSString := [js "√±"]

/-- The characters counted as French-heavy, as the source file spells them. -/
def frenchHeavy : List JSString :=
  [js "√ß", js "√®", js "√™", js "√´", js "√†", js "√¢", js "√π", js "√ª", js "√ø"]

/-- The sum of the counts of the entries whose lower-cased character is in `set`. -/
def countIn (H : Host) (set : List JSString) (foreignChars : List ForeignChar) : Nat :=
  (foreignChars.filter (fun fc => set.contains (H.toLowerCase fc.char))).foldl
    (fun sum fc => sum + fc.count) 0

/-- First result for an undetermined language. -/
def undeterminedCorruption : JSString :=
  js "Language cannot be detected - possible file corruption or unsupported encoding"

/-- Second result for an undetermined language. -/
def undeterminedPatterns : JSString :=
  js "Language cannot be detected - insufficient linguistic patterns"

/-- The value `parseFloat(letterFreq.x) || 0`, in hundredths. -/
def freqOf (letterFreq : JSObject Nat) (letter : String) : Nat :=
  (getProp letterFreq (js letter)).getD 0

/-- The French signature: `eFreq > 13.5 && aFreq > 7 && aFreq < 9.5 && rFreq > 5.5`. -/
def frenchSignature (letterFreq : JSObject Nat) : Bool :=
  1350 < freqOf letterFreq "e" && 700 < freqOf letterFreq "a" && freqOf letterFreq "a" < 950 &&
    550 < freqOf letterFreq "r"

/-- The English signature:
`eFreq > 11 && eFreq < 14 && tFreq > 8.5 && aFreq > 7.5 && aFreq < 9.5`. -/
def englishSignature (letterFreq : JSObject Nat) : Bool :=
  1100 < freqOf letterFreq "e" && freqOf letterFreq "e" < 1400 && 850 < freqOf letterFreq "t" &&
    750 < freqOf letterFreq "a" && freqOf letterFreq "a" < 950

/-- The Spanish signature: `aFreq > 10.5 && oFreq > 7.5 && sFreq > 6.5`. -/
def spanishSignature (letterFreq : JSObject Nat) : Bool :=
  1050 < freqOf letterFreq "a" && 750 < freqOf letterFreq "o" && 650 < freqOf letterFreq "s"

/-- The word analysis and the final fallback of `detectLanguage` (app.js 954-1018). -/
def detectByWords (H : Host) (text : JSString) (foreignChars : List ForeignChar) : JSString :=
  let lowerText := H.toLowerCase text
  let englishScore := wordScore commonEnglishWords lowerText
  let frenchScore := wordScore commonFrenchWords lowerText
  let spanishScore := wordScore commonSpanishWords lowerText
  let minScore := 3
  let confidenceMargin := 2
  let maxScore := max (max englishScore frenchScore) spanishScore
  if minScore ≤ maxScore && (englishScore == maxScore &&
      frenchScore + confidenceMargin ≤ englishScore &&
      spanishScore + confidenceMargin ≤ englishScore) then js "English"
  else if minScore ≤ maxScore && (frenchScore == maxScore &&
      englishScore + confidenceMargin ≤ frenchScore &&
      spanishScore + confidenceMargin ≤ frenchScore) then js "French"
  else if minScore ≤ maxScore && (spanishScore == maxScore &&
      englishScore + confidenceMargin ≤ spanishScore &&
      frenchScore + confidenceMargin ≤ spanishScore) then js "Spanish"
  else if 0 < foreignChars.length then
    let totalForeignChars := foreignChars.foldl (fun sum fc => sum + fc.count) 0
    if text.length < 10 * totalForeignChars then undeterminedCorruption
    else undeterminedPatterns
  else undeterminedPatterns

/-- The secondary check of `detectLanguage` on accented characters
(app.js 922-950), followed by the word analysis. -/
def detectByChars (H : Host) (text : JSString) (foreignChars : List ForeignChar) : JSString :=
  if 0 < foreignChars.length then
    let spanishUniqueCount := countIn H spanishUnique foreignChars
    if 10 ≤ spanishUniqueCount then js "Spanish"
    else
      let frenchHeavyCount := countIn H frenchHeavy foreignChars
      if 10 ≤ frenchHeavyCount then js "French"
      else detectByWords H text foreignChars
  else detectByWords H text foreignChars

/-- The function `detectLanguage`; `letterFreq` is always an object here. -/
def detectLanguage (H : Host) (text : JSString) (letterFreq : JSObject Nat)
    (foreignChars : List ForeignChar) : JSString :=
  if frenchSignature letterFreq then js "French"
  else if englishSignature letterFreq then js "English"
  else if spanishSignature letterFreq then js "Spanish"
  else detectByChars H text foreignChars

/-! ## `tokenizeText` (app.js 690-736) -/

/-- The three module-level stop-word arrays, as they are when a function runs. -/
structure StopWordSets where
  stopWords : List JSString
  frenchStopWords : List JSString
  spanishStopWords : List JSString

/-- The selection of `currentStopWords` by `tokenizeText`. -/
def currentStopWords (H : Host) (sw : StopWordSets) (language : JSString) : List JSString :=
  if includes (H.toLowerCase language) (js "french") then sw.frenchStopWords
  else if includes (H.toLowerCase language) (js "spanish") then sw.spanishStopWords
  else sw.stopWords

/-- The function `tokenizeText`. -/
def tokenizeText (H : Host) (sw : StopWordSets) (text language : JSString) : List JSString :=
  let allWords := (splitWs text).filter (fun word => 1 < word.length)
  allWords.filter (fun word => !((currentStopWords H sw language).contains (H.toLowerCase word)))

/-! ## `processDocument` (app.js 619-667) -/

/-- The document object built by `processDocument`. -/
structure Doc where
  id : JSString
  name : JSString
  originalContent : JSString
  uploadDate : Nat
  wordCount : Nat
  language : JSString
  cleanedText : JSString
  words : List JSString
  wordFrequency : JSObject FreqValue
  charFrequency : JSObject Nat
  foreignChars : List ForeignChar
  letterFrequency : JSObject Nat

/-- The function `processDocument`: `Except.error` carries the message of the
thrown `Error`; `id` and `uploadDate` are the values `generateDocumentId()` and
`new Date()` give at the call. -/
def processDocument (H : Host) (sw : StopWordSets) (id : JSString) (uploadDate : Nat)
    (filename content : JSString) : Except JSString Doc :=
  let garbageCheck := detectGarbageFile content
  if garbageCheck.isGarbage then
    Except.error (js "Garbage file detected: " ++ garbageCheck.reason)
  else
    let foreignChars := findForeignCharacters H content
    let letterFrequency := calculateLetterFrequency H content
    let cleanedText := cleanText H content
    let language := detectLanguage H cleanedText letterFrequency foreignChars
    let words := tokenizeText H sw cleanedText language
    let wordFrequency := calculateWordFrequency H words
    let charFrequency := calculateCharacterFrequency H cleanedText
    Except.ok
      { id := id, name := filename, originalContent := content, uploadDate := uploadDate,
        wordCount := words.length, language := language, cleanedText := cleanedText,
        words := words, wordFrequency := wordFrequency, charFrequency := charFrequency,
        foreignChars := foreignChars, letterFrequency := letterFrequency }

/-! ## Search: query expansion (app.js 2416-2450, 2705-2719) -/

/-- The array `rawKeywords` of `searchFiles`: the lower-cased query split on
white space, the words of more than 2 units, each without the units outside
`[\w*]`. -/
def rawKeywords (H : Host) (searchQuery : JSString) : List JSString :=
  ((splitWs (H.toLowerCase searchQuery)).filter (fun word => 2 < word.length)).map
    (fun word => word.filter (fun c => isWordChar c || c == 42))

/-- One entry of `keywordInfo`. -/
structure KeywordInfo where
  original : JSString
  stemmed : Option JSString
  type : JSString
  deriving DecidableEq

/-- One turn of the `forEach` of `searchFiles` over `rawKeywords`: the state is
`(keywords, keywordInfo)`. -/
def expandStep (H : Host) (st : List JSString × List KeywordInfo) (keyword : JSString) :
    List JSString × List KeywordInfo :=
  if includes keyword (js "*") then
    (st.1 ++ [keyword], st.2 ++ [⟨keyword, none, js "wildcard"⟩])
  else
    let keywords := st.1 ++ [keyword]
    let keywordInfo := st.2 ++ [⟨keyword, none, js "exact"⟩]
    let stemmed := stemWord H keyword
    if stemmed != keyword && 2 < stemmed.length then
      (keywords ++ [stemmed], keywordInfo ++ [⟨keyword, some stemmed, js "stemmed"⟩])
    else (keywords, keywordInfo)

/-- The arrays `keywords` and `keywordInfo` that `searchFiles` builds. -/
def expandKeywords (H : Host) (rawKeywords : List JSString) :
    List JSString × List KeywordInfo :=
  rawKeywords.foldl (expandStep H) ([], [])

/-- One turn of the `forEach` of `openFileFromSearch` over `originalKeywords`. -/
def rebuildStep (H : Host) (keywords : List JSString) (keyword : JSString) : List JSString :=
  if includes keyword (js "*") then keywords ++ [keyword]
  else
    let keywords1 := keywords ++ [keyword]
    let stemmed := stemWord H keyword
    if stemmed != keyword && 2 < stemmed.length then keywords1 ++ [stemmed] else keywords1

/-- The array `keywords` that `openFileFromSearch` rebuilds. -/
def rebuildKeywords (H : Host) (originalKeywords : List JSString) : List JSString :=
  originalKeywords.foldl (rebuildStep H) []

/-! ## Search: matching (app.js 2510-2551) -/

/-- Upper-casing of one ASCII code unit. -/
def asciiUpper (c : Nat) : Nat := if isLowerAZ c then c - 32 else c

/-- What the flag `i` takes from the engine: whether two code units have the
same canonical form.  For an ASCII unit the canonical form is its upper case,
and no other unit has an ASCII canonical form. -/
structure CaseFold where
  /-- Whether `Canonicalize` gives the same unit for both. -/
  sameUnit : Nat → Nat → Bool
  /-- An ASCII unit is matched by its two ASCII cases only. -/
  same_ascii : ∀ c d : Nat, isAscii c = true → sameUnit c d = (asciiUpper c == asciiUpper d)

/-- An item of the pattern between the two `\b`: a character, or `\w*`. -/
inductive PatItem where
  | lit (c : Nat)
  | wordStar
  deriving DecidableEq

/-- The class `[.*+?^$\x7b\x7d()|[\]\\]` of the characters `findKeywordsInText`
escapes, which are the characters with a meaning in a pattern. -/
def isRegexOperator (c : Nat) : Bool :=
  c == 46 || c == 42 || c == 43 || c == 63 || c == 94 || c == 36 || c == 123 || c == 125 ||
  c == 40 || c == 41 || c == 124 || c == 91 || c == 93 || c == 92

/-- The pattern built for a keyword, when it is a sequence of characters and
`\w*`.  With a `*` every operator is escaped and each `\*` becomes `\w*`.
Without, the keyword itself is the pattern: a sequence of characters when it has
no operator.  A keyword with an operator and no `*` is a pattern of its own,
which this development does not describe: the value is then `none`, which says
nothing about what the engine does with the keyword (it matches it as a
pattern, or throws, as for the keywords of `hasUnclosedGroup`).  Every keyword
`searchFiles` derives from a query consists of word characters and `*`, and has
a pattern. -/
def keywordPattern (keyword : JSString) : Option (List PatItem) :=
  if includes keyword (js "*") then
    some (keyword.map (fun c => if c == 42 then PatItem.wordStar else PatItem.lit c))
  else if keyword.any isRegexOperator then none
  else some (keyword.map PatItem.lit)

/-- The greedy loop of `\w*`, `k` being the rest of the pattern: one more word
character is taken first, and given back when the rest then fails. -/
def starLoop (k : Option Nat → JSString → Option Nat) : Option Nat → JSString → Option Nat
  | before, [] => k before []
  | before, d :: s =>
    if isWordChar d then
      match starLoop k (some d) s with
      | some n => some (n + 1)
      | none => k before (d :: s)
    else k before (d :: s)

/-- The number of units the items followed by `\b` match at the start of `s`,
the unit before `s` being `before`; `none` when they do not match. -/
def matchItems (F : CaseFold) : List PatItem → Option Nat → JSString → Option Nat
  | [], before, s => if isBoundary before s.head? then some 0 else none
  | PatItem.lit _ :: _, _, [] => none
  | PatItem.lit c :: ps, _, d :: s =>
    if F.sameUnit c d then (matchItems F ps (some d) s).map (fun n => n + 1) else none
  | PatItem.wordStar :: ps, before, s => starLoop (matchItems F ps) before s

/-- The match of `\b` items `\b` at the start of `s`. -/
def matchAt (F : CaseFold) (items : List PatItem) (before : Option Nat) (s : JSString) :
    Option Nat :=
  if isBoundary before s.head? then matchItems F items before s else none

/-- The matches of the global expression, as `(index, length)`: `pos` is the
index of the start of `s`, `before` the unit before it, `skip` the number of
units of `s` the last match still covers.  After an empty match the search goes
on one unit further. -/
def matchAllAux (F : CaseFold) (items : List PatItem) :
    Option Nat → Nat → Nat → JSString → List (Nat × Nat)
  | before, pos, skip, [] =>
    if skip == 0 then
      match matchAt F items before [] with
      | some n => [(pos, n)]
      | none => []
    else []
  | before, pos, skip, c :: cs =>
    if skip == 0 then
      match matchAt F items before (c :: cs) with
      | some n => (pos, n) :: matchAllAux F items (some c) (pos + 1) (n - 1) cs
      | none => matchAllAux F items (some c) (pos + 1) 0 cs
    else matchAllAux F items (some c) (pos + 1) (skip - 1) cs

/-- The call `lowerText.matchAll(regex)`. -/
def matchAll (F : CaseFold) (items : List PatItem) (lowerText : JSString) : List (Nat × Nat) :=
  matchAllAux F items none 0 0 lowerText

/-- The method `String.prototype.substring`. -/
def substring (s : JSString) (a b : Nat) : JSString := (s.take (max a b)).drop (min a b)

/-- One object pushed on `matches`. -/
structure SearchMatch where
  keyword : JSString
  position : Nat
  context : JSString
  fullMatch : JSString
  isWildcard : Bool
  deriving DecidableEq

/-- The body of `keywordMatches.forEach`, for the match at `index` of `length`
units. -/
def makeMatch (text lowerText keyword : JSString) (index length : Nat) : SearchMatch :=
  let position := index
  let matchedWord := (lowerText.drop index).take length
  let start := position - 50
  let stop := min text.length (position + matchedWord.length + 50)
  ⟨keyword, position, substring text start stop, matchedWord, includes keyword (js "*")⟩

/-- The matches `findKeywordsInText` pushes for one keyword; `none` when the
pattern of the keyword is outside the patterns described by `keywordPattern`. -/
def keywordMatches (F : CaseFold) (text lowerText keyword : JSString) :
    Option (List SearchMatch) :=
  (keywordPattern keyword).map (fun items =>
    (matchAll F items lowerText).map (fun m => makeMatch text lowerText keyword m.1 m.2))

/-- The loop of `findKeywordsInText` over the keywords. -/
def collectMatches (F : CaseFold) (text lowerText : JSString) :
    List JSString → Option (List SearchMatch)
  | [] => some []
  | keyword :: rest =>
    match keywordMatches F text lowerText keyword, collectMatches F text lowerText rest with
    | some ms, some more => some (ms ++ more)
    | _, _ => none

/-- The function `findKeywordsInText`. -/
def findKeywordsInText (H : Host) (F : CaseFold) (text : JSString) (keywords : List JSString) :
    Option (List SearchMatch) :=
  collectMatches F text (H.toLowerCase text) keywords

/-! ## Search: the corpus (app.js 2402-2500) -/

/-- The data of a stored document that the search reads; `cleanedText` may be
missing. -/
structure StoredDocument where
  id : JSString
  name : JSString
  originalContent : JSString
  cleanedText : Option JSString

/-- An entry of `sampleFilesCache`, as far as the search reads it. -/
structure SampleFile where
  id : JSString
  filename : JSString
  originalContent : JSString
  cleanedText : JSString

/-- One object pushed on `searchResults`. -/
structure SearchResult where
  id : JSString
  filename : JSString
  /-- The property `matches`. -/
  matchList : List SearchMatch
  originalContent : JSString
  cleanedText : JSString
  isSample : Bool
  deriving DecidableEq

/-- The value `data.cleanedText || data.originalContent`. -/
def searchedText (data : StoredDocument) : JSString :=
  match data.cleanedText with
  | some t => if t.length == 0 then data.originalContent else t
  | none => data.originalContent

/-- The results of the stored documents, in their order; `none` when a keyword
has no pattern. -/
def searchDocuments (H : Host) (F : CaseFold) (keywords : List JSString) :
    List StoredDocument → Option (List SearchResult)
  | [] => some []
  | data :: rest =>
    match findKeywordsInText H F (searchedText data) keywords,
      searchDocuments H F keywords rest with
    | some ms, some more =>
      if 0 < ms.length then
        some (⟨data.id, data.name, ms, data.originalContent, searchedText data, false⟩ :: more)
      else some more
    | _, _ => none

/-- The results of the sample files, in their order. -/
def searchSamples (H : Host) (F : CaseFold) (keywords : List JSString) :
    List SampleFile → Option (List SearchResult)
  | [] => some []
  | sampleFile :: rest =>
    match findKeywordsInText H F sampleFile.cleanedText keywords,
      searchSamples H F keywords rest with
    | some ms, some more =>
      if 0 < ms.length then
        some (⟨sampleFile.id, sampleFile.filename ++ [32, 0xF8FF, 0xFC, 0xEC, 0xF6], ms,
          sampleFile.originalContent, sampleFile.cleanedText, true⟩ :: more)
      else some more
    | _, _ => none

/-- What `searchFiles` ends with. -/
inductive SearchOutcome where
  /-- The message `Please enter search terms`. -/
  | noQuery
  /-- The message `Please enter valid search terms (at least 3 characters each)`. -/
  | noKeywords
  /-- The `catch` branch: `Error searching files: ...`. -/
  | failed
  /-- The call `displaySearchResults(searchResults, rawKeywords, keywordInfo)`. -/
  | displayed (searchResults : List SearchResult) (rawKeywords : List JSString)
      (keywordInfo : List KeywordInfo)
  deriving DecidableEq

/-- The function `searchFiles`, on the value of the search input, the stored
documents and the sample-file cache. -/
def searchFiles (H : Host) (F : CaseFold) (documents : List StoredDocument)
    (sampleFilesCache : List SampleFile) (input : JSString) : SearchOutcome :=
  let searchQuery := trim input
  if searchQuery.length == 0 then SearchOutcome.noQuery
  else
    let raw := rawKeywords H searchQuery
    if raw.length == 0 then SearchOutcome.noKeywords
    else
      let expanded := expandKeywords H raw
      match searchDocuments H F expanded.1 documents,
        searchSamples H F expanded.1 sampleFilesCache with
      | some a, some b => SearchOutcome.displayed (a ++ b) raw expanded.2
      | _, _ => SearchOutcome.failed

/-! ## Search navigation (app.js 2890-3006) -/

/-- The style properties of a highlighted element that the navigation writes. -/
structure MatchElement where
  backgroundColor : JSString
  boxShadow : JSString
  fontWeight : JSString
  deriving DecidableEq

/-- The module-level variables `currentMatchIndex` and `allMatches`. -/
structure Navigation where
  currentMatchIndex : Int
  allMatches : List MatchElement
  deriving DecidableEq

/-- The element `allMatches[index]`, `undefined` outside the array. -/
def matchAtIndex (allMatches : List MatchElement) (index : Int) : Option MatchElement :=
  if 0 ≤ index then allMatches.get? index.toNat else none

/-- The writes that remove the highlight of the current match. -/
def removeHighlight (nav : Navigation) : List MatchElement :=
  if 0 ≤ nav.currentMatchIndex then
    match matchAtIndex nav.allMatches nav.currentMatchIndex with
    | some element =>
      nav.allMatches.set nav.currentMatchIndex.toNat
        { element with backgroundColor := js "#ffeb3b", boxShadow := js "none" }
    | none => nav.allMatches
  else nav.allMatches

/-- The writes that highlight the match at `index`. -/
def highlightCurrent (allMatches : List MatchElement) (index : Int) : List MatchElement :=
  match matchAtIndex allMatches index with
  | some _ =>
    allMatches.set index.toNat
      ⟨js "#ff9800", js "0 0 10px rgba(255, 152, 0, 0.5)", js "bold"⟩
  | none => allMatches

/-- The function `jumpToNextOccurrence`, on the navigation variables and the
styles; `%` is the remainder of JavaScript. -/
def jumpToNextOccurrence (nav : Navigation) : Navigation :=
  if nav.allMatches.length == 0 then nav
  else
    let cleared := removeHighlight nav
    let currentMatchIndex := Int.tmod (nav.currentMatchIndex + 1) nav.allMatches.length
    ⟨currentMatchIndex, highlightCurrent cleared currentMatchIndex⟩

/-- The function `jumpToPreviousOccurrence`. -/
def jumpToPreviousOccurrence (nav : Navigation) : Navigation :=
  if nav.allMatches.length == 0 then nav
  else
    let cleared := removeHighlight nav
    let currentMatchIndex :=
      if nav.currentMatchIndex ≤ 0 then (nav.allMatches.length : Int) - 1
      else nav.currentMatchIndex - 1
    ⟨currentMatchIndex, highlightCurrent cleared currentMatchIndex⟩

/-- The state `initializeSearchNavigation` sets: no current match. -/
def initializeSearchNavigation (elements : List MatchElement) : Navigation :=
  ⟨-1, elements⟩

/-! ## The stemming rule of the specification -/

/-- The rule table as the specification lists it. -/
def referenceRules : List SuffixRule :=
  [ ⟨js "ies", js "y", none⟩, ⟨js "ied", js "y", none⟩, ⟨js "ies", js "ie", none⟩,
    ⟨js "s", [], some 4⟩, ⟨js "eed", js "ee", none⟩, ⟨js "ed", [], some 4⟩,
    ⟨js "ing", [], some 4⟩, ⟨js "est", [], some 4⟩, ⟨js "er", [], some 4⟩,
    ⟨js "ly", [], some 4⟩, ⟨js "tion", js "te", none⟩, ⟨js "sion", js "s", none⟩,
    ⟨js "ness", [], none⟩, ⟨js "ment", [], none⟩, ⟨js "able", [], none⟩,
    ⟨js "ible", [], none⟩, ⟨js "ful", [], none⟩, ⟨js "less", [], none⟩,
    ⟨js "ous", [], none⟩, ⟨js "ive", [], none⟩, ⟨js "ize", [], none⟩, ⟨js "ise", [], none⟩ ]

/-- The word with the suffix of the rule replaced. -/
def referenceResult (w : JSString) (r : SuffixRule) : JSString :=
  (w.reverse.drop r.suffix.length).reverse ++ r.replacement

/-- A rule fires on a word: its suffix matches and its result is at least its
minimum length. -/
def ruleFires (w : JSString) (r : SuffixRule) : Bool :=
  r.suffix.isSuffixOf w &&
    (match r.minLength with
     | none => true
     | some m => decide (m ≤ (referenceResult w r).length))

/-- The last two characters are equal. -/
def lastTwoEqual (w : JSString) : Bool :=
  match w.reverse with
  | a :: b :: _ => a == b
  | _ => false

/-- The word after the first rule that fires, unchanged when none does. -/
def referenceSuffixStep (w : JSString) : JSString :=
  match referenceRules.find? (ruleFires w) with
  | some r => referenceResult w r
  | none => w

/-- The stem of a word longer than 2 characters as the specification words it:
lower-case, first firing rule, then drop the last of two equal final characters
of a word longer than 3. -/
def stemReference (H : Host) (w : JSString) : JSString :=
  let r := referenceSuffixStep (H.toLowerCase w)
  if 3 < r.length && lastTwoEqual r then r.dropLast else r

/-! ## The rejection rules of the specification -/

/-- The fixed binary signatures: ZIP, PNG, JPEG, GIF8, ICO, RIFF, GZIP. -/
def fixedSignatures : List JSString :=
  [ [0x50, 0x4B, 3, 4], [0x89, 0x50, 0x4E, 0x47], [0xFF, 0xD8, 0xFF], js "GIF8",
    [0, 0, 1, 0], js "RIFF", [0x1F, 0x8B, 8] ]

/-- Rule 1, first reason: the text contains `%PDF` or `%%EOF`. -/
def hasPdfMarker (t : JSString) : Bool := decide (js "%PDF" <:+: t ∨ js "%%EOF" <:+: t)

/-- Rule 1, second reason: the text contains one of the fixed signatures. -/
def hasBinarySignature (t : JSString) : Bool := decide (∃ sig ∈ fixedSignatures, sig <:+: t)

/-- Rule 2: the text is empty. -/
def isEmptyText (t : JSString) : Bool := decide (t = [])

/-- Rule 3: null characters number more than 1% of all characters. -/
def tooManyNulls (t : JSString) : Bool := decide (t.length < 100 * t.count 0)

/-- A character with code below 32 other than tab, line feed and carriage return. -/
def isControl (c : Nat) : Bool := decide (c < 32 ∧ c ≠ 9 ∧ c ≠ 10 ∧ c ≠ 13)

/-- Rule 4: such characters number more than 5% of all characters. -/
def tooManyControls (t : JSString) : Bool := decide (5 * t.length < 100 * t.countP isControl)

/-- The white-space-delimited tokens of a text. -/
def tokens (t : JSString) : List JSString :=
  (t.splitOnP isWhiteSpace).filter (fun w => decide (w ≠ []))

/-- Rule 5: there is no token. -/
def hasNoToken (t : JSString) : Bool := decide (tokens t = [])

/-- A letter, as the validity rule means it: `a`-`z`, `A`-`Z` and the accented
letters `À`-`ÿ` (`U+00C0`-`U+00FF`), the class of which the source file holds a
mis-encoded copy (`isWordLetter`). -/
def isLetter (c : Nat) : Bool := isLowerAZ c || isUpperAZ c || (0xC0 ≤ c && c ≤ 0xFF)

/-- A valid token: letters are more than 70% of its length, and its length is
between 2 and 49. -/
def isValidToken (w : JSString) : Bool :=
  decide (7 * w.length < 10 * w.countP isLetter ∧ 2 ≤ w.length ∧ w.length ≤ 49)

/-- Rule 6: among the first `min(100, n)` tokens, fewer than 30% are valid. -/
def tooFewValidTokens (t : JSString) : Bool :=
  decide (10 * ((tokens t).take (min 100 (tokens t).length)).countP isValidToken <
    3 * min 100 (tokens t).length)

/-- Rule 6 as the source decides it: validity is `isValidWord`, whose letters are
the class `isWordLetter` of the source file. -/
def tooFewValidWords (t : JSString) : Bool :=
  decide (10 * ((tokens t).take (min 100 (tokens t).length)).countP isValidWord <
    3 * min 100 (tokens t).length)

/-- The rules in the order of the specification, each with its reason. -/
def garbageRules : List ((JSString → Bool) × JSString) :=
  [ (hasPdfMarker, reasonPdf), (hasBinarySignature, reasonBinary), (isEmptyText, reasonEmpty),
    (tooManyNulls, reasonNullBytes), (tooManyControls, reasonNonPrintable),
    (hasNoToken, reasonNoWords), (tooFewValidTokens, reasonFewWords) ]

/-- The verdict of the first rule that fires; acceptance when none does. -/
def firstVerdict (rules : List ((JSString → Bool) × JSString)) (t : JSString) : GarbageCheck :=
  match rules.find? (fun r => r.1 t) with
  | some r => ⟨true, r.2⟩
  | none => ⟨false, []⟩

/-! ## A concrete host -/

/-- A concrete host: lower-casing unit by unit (`lowerUnits`) and the percentage
rounded from the exact quotient (`roundPercent`), which is what `toFixed(2)` shows
unless the quotient lies exactly between two hundredths. -/
def jsHost : Host where
  toLowerCase := lowerUnits
  lower_ascii := by
    intro s
    induction s with
    | nil => intro _; rfl
    | cons c cs ih =>
      intro h
      have hc : isAscii c = true := h c (List.mem_cons_self _ _)
      have ih2 := ih (fun d hd => h d (List.mem_cons_of_mem _ hd))
      simp only [lowerUnits, List.map_cons, ih2]
      have hu : lowerUnit c = [asciiLower c] := by
        simp only [isAscii, decide_eq_true_eq] at hc
        unfold lowerUnit asciiLower
        by_cases hu : isUpperAZ c = true
        · simp [hu]
        · have h1 : (0xC0 ≤ c && c ≤ 0xDE && c != 0xD7) = false := by
            simp; intro h; omega
          have h2 : (c == 0x130) = false := by simp; omega
          have h3 : (c == 0x178) = false := by simp; omega
          have h4 : (c == 0x212A) = false := by simp; omega
          have h5 : (c == 0x212B) = false := by simp; omega
          simp [hu, h1, h2, h3, h4, h5]
      rw [hu]; rfl
  lower_letter := by
    intro s
    induction s with
    | nil => intro c hc; simp at hc
    | cons d ds ih =>
      intro c hc hl
      simp only [lowerUnits, List.mem_append]
      rcases List.mem_cons.1 hc with h | h
      · left
        subst h
        have hlt : c ≤ 122 := by
          simp only [isLowerAZ, isUpperAZ, Bool.or_eq_true, Bool.and_eq_true, decide_eq_true_eq] at hl
          omega
        unfold lowerUnit asciiLower
        by_cases hu : isUpperAZ c = true
        · simp [hu]
        · have h1 : (0xC0 ≤ c && c ≤ 0xDE && c != 0xD7) = false := by
            simp; intro h; omega
          have h2 : (c == 0x130) = false := by simp; omega
          have h3 : (c == 0x178) = false := by simp; omega
          have h4 : (c == 0x212A) = false := by simp; omega
          have h5 : (c == 0x212B) = false := by simp; omega
          simp [hu, h1, h2, h3, h4, h5]
      · right; exact ih c h hl
  percent2 := roundPercent
  percent2_near := by
    intro c t ht _
    unfold roundPercent
    have h2t : 0 < 2 * t := by omega
    have hle : (20000 * c + t) / (2 * t) * (2 * t) ≤ 20000 * c + t := Nat.div_mul_le_self _ _
    have hlt : 20000 * c + t < ((20000 * c + t) / (2 * t) + 1) * (2 * t) := by
      have := Nat.lt_div_mul_add (a := 20000 * c + t) h2t
      rw [Nat.add_mul, Nat.one_mul]; exact this
    generalize (20000 * c + t) / (2 * t) = n at hle hlt
    have e1 : n * (2 * t) = 2 * (n * t) := by ring
    have e2 : (n + 1) * (2 * t) = 2 * (n * t) + 2 * t := by ring
    rw [e1] at hle; rw [e2] at hlt
    constructor <;> omega
  inherited := inheritedText

/-- A host for the flag `i`: ASCII case folding, other units compared as they
are. -/
def asciiFold : CaseFold where
  sameUnit := fun c d => asciiUpper c == asciiUpper d
  same_ascii := fun _ _ _ => rfl

/-! ## Predicates used by the statements -/

/-- A cleaned string: lower-case letters and single inner spaces. -/
def IsClean (s : JSString) : Prop :=
  (∀ c ∈ s, isLowerAZ c = true ∨ c = 32) ∧ includes s [32, 32] = false ∧
    s.head? ≠ some 32 ∧ s.getLast? ≠ some 32

/-- The sum of the values of a table. -/
def sumOfValues (obj : JSObject Nat) : Nat := (obj.map (fun e => e.2)).sum

/-- An ASCII letter, of either case. -/
def isAsciiLetter (c : Nat) : Bool := isLowerAZ c || isUpperAZ c

/-- A text with 22 letters, of which 3 `e`, 2 `t`, 2 `a` and 2 `r`, followed by
20 `ñ`. -/
def frenchLikeText : JSString :=
  js "eee tt aa rr xxxxxxxxxxxxx ññññññññññññññññññññ"

/-- The values `detectLanguage` returns. -/
def possibleLanguages : List JSString :=
  [js "French", js "English", js "Spanish", undeterminedCorruption, undeterminedPatterns]

/-- The stop-word list the specification assigns to a language: the French list
for `French`, the Spanish list for `Spanish`, the English list otherwise. -/
def chosenStopWords (sw : StopWordSets) (language : JSString) : List JSString :=
  if language = js "French" then sw.frenchStopWords
  else if language = js "Spanish" then sw.spanishStopWords
  else sw.stopWords

/-- Stop-word lists for the examples. -/
def sampleStopWords : StopWordSets :=
  ⟨[js "the", js "on", js "is"], [js "le", js "la", js "de"], [js "el", js "la", js "de"]⟩

/-- A letter-frequency table: the keys `a` to `z`, each value between `0` and
`100.00`, the values adding up to at most `100.00`. -/
def isPercentTable (letterFreq : JSObject Nat) : Bool :=
  decide (letterFreq.map (fun e => e.1) = (List.range' 97 26).map (fun i => [i])) &&
    letterFreq.all (fun e => decide (e.2 ≤ 10000)) && decide (sumOfValues letterFreq ≤ 10000)

/-- The common-word score of English for a text. -/
def englishScore (H : Host) (text : JSString) : Nat :=
  wordScore commonEnglishWords (H.toLowerCase text)

/-- The common-word score of French for a text. -/
def frenchScore (H : Host) (text : JSString) : Nat :=
  wordScore commonFrenchWords (H.toLowerCase text)

/-- The common-word score of Spanish for a text. -/
def spanishScore (H : Host) (text : JSString) : Nat :=
  wordScore commonSpanishWords (H.toLowerCase text)

/-- The letter-frequency stage and the accented-character stage are both
inconclusive. -/
def stagesInconclusive (H : Host) (letterFreq : JSObject Nat) (foreignChars : List ForeignChar) :
    Bool :=
  !frenchSignature letterFreq && !englishSignature letterFreq && !spanishSignature letterFreq &&
    (decide (foreignChars.length = 0) ||
      (decide (countIn H spanishUnique foreignChars < 10) &&
        decide (countIn H frenchHeavy foreignChars < 10)))

/-- Twenty `ñ`. -/
def twentyEnyes : JSString := js "ññññññññññññññññññññ"

/-- A text with twelve French accented letters. -/
def frenchAccents : JSString := js "è é à ç è ê à ù è ç à è ê"

/-- The search terms the specification lists for one surviving token: the
token alone when it contains `*`; otherwise the token, followed by its stem
when the stem differs from it and is longer than 2. -/
def termsOfToken (H : Host) (token : JSString) : List JSString :=
  if 42 ∈ token then [token]
  else if stemWord H token ≠ token ∧ 2 < (stemWord H token).length then
    [token, stemWord H token]
  else [token]

/-- The tuples `(originalTerm, searchTerm, kind)` of one surviving token. -/
def tuplesOfToken (H : Host) (token : JSString) : List (JSString × JSString × JSString) :=
  if 42 ∈ token then [(token, token, js "wildcard")]
  else if stemWord H token ≠ token ∧ 2 < (stemWord H token).length then
    [(token, token, js "exact"), (token, stemWord H token, js "stemmed")]
  else [(token, token, js "exact")]

/-- A stored document: `Hello, World!` with its cleaned text. -/
def helloDocument : StoredDocument :=
  ⟨js "d1", js "hello.txt", js "Hello, World!", some (cleanText jsHost (js "Hello, World!"))⟩

/-- A stored document with the words `runs` and `ran`. -/
def runsDocument : StoredDocument :=
  ⟨js "d2", js "runs.txt", js "She runs and ran.", some (cleanText jsHost (js "She runs and ran."))⟩

/-- A stored document with the words `run` and `ran`. -/
def runDocument : StoredDocument :=
  ⟨js "d3", js "run.txt", js "They run and ran.", some (cleanText jsHost (js "They run and ran."))⟩

/-- A sequence of navigation steps: `true` for next, `false` for previous. -/
def runSteps : List Bool → Navigation → Navigation
  | [], nav => nav
  | true :: rest, nav => runSteps rest (jumpToNextOccurrence nav)
  | false :: rest, nav => runSteps rest (jumpToPreviousOccurrence nav)

/-- A highlighted element before any navigation. -/
def plainElement : MatchElement := ⟨js "#ffeb3b", [], []⟩

/-- A keyword without `*` whose pattern `new RegExp` rejects: it has a `(` that
is neither escaped nor inside a character class and is never closed. -/
def hasUnclosedGroup (keyword : JSString) : Bool :=
  !includes keyword (js "*") && keyword.any (fun c => c == 40) &&
    !keyword.any (fun c => c == 41 || c == 91 || c == 92)

/-- A keyword whose pattern is described by `keywordPattern`: it contains `*`, or
it contains no character with a meaning in a pattern. -/
def isPlainKeyword (keyword : JSString) : Bool :=
  decide (42 ∈ keyword) || !keyword.any isRegexOperator

/-! ## Whole words and the words a term stands for -/

/-- The rest of a term after a `*`, on a word: the `*` takes any number of
leading word characters of the word, and `rest` decides on what is left. -/
def starFits (rest : JSString → Bool) : JSString → Bool
  | [] => rest []
  | d :: w => rest (d :: w) || (isWordChar d && starFits rest w)

/-- Whether a word fits a term, `*` standing for zero or more word characters
and every other character for itself, in either case. -/
def wildcardFits : JSString → JSString → Bool
  | [], w => w.isEmpty
  | c :: term, w =>
    if c == 42 then starFits (wildcardFits term) w
    else
      match w with
      | [] => false
      | d :: w2 => asciiUpper c == asciiUpper d && wildcardFits term w2

/-- Whether `s` starts with a run of exactly `n` word characters: at least one
unit, all of them word characters, and no word character right after. -/
def isWordRun (s : JSString) (n : Nat) : Bool :=
  decide (0 < n) && decide (n ≤ s.length) && (s.take n).all isWordChar &&
    !((s.drop n).head?.any isWordChar)

/-- Whether the `n` units of `s` from index `i` are a whole word: a run of word
characters with no word character right before and none right after. -/
def isWholeWord (s : JSString) (i n : Nat) : Bool :=
  !((s.take i).getLast?.any isWordChar) && isWordRun (s.drop i) n

/-! ## Cleaning -/

/-- The string of two spaces. -/
theorem js_two_spaces : js "  " = [32, 32] := by decide

theorem includes_spaces_nil : includes [] [32, 32] = false := rfl

theorem includes_spaces_single (a : Nat) : includes [a] [32, 32] = false := by
  simp [includes, startsWith]

theorem includes_spaces_cons (a b : Nat) (r : JSString) :
    includes (a :: b :: r) [32, 32] = ((a == 32 && b == 32) || includes (b :: r) [32, 32]) := by
  simp [includes, startsWith]

/-- Putting a unit in front of a string without two spaces in a row. -/
theorem noDouble_cons (a : Nat) (l : JSString) (hl : includes l [32, 32] = false)
    (h : a ≠ 32 ∨ l.head? ≠ some 32) : includes (a :: l) [32, 32] = false := by
  cases l with
  | nil => exact includes_spaces_single a
  | cons b r =>
    rw [includes_spaces_cons, hl]
    rcases h with h | h
    · simp [h]
    · have : b ≠ 32 := by simpa using h
      simp [this]

theorem noDouble_tail (a : Nat) (l : JSString) (h : includes (a :: l) [32, 32] = false) :
    includes l [32, 32] = false := by
  cases l with
  | nil => rfl
  | cons b r =>
    rw [includes_spaces_cons] at h
    simp only [Bool.or_eq_false_iff] at h
    exact h.2

theorem isWhiteSpace_space : isWhiteSpace 32 = true := by decide

theorem ne_space_of_not_ws {c : Nat} (h : isWhiteSpace c = false) : c ≠ 32 := by
  intro e; subst e; simp [isWhiteSpace_space] at h

theorem isLowerAZ_not_ws {c : Nat} (h : isLowerAZ c = true) : isWhiteSpace c = false := by
  simp only [isLowerAZ, Bool.and_eq_true, decide_eq_true_eq] at h
  simp only [isWhiteSpace, Bool.or_eq_false_iff, beq_eq_false_iff_ne, ne_eq, Bool.and_eq_false_imp,
    decide_eq_true_eq, decide_eq_false_iff_not]
  omega

/-- What `collapseAux` returns has no two spaces in a row, and does not start
with a space when the unit before was white space. -/
theorem collapseAux_noDouble (s : JSString) : ∀ inWs : Bool,
    includes (collapseAux inWs s) [32, 32] = false ∧
      (inWs = true → (collapseAux inWs s).head? ≠ some 32) := by
  induction s with
  | nil => intro inWs; simp [collapseAux, includes, startsWith]
  | cons c cs ih =>
    intro inWs
    by_cases hw : isWhiteSpace c = true
    · cases inWs with
      | true =>
        have e : collapseAux true (c :: cs) = collapseAux true cs := by
          simp [collapseAux, hw]
        rw [e]; exact ih true
      | false =>
        simp only [collapseAux, hw, if_true, Bool.false_eq_true, if_false]
        refine ⟨noDouble_cons 32 _ (ih true).1 (Or.inr ((ih true).2 rfl)), ?_⟩
        intro h; cases h
    · have hw2 : isWhiteSpace c = false := by simpa using hw
      have hne : c ≠ 32 := ne_space_of_not_ws hw2
      simp only [collapseAux, hw2, Bool.false_eq_true, if_false]
      refine ⟨noDouble_cons c _ (ih false).1 (Or.inl hne), ?_⟩
      intro _; simpa using hne

/-- The units `collapseAux` returns are spaces and units of the input that are
not white space. -/
theorem collapseAux_mem (s : JSString) : ∀ (inWs : Bool) (c : Nat),
    c ∈ collapseAux inWs s → c = 32 ∨ (c ∈ s ∧ isWhiteSpace c = false) := by
  induction s with
  | nil => intro inWs c h; simp [collapseAux] at h
  | cons d ds ih =>
    intro inWs c h
    by_cases hw : isWhiteSpace d = true
    · cases inWs with
      | true =>
        simp only [collapseAux, hw, if_true] at h
        rcases ih true c h with h | h
        · exact Or.inl h
        · exact Or.inr ⟨List.mem_cons_of_mem _ h.1, h.2⟩
      | false =>
        simp only [collapseAux, hw, if_true, Bool.false_eq_true, if_false, List.mem_cons] at h
        rcases h with h | h
        · exact Or.inl h
        · rcases ih true c h with h | h
          · exact Or.inl h
          · exact Or.inr ⟨List.mem_cons_of_mem _ h.1, h.2⟩
    · have hw2 : isWhiteSpace d = false := by simpa using hw
      simp only [collapseAux, hw2, Bool.false_eq_true, if_false, List.mem_cons] at h
      rcases h with h | h
      · subst h; exact Or.inr ⟨List.mem_cons_self _ _, hw2⟩
      · rcases ih false c h with h | h
        · exact Or.inl h
        · exact Or.inr ⟨List.mem_cons_of_mem _ h.1, h.2⟩

theorem trimStart_mem (s : JSString) : ∀ c, c ∈ trimStart s → c ∈ s := by
  induction s with
  | nil => intro c h; simp [trimStart] at h
  | cons d ds ih =>
    intro c h
    by_cases hw : isWhiteSpace d = true
    · simp only [trimStart, hw, if_true] at h
      exact List.mem_cons_of_mem _ (ih c h)
    · have hw2 : isWhiteSpace d = false := by simpa using hw
      simpa only [trimStart, hw2, Bool.false_eq_true, if_false] using h

theorem trimStart_noDouble (s : JSString) (h : includes s [32, 32] = false) :
    includes (trimStart s) [32, 32] = false := by
  induction s with
  | nil => rfl
  | cons d ds ih =>
    by_cases hw : isWhiteSpace d = true
    · simp only [trimStart, hw, if_true]
      exact ih (noDouble_tail d ds h)
    · have hw2 : isWhiteSpace d = false := by simpa using hw
      simpa only [trimStart, hw2, Bool.false_eq_true, if_false] using h

theorem trimStart_head (s : JSString) : ∀ c, (trimStart s).head? = some c → isWhiteSpace c = false := by
  induction s with
  | nil => intro c h; simp [trimStart] at h
  | cons d ds ih =>
    intro c h
    by_cases hw : isWhiteSpace d = true
    · simp only [trimStart, hw, if_true] at h
      exact ih c h
    · have hw2 : isWhiteSpace d = false := by simpa using hw
      simp only [trimStart, hw2, Bool.false_eq_true, if_false, List.head?_cons, Option.some.injEq] at h
      subst h; exact hw2

/-- Unfolding of `trimEnd` on a non-empty string. -/
theorem trimEnd_cons (c : Nat) (cs : JSString) :
    trimEnd (c :: cs) =
      if trimEnd cs = [] then (if isWhiteSpace c then [] else [c]) else c :: trimEnd cs := by
  rw [trimEnd]
  cases h : trimEnd cs with
  | nil => simp
  | cons r rs => simp

theorem trimEnd_head (s : JSString) (h : trimEnd s ≠ []) : (trimEnd s).head? = s.head? := by
  cases s with
  | nil => rfl
  | cons c cs =>
    rw [trimEnd_cons] at h ⊢
    by_cases he : trimEnd cs = []
    · simp only [he, if_true] at h ⊢
      by_cases hw : isWhiteSpace c = true
      · simp [hw] at h
      · simp [hw]
    · simp [he]

theorem trimEnd_mem (s : JSString) : ∀ c, c ∈ trimEnd s → c ∈ s := by
  induction s with
  | nil => intro c h; simp [trimEnd] at h
  | cons d ds ih =>
    intro c h
    rw [trimEnd_cons] at h
    by_cases he : trimEnd ds = []
    · simp only [he, if_true] at h
      by_cases hw : isWhiteSpace d = true
      · simp [hw] at h
      · simp only [hw, Bool.false_eq_true, if_false, List.mem_singleton] at h
        subst h; exact List.mem_cons_self _ _
    · simp only [he, if_false, List.mem_cons] at h
      rcases h with h | h
      · subst h; exact List.mem_cons_self _ _
      · exact List.mem_cons_of_mem _ (ih c h)

theorem trimEnd_noDouble (s : JSString) (h : includes s [32, 32] = false) :
    includes (trimEnd s) [32, 32] = false := by
  induction s with
  | nil => rfl
  | cons d ds ih =>
    have hds := noDouble_tail d ds h
    rw [trimEnd_cons]
    by_cases he : trimEnd ds = []
    · simp only [he, if_true]
      by_cases hw : isWhiteSpace d = true
      · simp [hw, includes, startsWith]
      · simp [hw, includes, startsWith]
    · simp only [he, if_false]
      apply noDouble_cons d _ (ih hds)
      rw [trimEnd_head ds he]
      cases ds with
      | nil => right; simp
      | cons b r =>
        rw [includes_spaces_cons] at h
        simp only [Bool.or_eq_false_iff, Bool.and_eq_false_imp, beq_iff_eq] at h
        by_cases hd : d = 32
        · right
          have := h.1 hd
          simpa using this
        · left; exact hd

theorem trimEnd_last (s : JSString) : ∀ c, (trimEnd s).getLast? = some c → isWhiteSpace c = false := by
  induction s with
  | nil => intro c h; simp [trimEnd] at h
  | cons d ds ih =>
    intro c h
    rw [trimEnd_cons] at h
    by_cases he : trimEnd ds = []
    · simp only [he, if_true] at h
      by_cases hw : isWhiteSpace d = true
      · simp [hw] at h
      · have hw2 : isWhiteSpace d = false := by simpa using hw
        simp only [hw2, Bool.false_eq_true, if_false, List.getLast?_singleton, Option.some.injEq] at h
        subst h; exact hw2
    · simp only [he, if_false] at h
      cases hq : trimEnd ds with
      | nil => exact absurd hq he
      | cons r rs =>
        rw [hq, List.getLast?_cons_cons] at h
        rw [hq] at ih
        exact ih c h



theorem cleanText_isClean (H : Host) (t : JSString) : IsClean (cleanText H t) := by
  unfold cleanText
  simp only
  generalize (List.map (fun c => if isDigit c = true then 32 else c)
    (H.toLowerCase (List.filter isAscii t))) = s3
  set s4 := List.map (fun c => if (isLowerAZ c || isWhiteSpace c) = true then c else 32) s3 with hs4
  have h4 : ∀ c ∈ s4, isLowerAZ c = true ∨ isWhiteSpace c = true := by
    intro c hc
    rw [hs4, List.mem_map] at hc
    obtain ⟨d, _, hd⟩ := hc
    by_cases hq : (isLowerAZ d || isWhiteSpace d) = true
    · rw [if_pos hq] at hd; subst hd
      simpa using hq
    · rw [if_neg hq] at hd; subst hd
      right; exact isWhiteSpace_space
  have h5 : ∀ c ∈ collapseAux false s4, isLowerAZ c = true ∨ c = 32 := by
    intro c hc
    rcases collapseAux_mem s4 false c hc with h | ⟨hm, hw⟩
    · exact Or.inr h
    · rcases h4 c hm with h | h
      · exact Or.inl h
      · rw [hw] at h; cases h
  have n5 := (collapseAux_noDouble s4 false).1
  refine ⟨?_, ?_, ?_, ?_⟩
  · intro c hc
    exact h5 c (trimStart_mem _ c (trimEnd_mem _ c hc))
  · exact trimEnd_noDouble _ (trimStart_noDouble _ n5)
  · intro h
    by_cases he : trimEnd (trimStart (collapseAux false s4)) = []
    · unfold trim at h; rw [he] at h; cases h
    · unfold trim at h
      rw [trimEnd_head _ he] at h
      have := trimStart_head _ 32 h
      rw [isWhiteSpace_space] at this; cases this
  · intro h
    have := trimEnd_last _ 32 h
    rw [isWhiteSpace_space] at this; cases this

theorem isLowerAZ_lt {c : Nat} (h : isLowerAZ c = true) : 97 ≤ c ∧ c ≤ 122 := by
  simpa [isLowerAZ] using h

theorem clean_unit_facts {c : Nat} (h : isLowerAZ c = true ∨ c = 32) :
    isAscii c = true ∧ asciiLower c = c ∧ isDigit c = false ∧
      (isLowerAZ c || isWhiteSpace c) = true ∧ (isWhiteSpace c = true → c = 32) := by
  rcases h with h | h
  · have hb := isLowerAZ_lt h
    refine ⟨?_, ?_, ?_, ?_, ?_⟩
    · simp [isAscii]; omega
    · have : isUpperAZ c = false := by simp [isUpperAZ]; omega
      simp [asciiLower, this]
    · simp [isDigit]; omega
    · simp [h]
    · intro hw; rw [isLowerAZ_not_ws h] at hw; cases hw
  · subst h; decide

theorem collapseAux_clean (s : JSString) (hs : ∀ c ∈ s, isLowerAZ c = true ∨ c = 32)
    (hd : includes s [32, 32] = false) :
    collapseAux false s = s ∧ (s.head? ≠ some 32 → collapseAux true s = s) := by
  induction s with
  | nil => simp [collapseAux]
  | cons c cs ih =>
    have ih2 := ih (fun d hd => hs d (List.mem_cons_of_mem _ hd)) (noDouble_tail c cs hd)
    rcases hs c (List.mem_cons_self _ _) with hc | hc
    · have hw := isLowerAZ_not_ws hc
      simp [collapseAux, hw, ih2.1]
    · subst hc
      have hcs : cs.head? ≠ some 32 := by
        cases cs with
        | nil => simp
        | cons b r =>
          rw [includes_spaces_cons] at hd
          simp only [Bool.or_eq_false_iff, Bool.and_eq_false_imp, beq_iff_eq] at hd
          have := hd.1 trivial
          simpa using this
      simp [collapseAux, isWhiteSpace_space, ih2.2 hcs]

theorem trimStart_clean (s : JSString) (hs : ∀ c ∈ s, isLowerAZ c = true ∨ c = 32)
    (hh : s.head? ≠ some 32) : trimStart s = s := by
  cases s with
  | nil => rfl
  | cons c cs =>
    rcases hs c (List.mem_cons_self _ _) with hc | hc
    · simp [trimStart, isLowerAZ_not_ws hc]
    · subst hc; simp at hh

theorem trimEnd_clean (s : JSString) (hs : ∀ c ∈ s, isLowerAZ c = true ∨ c = 32)
    (hl : s.getLast? ≠ some 32) : trimEnd s = s := by
  induction s with
  | nil => rfl
  | cons c cs ih =>
    cases cs with
    | nil =>
      rcases hs c (List.mem_cons_self _ _) with hc | hc
      · simp [trimEnd, isLowerAZ_not_ws hc]
      · subst hc; simp at hl
    | cons b r =>
      rw [List.getLast?_cons_cons] at hl
      have e := ih (fun d hd => hs d (List.mem_cons_of_mem _ hd)) hl
      rw [trimEnd_cons, e]; simp

/-- A cleaned string is a fixed point of `cleanText`. -/
theorem cleanText_of_isClean (H : Host) (s : JSString) (h : IsClean s) : cleanText H s = s := by
  obtain ⟨hs, hd, hh, hl⟩ := h
  have f := fun c hc => clean_unit_facts (hs c hc)
  have e1 : s.filter isAscii = s := List.filter_eq_self.2 (fun c hc => (f c hc).1)
  have e2 : H.toLowerCase s = s := by
    rw [H.lower_ascii s (fun c hc => (f c hc).1)]
    conv_rhs => rw [← List.map_id s]
    exact List.map_congr_left (fun c hc => (f c hc).2.1)
  have e3 : s.map (fun c => if isDigit c then 32 else c) = s := by
    conv_rhs => rw [← List.map_id s]
    apply List.map_congr_left
    intro c hc; simp [(f c hc).2.2.1]
  have e4 : s.map (fun c => if isLowerAZ c || isWhiteSpace c then c else 32) = s := by
    conv_rhs => rw [← List.map_id s]
    apply List.map_congr_left
    intro c hc; simp [(f c hc).2.2.2.1]
  unfold cleanText
  simp only [e1, e2, e3, e4, (collapseAux_clean s hs hd).1, trim, trimStart_clean s hs hh,
    trimEnd_clean s hs hl]

/-- C3: `cleanText` is idempotent: cleaning a cleaned text changes nothing, for
every host and every string. -/
theorem cleanText_idempotent (H : Host) (t : JSString) :
    cleanText H (cleanText H t) = cleanText H t :=
  cleanText_of_isClean H _ (cleanText_isClean H t)

/-- C4: every unit of `cleanText t` is a letter `a`-`z` or a space (so it is no
upper-case letter, digit, non-ASCII unit, tab or newline), the result has no two
spaces in a row and neither starts nor ends with a space. -/
theorem cleanText_letters_and_single_spaces (H : Host) (t : JSString) :
    (∀ c ∈ cleanText H t, (isLowerAZ c = true ∨ c = 32) ∧ isUpperAZ c = false ∧
      isDigit c = false ∧ isAscii c = true ∧ c ≠ 9 ∧ c ≠ 10 ∧ c ≠ 13) ∧
    includes (cleanText H t) (js "  ") = false ∧
    (cleanText H t).head? ≠ some 32 ∧ (cleanText H t).getLast? ≠ some 32 := by
  obtain ⟨hs, hd, hh, hl⟩ := cleanText_isClean H t
  refine ⟨?_, by rw [js_two_spaces]; exact hd, hh, hl⟩
  intro c hc
  have h := hs c hc
  refine ⟨h, ?_⟩
  rcases h with h | h
  · have hb := isLowerAZ_lt h
    simp only [isUpperAZ, isDigit, isAscii]
    refine ⟨?_, ?_, ?_, ?_, ?_, ?_⟩ <;> simp <;> omega
  · subst h; decide


/-! ## Stemming -/

theorem startsWith_length (s p : JSString) (h : startsWith s p = true) : p.length ≤ s.length := by
  induction p generalizing s with
  | nil => simp
  | cons d ds ih =>
    cases s with
    | nil => simp [startsWith] at h
    | cons c cs =>
      simp only [startsWith, Bool.and_eq_true] at h
      have := ih cs h.2
      simp only [List.length_cons]; omega

theorem endsWith_length (s p : JSString) (h : endsWith s p = true) : p.length ≤ s.length := by
  have := startsWith_length _ _ h
  simpa using this

/-- A rule table whose replacements are not longer than the suffixes never
lengthens a word. -/
theorem applySuffixRules_length (w : JSString) (rules : List SuffixRule)
    (hr : ∀ r ∈ rules, r.replacement.length ≤ r.suffix.length) :
    (applySuffixRules w rules).length ≤ w.length := by
  induction rules with
  | nil => simp [applySuffixRules]
  | cons r rs ih =>
    have ih2 := ih (fun q hq => hr q (List.mem_cons_of_mem _ hq))
    rw [applySuffixRules]
    by_cases he : endsWith w r.suffix = true
    · rw [if_pos he]
      by_cases hm : meetsMinLength r (replaceSuffix w r) = true
      · rw [if_pos hm]
        have h1 := endsWith_length _ _ he
        have h2 := hr r (List.mem_cons_self _ _)
        simp only [replaceSuffix, List.length_append, List.length_take]
        omega
      · rw [if_neg hm]; exact ih2
    · rw [if_neg he]; exact ih2

theorem suffixRules_shrink : ∀ r ∈ suffixRules, r.replacement.length ≤ r.suffix.length := by
  decide

theorem stemWord_length_of_lower (H : Host) (w : JSString)
    (h : (H.toLowerCase w).length ≤ w.length) : (stemWord H w).length ≤ w.length := by
  unfold stemWord
  by_cases h2 : w.length ≤ 2
  · rw [if_pos h2]
  · rw [if_neg h2]
    have h3 := applySuffixRules_length (H.toLowerCase w) suffixRules suffixRules_shrink
    simp only
    split
    · simp only [List.length_dropLast]; omega
    · omega

/-- C5, as stated, fails: lower-casing `İstanbul` (8 units) gives 9 units, no
rule shortens them, and the stem is longer than the word. -/
theorem stemWord_lengthens_dotted_I :
    ¬ (∀ w : JSString, (stemWord jsHost w).length ≤ w.length) := by
  intro h
  exact absurd (h (js "İstanbul")) (by decide)

/-- C5, amended: a word of length 2 or less is returned as it is; the stem is
not longer than the word whenever the lower-cased word is not longer than the
word, which is so for every word of ASCII units. -/
theorem stemWord_never_lengthens (H : Host) (w : JSString) :
    (w.length ≤ 2 → stemWord H w = w) ∧
    ((H.toLowerCase w).length ≤ w.length → (stemWord H w).length ≤ w.length) ∧
    ((∀ c ∈ w, isAscii c = true) → (stemWord H w).length ≤ w.length) := by
  refine ⟨?_, stemWord_length_of_lower H w, ?_⟩
  · intro h; unfold stemWord; rw [if_pos h]
  · intro h
    apply stemWord_length_of_lower
    rw [H.lower_ascii w h, List.length_map]

/-- Witness for `stemWord_never_lengthens`. -/
theorem stemWord_never_lengthens_witness :
    (stemWord jsHost (js "as") = js "as") ∧
    ((stemWord jsHost (js "running")).length ≤ (js "running").length) ∧
    ((stemWord jsHost (js "cities")).length ≤ (js "cities").length) :=
  ⟨(stemWord_never_lengthens jsHost (js "as")).1 (by decide),
   (stemWord_never_lengthens jsHost (js "running")).2.1 (by decide),
   (stemWord_never_lengthens jsHost (js "cities")).2.2 (by decide)⟩

theorem startsWith_eq_isPrefixOf (s p : JSString) : startsWith s p = p.isPrefixOf s := by
  induction p generalizing s with
  | nil => cases s <;> simp [startsWith]
  | cons d ds ih =>
    cases s with
    | nil => simp [startsWith]
    | cons c cs =>
      simp only [startsWith, List.isPrefixOf, ih]
      rw [Bool.beq_comm]

theorem endsWith_eq_isSuffixOf (s p : JSString) : endsWith s p = p.isSuffixOf s := by
  unfold endsWith List.isSuffixOf
  exact startsWith_eq_isPrefixOf _ _

theorem replaceSuffix_eq_reference (w : JSString) (r : SuffixRule) :
    replaceSuffix w r = referenceResult w r := by
  unfold replaceSuffix referenceResult
  congr 1
  rw [List.drop_reverse, List.reverse_reverse]

theorem meetsMinLength_iff (w : JSString) (r : SuffixRule) (hm : r.minLength ≠ some 0) :
    (endsWith w r.suffix && meetsMinLength r (replaceSuffix w r)) = ruleFires w r := by
  unfold ruleFires meetsMinLength
  rw [endsWith_eq_isSuffixOf, replaceSuffix_eq_reference]
  cases hq : r.minLength with
  | none => rfl
  | some m =>
    have hne : m ≠ 0 := by intro e; subst e; exact hm hq
    have hb : (m == 0) = false := by simpa using hne
    simp only [hb, Bool.false_or]

/-- The loop with `break` returns the result of the first rule that fires. -/
theorem applySuffixRules_eq_find (w : JSString) (rules : List SuffixRule)
    (hm : ∀ r ∈ rules, r.minLength ≠ some 0) :
    applySuffixRules w rules =
      (match rules.find? (ruleFires w) with
       | some r => referenceResult w r
       | none => w) := by
  induction rules with
  | nil => rfl
  | cons r rs ih =>
    have ih2 := ih (fun q hq => hm q (List.mem_cons_of_mem _ hq))
    have hf := meetsMinLength_iff w r (hm r (List.mem_cons_self _ _))
    rw [applySuffixRules, List.find?_cons]
    by_cases he : endsWith w r.suffix = true
    · rw [if_pos he]
      by_cases hq : meetsMinLength r (replaceSuffix w r) = true
      · rw [if_pos hq]
        have : ruleFires w r = true := by rw [← hf, he, hq]; rfl
        rw [this, replaceSuffix_eq_reference]
      · rw [if_neg hq]
        have : ruleFires w r = false := by
          rw [← hf, he]; simpa using hq
        rw [this]; exact ih2
    · rw [if_neg he]
      have : ruleFires w r = false := by
        rw [← hf]; simp [he]
      rw [this]; exact ih2

theorem referenceRules_eq : referenceRules = suffixRules := rfl

theorem suffixRules_minLength : ∀ r ∈ suffixRules, r.minLength ≠ some 0 := by decide

theorem applySuffixRules_eq_reference (w : JSString) :
    applySuffixRules w suffixRules = referenceSuffixStep w := by
  rw [applySuffixRules_eq_find w suffixRules suffixRules_minLength]
  rfl

theorem endsInDoubledChar_eq (w : JSString) :
    endsInDoubledChar w = (lastTwoEqual w && !(w.getLast?.any isLineTerminator)) := by
  unfold endsInDoubledChar lastTwoEqual
  rw [List.getLast?_eq_head?_reverse]
  cases w.reverse with
  | nil => rfl
  | cons a l =>
    cases l with
    | nil => simp
    | cons b l2 => simp


/-- The first `-ies` rule has no minimum length, so it fires whenever the third
rule would. -/
theorem third_rule_never_first (l : JSString) :
    referenceRules.find? (ruleFires l) ≠ some ⟨js "ies", js "ie", none⟩ := by
  intro h
  have hf : ruleFires l ⟨js "ies", js "ie", none⟩ = true := by
    have := List.find?_some h
    exact this
  have h1 : ruleFires l ⟨js "ies", js "y", none⟩ = true := by
    simp only [ruleFires, Bool.and_true] at hf ⊢
    exact hf
  have : referenceRules.find? (ruleFires l) = some ⟨js "ies", js "y", none⟩ := by
    unfold referenceRules
    rw [List.find?_cons, h1]
  rw [this] at h
  revert h
  decide

theorem suffixRules_erase_minLength : ∀ r ∈ suffixRules.eraseIdx 2, r.minLength ≠ some 0 := by
  decide

/-- Removing the third rule from the table changes no result of the loop. -/
theorem applySuffixRules_erase_third (l : JSString) :
    applySuffixRules l suffixRules = applySuffixRules l (suffixRules.eraseIdx 2) := by
  rw [applySuffixRules_eq_find l suffixRules suffixRules_minLength,
    applySuffixRules_eq_find l _ suffixRules_erase_minLength]
  have e : suffixRules.eraseIdx 2 =
      ⟨js "ies", js "y", none⟩ :: ⟨js "ied", js "y", none⟩ :: suffixRules.drop 3 := rfl
  have e0 : suffixRules =
      ⟨js "ies", js "y", none⟩ :: ⟨js "ied", js "y", none⟩ :: ⟨js "ies", js "ie", none⟩ ::
        suffixRules.drop 3 := rfl
  rw [e]
  conv_lhs => rw [e0]
  simp only [List.find?_cons]
  cases h1 : ruleFires l ⟨js "ies", js "y", none⟩ with
  | true => rfl
  | false =>
    have h3 : ruleFires l ⟨js "ies", js "ie", none⟩ = false := by
      simp only [ruleFires, Bool.and_true] at h1 ⊢
      exact h1
    simp only [h3]

theorem isWordChar_ascii {c : Nat} (h : isWordChar c = true) : isAscii c = true := by
  simp only [isWordChar, isLowerAZ, isUpperAZ, isDigit, Bool.or_eq_true, Bool.and_eq_true,
    decide_eq_true_eq, beq_iff_eq] at h
  simp only [isAscii, decide_eq_true_eq]
  omega

theorem isWordChar_lower {c : Nat} (h : isWordChar c = true) : isWordChar (asciiLower c) = true := by
  simp only [isWordChar, isLowerAZ, isUpperAZ, isDigit, Bool.or_eq_true, Bool.and_eq_true,
    decide_eq_true_eq, beq_iff_eq] at h
  unfold asciiLower
  split
  · next hu =>
    simp only [isUpperAZ, Bool.and_eq_true, decide_eq_true_eq] at hu
    simp only [isWordChar, isLowerAZ, isUpperAZ, isDigit, Bool.or_eq_true, Bool.and_eq_true,
      decide_eq_true_eq, beq_iff_eq]
    omega
  · simp only [isWordChar, isLowerAZ, isUpperAZ, isDigit, Bool.or_eq_true, Bool.and_eq_true,
      decide_eq_true_eq, beq_iff_eq]
    exact h

theorem applySuffixRules_chars (P : Nat → Prop) (w : JSString) (rules : List SuffixRule)
    (hw : ∀ c ∈ w, P c) (hr : ∀ r ∈ rules, ∀ c ∈ r.replacement, P c) :
    ∀ c ∈ applySuffixRules w rules, P c := by
  induction rules with
  | nil => simpa [applySuffixRules] using hw
  | cons r rs ih =>
    have ih2 := ih (fun q hq => hr q (List.mem_cons_of_mem _ hq))
    rw [applySuffixRules]
    split
    · split
      · intro c hc
        unfold replaceSuffix at hc
        rcases List.mem_append.1 hc with h | h
        · exact hw c (List.mem_of_mem_take h)
        · exact hr r (List.mem_cons_self _ _) c h
      · exact ih2
    · exact ih2

theorem suffixRules_no_terminator :
    ∀ r ∈ suffixRules, ∀ c ∈ r.replacement, isLineTerminator c = false := by
  decide

theorem isWordChar_not_terminator {c : Nat} (h : isWordChar c = true) :
    isLineTerminator c = false := by
  simp only [isWordChar, isLowerAZ, isUpperAZ, isDigit, Bool.or_eq_true, Bool.and_eq_true,
    decide_eq_true_eq, beq_iff_eq] at h
  simp only [isLineTerminator, Bool.or_eq_false_iff, beq_eq_false_iff_ne, ne_eq]
  omega

/-- When the lower-cased word has no line terminator, `stemWord` is the
reference. -/
theorem stemWord_eq_reference_of_lower (H : Host) (w : JSString) (hw : 2 < w.length)
    (hl : ∀ c ∈ H.toLowerCase w, isLineTerminator c = false) :
    stemWord H w = stemReference H w := by
  have hlen : ¬ w.length ≤ 2 := by omega
  have hr : ∀ c ∈ referenceSuffixStep (H.toLowerCase w), isLineTerminator c = false := by
    rw [← applySuffixRules_eq_reference]
    exact applySuffixRules_chars (fun c => isLineTerminator c = false) _ _ hl
      suffixRules_no_terminator
  have hlast : (referenceSuffixStep (H.toLowerCase w)).getLast?.any isLineTerminator = false := by
    cases hq : (referenceSuffixStep (H.toLowerCase w)).getLast? with
    | none => rfl
    | some c => exact hr c (List.mem_of_getLast?_eq_some hq)
  unfold stemWord stemReference
  rw [if_neg hlen]
  simp only [applySuffixRules_eq_reference, endsInDoubledChar_eq, hlast, Bool.not_false,
    Bool.and_true]

/-- C6: for every word longer than 2 units, `stemWord` is the reference of the
specification: lower-case, the result of the first rule of the table whose
suffix matches and whose result has the minimum length, then the last of two
equal final characters dropped when the word is longer than 3.  This holds for
every word made of word characters, and more generally whenever the lower-cased
word has no line terminator; the third rule is never the one that fires, and the
table without it gives the same results. -/
theorem stemWord_eq_reference (H : Host) (w : JSString) (hw : 2 < w.length) :
    ((∀ c ∈ w, isWordChar c = true) → stemWord H w = stemReference H w) ∧
    ((∀ c ∈ H.toLowerCase w, isLineTerminator c = false) →
      stemWord H w = stemReference H w) ∧
    (∀ l : JSString, referenceRules.find? (ruleFires l) ≠ some ⟨js "ies", js "ie", none⟩) ∧
    (∀ l : JSString,
      applySuffixRules l suffixRules = applySuffixRules l (suffixRules.eraseIdx 2)) := by
  refine ⟨?_, stemWord_eq_reference_of_lower H w hw, third_rule_never_first,
    applySuffixRules_erase_third⟩
  intro hword
  apply stemWord_eq_reference_of_lower H w hw
  rw [H.lower_ascii w (fun c hc => isWordChar_ascii (hword c hc))]
  intro c hc
  rw [List.mem_map] at hc
  obtain ⟨d, hd, rfl⟩ := hc
  exact isWordChar_not_terminator (isWordChar_lower (hword d hd))

/-- Witness for `stemWord_eq_reference`: the words `running` and `cities`. -/
theorem stemWord_eq_reference_witness :
    stemWord jsHost (js "running") = stemReference jsHost (js "running") ∧
    stemWord jsHost (js "cities") = stemReference jsHost (js "cities") ∧
    stemReference jsHost (js "cities") = js "city" :=
  ⟨(stemWord_eq_reference jsHost (js "running") (by decide)).1 (by decide),
   (stemWord_eq_reference jsHost (js "cities") (by decide)).1 (by decide), by decide⟩

theorem stemWord_ascii (H : Host) (w : JSString) (h : ∀ c ∈ w, isAscii c = true) :
    stemWord H w = stemWord jsHost w := by
  unfold stemWord
  rw [H.lower_ascii w h, jsHost.lower_ascii w h]

/-- C7: on every host `stemWord` reduces `running` to `run` and leaves `as` as it
is, but it returns `runs` and `cats` unchanged: the rule `-s` asks for a result
of at least 4 units, and `run` and `cat` have 3. -/
theorem stemWord_running_runs_cats (H : Host) :
    stemWord H (js "running") = js "run" ∧ stemWord H (js "runs") = js "runs" ∧
    stemWord H (js "cats") = js "cats" ∧ stemWord H (js "as") = js "as" := by
  refine ⟨?_, ?_, ?_, ?_⟩
  · rw [stemWord_ascii H _ (by decide)]; decide
  · rw [stemWord_ascii H _ (by decide)]; decide
  · rw [stemWord_ascii H _ (by decide)]; decide
  · rw [stemWord_ascii H _ (by decide)]; decide


/-! ## Garbage detection -/

theorem startsWith_iff (s p : JSString) : startsWith s p = true ↔ p <+: s := by
  rw [startsWith_eq_isPrefixOf, List.isPrefixOf_iff_prefix]

theorem includes_iff (s p : JSString) : includes s p = true ↔ p <:+: s := by
  induction s with
  | nil =>
    rw [includes, startsWith_iff]
    simp [List.prefix_nil, List.infix_nil]
  | cons c cs ih =>
    rw [includes, Bool.or_eq_true, startsWith_iff, ih, List.infix_cons_iff]

theorem pdfCheck_eq (t : JSString) :
    (includes t (js "%PDF") || includes t (js "%%EOF")) = hasPdfMarker t := by
  unfold hasPdfMarker
  rw [Bool.eq_iff_iff]
  simp only [Bool.or_eq_true, includes_iff, decide_eq_true_eq]

theorem signatureCheck_eq (t : JSString) :
    binarySignatures.any (fun signature => includes t signature) = hasBinarySignature t := by
  unfold hasBinarySignature
  rw [Bool.eq_iff_iff]
  simp only [List.any_eq_true, includes_iff, decide_eq_true_eq]
  have hm : ∀ sig, sig ∈ binarySignatures ↔ sig ∈ fixedSignatures := by
    intro sig
    have e1 : binarySignatures = fixedSignatures ++ [[0x50, 0x4B, 3, 4]] := by decide
    have e2 : fixedSignatures = [0x50, 0x4B, 3, 4] :: fixedSignatures.tail := by decide
    rw [e1, List.mem_append, List.mem_singleton]
    constructor
    · rintro (h | h)
      · exact h
      · rw [e2, h]; exact List.mem_cons_self _ _
    · intro h; exact Or.inl h
  constructor
  · rintro ⟨sig, hs, hi⟩; exact ⟨sig, (hm sig).1 hs, hi⟩
  · rintro ⟨sig, hs, hi⟩; exact ⟨sig, (hm sig).2 hs, hi⟩

/-- The counting loop computes the two counts of the specification. -/
theorem countLoop_eq (t : JSString) : ∀ st : Nat × Nat,
    t.foldl countStep st = (st.1 + t.countP isControl, st.2 + t.count 0) := by
  induction t with
  | nil => intro st; simp
  | cons c cs ih =>
    intro st
    rw [List.foldl_cons, ih]
    have h1 : (countStep st c).1 = st.1 + (if isControl c then 1 else 0) := by
      simp only [countStep, isControl]
      by_cases h : c < 32 <;> by_cases h9 : c = 9 <;> by_cases h10 : c = 10 <;>
        by_cases h13 : c = 13 <;> simp [h, h9, h10, h13]
    have h2 : (countStep st c).2 = st.2 + (if c = 0 then 1 else 0) := by
      simp only [countStep]
      by_cases h : c = 0 <;> simp [h]
    rw [h1, h2, List.countP_cons, List.count_cons]
    congr 1
    · by_cases h : isControl c = true
      · simp [h]; omega
      · simp [h]
    · by_cases h : c = 0
      · subst h; simp; omega
      · have : (c == 0) = false := by simpa using h
        simp [h]

theorem splitAux_tokens (s : JSString) : ∀ (cur : JSString) (inWs : Bool),
    (inWs = true → cur = []) →
    (splitAux s cur inWs).filter (fun word => decide (0 < word.length)) =
      (List.splitOnP.go isWhiteSpace s cur).filter (fun w => decide (w ≠ [])) := by
  have hp : (fun word : JSString => decide (0 < word.length)) = (fun w => decide (w ≠ [])) := by
    funext w; cases w <;> simp
  rw [hp]
  induction s with
  | nil => intro cur inWs _; rfl
  | cons c cs ih =>
    intro cur inWs hc
    by_cases hw : isWhiteSpace c = true
    · cases inWs with
      | true =>
        have e : cur = [] := hc rfl
        subst e
        simp only [splitAux, List.splitOnP.go, hw, if_true, List.reverse_nil]
        rw [ih [] true (fun _ => rfl)]
        simp
      | false =>
        simp only [splitAux, List.splitOnP.go, hw, if_true, Bool.false_eq_true, if_false]
        rw [List.filter_cons, List.filter_cons, ih [] true (fun _ => rfl)]
    · have hw2 : isWhiteSpace c = false := by simpa using hw
      simp only [splitAux, List.splitOnP.go, hw2, Bool.false_eq_true, if_false]
      exact ih (c :: cur) false (fun h => by cases h)

theorem words_eq_tokens (t : JSString) :
    (splitWs t).filter (fun word => decide (0 < word.length)) = tokens t := by
  unfold splitWs tokens List.splitOnP
  exact splitAux_tokens t [] false (fun h => by cases h)

/-- On a word in which the class of the source file holds the letters and
nothing else, the test of the loop is the validity of the specification. -/
theorem isValidWord_eq (w : JSString) (h : ∀ c ∈ w, isWordLetter c = isLetter c) :
    isValidWord w = isValidToken w := by
  unfold isValidWord isValidToken
  have e : w.countP isLetter = (w.filter isWordLetter).length := by
    rw [← List.countP_eq_length_filter]
    exact (List.countP_congr (fun c hc => by rw [h c hc])).symm
  rw [Bool.eq_iff_iff, e]
  simp only [Bool.and_eq_true, decide_eq_true_eq]
  omega

theorem take_hundred {α : Type} (l : List α) : l.take 100 = l.take (min 100 l.length) := by
  rw [List.take_eq_take]
  simp


/-- The source function as a chain of tests: those of the specification, and
rule 6 as the source decides it. -/
theorem detectGarbageFile_chain (t : JSString) :
    detectGarbageFile t =
      if hasPdfMarker t then ⟨true, reasonPdf⟩
      else if hasBinarySignature t then ⟨true, reasonBinary⟩
      else if isEmptyText t then ⟨true, reasonEmpty⟩
      else if tooManyNulls t then ⟨true, reasonNullBytes⟩
      else if tooManyControls t then ⟨true, reasonNonPrintable⟩
      else if hasNoToken t then ⟨true, reasonNoWords⟩
      else if tooFewValidWords t then ⟨true, reasonFewWords⟩
      else ⟨false, []⟩ := by
  unfold detectGarbageFile
  simp only [pdfCheck_eq, signatureCheck_eq, countLoop_eq, words_eq_tokens,
    Nat.zero_add]
  have e1 : (t.length == 0) = isEmptyText t := by
    unfold isEmptyText; cases t <;> simp
  have e2 : decide (t.length < 100 * t.count 0) = tooManyNulls t := rfl
  have e3 : decide (5 * t.length < 100 * t.countP isControl) = tooManyControls t := rfl
  have e4 : ((tokens t).length == 0) = hasNoToken t := by
    unfold hasNoToken; cases tokens t <;> simp
  have e5 : decide (10 * (((tokens t).take 100).filter isValidWord).length <
      3 * min 100 (tokens t).length) = tooFewValidWords t := by
    unfold tooFewValidWords
    rw [← take_hundred, List.countP_eq_length_filter]
  simp only [e1, e4, ← e2, ← e3, ← e5, decide_eq_true_eq]


theorem firstVerdict_nil (t : JSString) : firstVerdict [] t = ⟨false, []⟩ := rfl

theorem firstVerdict_cons (p : JSString → Bool) (r : JSString)
    (rules : List ((JSString → Bool) × JSString)) (t : JSString) :
    firstVerdict ((p, r) :: rules) t = if p t then ⟨true, r⟩ else firstVerdict rules t := by
  unfold firstVerdict
  rw [List.find?_cons]
  cases h : p t
  · simp only [h, Bool.false_eq_true, if_false]
  · simp only [h, if_true]

theorem garbageReasons_distinct :
    (garbageRules.map (fun r => r.2)).Nodup ∧ ∀ r ∈ garbageRules, r.2 ≠ [] := by
  constructor
  · simp only [garbageRules, List.map_cons, List.map_nil]
    decide
  · simp only [garbageRules, List.mem_cons, List.mem_singleton, List.not_mem_nil, or_false]
    rintro r (h | h | h | h | h | h | h) <;> subst h <;> decide

theorem no_rule_fires_iff (t : JSString) :
    (∀ r ∈ garbageRules, r.1 t = false) ↔
      (hasPdfMarker t = false ∧ hasBinarySignature t = false ∧ isEmptyText t = false ∧
        tooManyNulls t = false ∧ tooManyControls t = false ∧ hasNoToken t = false ∧
        tooFewValidTokens t = false) := by
  simp [garbageRules]

theorem hasBinarySignature_of_includes (t sig : JSString) (hs : sig ∈ fixedSignatures)
    (h : includes t sig = true) : hasBinarySignature t = true := by
  unfold hasBinarySignature
  rw [decide_eq_true_eq]
  exact ⟨sig, hs, (includes_iff t sig).1 h⟩

theorem hasPdfMarker_false_of_includes (t : JSString)
    (h : (includes t (js "%PDF") || includes t (js "%%EOF")) = false) :
    hasPdfMarker t = false := by
  rw [← pdfCheck_eq]; exact h


/-! ## Letter frequencies -/

/-- The keys `a` to `z`, as one-unit strings. -/
theorem initialLetterCounts_keys :
    initialLetterCounts.map (fun e => e.1) = (List.range' 97 26).map (fun i => [i]) := by
  decide

theorem updateProp_keys {α : Type} (obj : JSObject α) (key : JSString) (f : α → α) :
    (updateProp obj key f).map (fun e => e.1) = obj.map (fun e => e.1) := by
  unfold updateProp
  rw [List.map_map]
  apply List.map_congr_left
  intro e _
  simp only [Function.comp]
  split <;> rfl

/-- Adding one under a key that is not an own key changes nothing. -/
theorem updateProp_absent (obj : JSObject Nat) (key : JSString)
    (h : key ∉ obj.map (fun e => e.1)) : updateProp obj key (fun n => n + 1) = obj := by
  unfold updateProp
  conv_rhs => rw [← List.map_id obj]
  apply List.map_congr_left
  intro e he
  have : (e.1 == key) = false := by
    rw [beq_eq_false_iff_ne]
    intro h2
    apply h
    rw [← h2]
    exact List.mem_map_of_mem _ he
  simp [this]

/-- Adding one under an own key of a table with distinct keys adds one to the
sum of the values. -/
theorem updateProp_sum (obj : JSObject Nat) (key : JSString)
    (hn : (obj.map (fun e => e.1)).Nodup) (hk : key ∈ obj.map (fun e => e.1)) :
    ((updateProp obj key (fun n => n + 1)).map (fun e => e.2)).sum =
      (obj.map (fun e => e.2)).sum + 1 := by
  induction obj with
  | nil => simp at hk
  | cons e es ih =>
    rw [List.map_cons, List.nodup_cons] at hn
    by_cases he : e.1 = key
    · have hne : key ∉ es.map (fun e => e.1) := by rw [← he]; exact hn.1
      have hab := updateProp_absent es key hne
      unfold updateProp at hab ⊢
      rw [List.map_cons, hab]
      simp [he]
      omega
    · have hk2 : key ∈ es.map (fun e => e.1) := by
        rw [List.map_cons, List.mem_cons] at hk
        rcases hk with h | h
        · exact absurd h.symm he
        · exact h
      have ih2 := ih hn.2 hk2
      unfold updateProp at ih2 ⊢
      have hb : (e.1 == key) = false := by rw [beq_eq_false_iff_ne]; exact he
      rw [List.map_cons, List.map_cons, List.sum_cons, ih2]
      simp [hb]
      omega

theorem js_a : js "a" = [97] := by decide

theorem js_z : js "z" = [122] := by decide

theorem isLetterChar_single (c : Nat) : isLetterChar [c] = isLowerAZ c := by
  unfold isLetterChar isLowerAZ
  rw [js_a, js_z, Bool.eq_iff_iff]
  simp [jsLe]
  omega

theorem isLetterChar_pair (h l : Nat) (hh : isHighSurrogate h = true) :
    isLetterChar [h, l] = false := by
  unfold isLetterChar
  rw [js_a, js_z]
  simp only [isHighSurrogate, Bool.and_eq_true, decide_eq_true_eq] at hh
  simp [jsLe]
  omega

/-- A character of the loop is one unit of the string or a surrogate pair. -/
theorem codePoints_shape (s : JSString) : ∀ ch ∈ codePoints s,
    (∃ c, ch = [c] ∧ c ∈ s) ∨ (∃ h l, ch = [h, l] ∧ isHighSurrogate h = true) := by
  induction s using codePoints.induct with
  | case1 => intro ch h; simp [codePoints] at h
  | case2 c =>
    intro ch h
    simp only [codePoints, List.mem_singleton] at h
    exact Or.inl ⟨c, h, List.mem_singleton_self c⟩
  | case3 c d rest hp ih =>
    intro ch h
    simp only [codePoints, hp, if_true, List.mem_cons] at h
    rcases h with h | h
    · right
      simp only [Bool.and_eq_true] at hp
      exact ⟨c, d, h, hp.1⟩
    · rcases ih ch h with ⟨x, hx, hm⟩ | hpair
      · exact Or.inl ⟨x, hx, List.mem_cons_of_mem _ (List.mem_cons_of_mem _ hm)⟩
      · exact Or.inr hpair
  | case4 c d rest hp ih =>
    intro ch h
    simp only [codePoints, hp, Bool.false_eq_true, if_false, List.mem_cons] at h
    rcases h with h | h
    · exact Or.inl ⟨c, h, List.mem_cons_self _ _⟩
    · rcases ih ch h with ⟨x, hx, hm⟩ | hpair
      · exact Or.inl ⟨x, hx, List.mem_cons_of_mem _ hm⟩
      · exact Or.inr hpair

/-- A unit that is not a surrogate is a character of the loop. -/
theorem codePoints_mem (s : JSString) : ∀ u ∈ s, isHighSurrogate u = false →
    isLowSurrogate u = false → [u] ∈ codePoints s := by
  induction s using codePoints.induct with
  | case1 => intro u h; simp at h
  | case2 c =>
    intro u h _ _
    simp only [List.mem_singleton] at h
    subst h; simp [codePoints]
  | case3 c d rest hp ih =>
    intro u h hh hl
    simp only [codePoints, hp, if_true, List.mem_cons]
    simp only [Bool.and_eq_true] at hp
    simp only [List.mem_cons] at h
    rcases h with h | h | h
    · subst h; rw [hp.1] at hh; cases hh
    · subst h; rw [hp.2] at hl; cases hl
    · exact Or.inr (ih u h hh hl)
  | case4 c d rest hp ih =>
    intro u h hh hl
    simp only [codePoints, hp, Bool.false_eq_true, if_false, List.mem_cons]
    rcases List.mem_cons.1 h with h | h
    · subst h; exact Or.inl rfl
    · exact Or.inr (ih u h hh hl)

/-- A character that passes the test of the loop is one of the 26 keys. -/
theorem isLetterChar_codePoints (s : JSString) (ch : JSString) (hm : ch ∈ codePoints s)
    (hl : isLetterChar ch = true) : ∃ c, ch = [c] ∧ c ∈ s ∧ isLowerAZ c = true := by
  rcases codePoints_shape s ch hm with ⟨c, hc, hcs⟩ | ⟨h, l, hc, hh⟩
  · subst hc
    rw [isLetterChar_single] at hl
    exact ⟨c, rfl, hcs, hl⟩
  · subst hc
    rw [isLetterChar_pair h l hh] at hl
    cases hl

theorem letter_key_mem (c : Nat) (h : isLowerAZ c = true) :
    [c] ∈ initialLetterCounts.map (fun e => e.1) := by
  rw [initialLetterCounts_keys, List.mem_map]
  refine ⟨c, ?_, rfl⟩
  have := isLowerAZ_lt h
  rw [List.mem_range']
  exact ⟨c - 97, by omega, by omega⟩


theorem initialLetterCounts_nodup : (initialLetterCounts.map (fun e => e.1)).Nodup := by
  decide

/-- Invariant of the counting loop: the keys stay `a` to `z`, the counts add up
to `totalLetters`, and `totalLetters` counts the characters that pass the test. -/
theorem letterLoop_invariant (s : JSString) (chars : List JSString) :
    (∀ ch ∈ chars, ch ∈ codePoints s) → ∀ st : JSObject Nat × Nat,
    st.1.map (fun e => e.1) = initialLetterCounts.map (fun e => e.1) →
    (st.1.map (fun e => e.2)).sum = st.2 →
    ((chars.foldl letterStep st).1.map (fun e => e.1) = initialLetterCounts.map (fun e => e.1) ∧
      ((chars.foldl letterStep st).1.map (fun e => e.2)).sum = (chars.foldl letterStep st).2 ∧
      (chars.foldl letterStep st).2 = st.2 + chars.countP isLetterChar) := by
  induction chars with
  | nil => intro _ st hk hs; exact ⟨hk, hs, by simp⟩
  | cons ch rest ih =>
    intro hsub st hk hs
    have hrest : ∀ x ∈ rest, x ∈ codePoints s := fun x hx => hsub x (List.mem_cons_of_mem _ hx)
    rw [List.foldl_cons, List.countP_cons]
    by_cases hl : isLetterChar ch = true
    · obtain ⟨c, hc, _, hlow⟩ := isLetterChar_codePoints s ch (hsub ch (List.mem_cons_self _ _)) hl
      have hkey : ch ∈ st.1.map (fun e => e.1) := by
        rw [hk, hc]; exact letter_key_mem c hlow
      have hnd : (st.1.map (fun e => e.1)).Nodup := by rw [hk]; exact initialLetterCounts_nodup
      have e : letterStep st ch = (updateProp st.1 ch (fun n => n + 1), st.2 + 1) := by
        unfold letterStep; rw [if_pos hl]
      have h3 := ih hrest (letterStep st ch)
        (by rw [e]; simp only; rw [updateProp_keys]; exact hk)
        (by rw [e]; simp only; rw [updateProp_sum st.1 ch hnd hkey, hs])
      refine ⟨h3.1, h3.2.1, ?_⟩
      rw [h3.2.2, e]
      simp only [hl, if_true]
      omega
    · have e : letterStep st ch = st := by
        unfold letterStep; rw [if_neg hl]
      have h3 := ih hrest st hk hs
      rw [e]
      refine ⟨h3.1, h3.2.1, ?_⟩
      rw [h3.2.2]
      simp [hl]

/-- The rounded percentages of counts below `t` add up to `10000` hundredths,
up to `0.51` hundredths for each. -/
theorem percent_sum_bounds (H : Host) (t : Nat) (ht : 0 < t) (l : List Nat)
    (hl : ∀ v ∈ l, v ≤ t) :
    100 * ((l.map (fun v => H.percent2 v t)).sum * t) ≤ 100 * (10000 * l.sum) + 51 * t * l.length ∧
    100 * (10000 * l.sum) ≤ 100 * ((l.map (fun v => H.percent2 v t)).sum * t) + 51 * t * l.length := by
  induction l with
  | nil => simp
  | cons v vs ih =>
    have ih2 := ih (fun x hx => hl x (List.mem_cons_of_mem _ hx))
    have hv := H.percent2_near v t ht (hl v (List.mem_cons_self _ _))
    simp only [List.map_cons, List.sum_cons, List.length_cons, Nat.add_mul, Nat.mul_add,
      Nat.mul_one]
    constructor
    · linarith [hv.1, ih2.1]
    · linarith [hv.2, ih2.2]

theorem calculateLetterFrequency_unfold (H : Host) (text : JSString) :
    calculateLetterFrequency H text =
      ((codePoints (H.toLowerCase text)).foldl letterStep (initialLetterCounts, 0)).1.map
        (fun e => (e.1,
          if 0 < ((codePoints (H.toLowerCase text)).foldl letterStep (initialLetterCounts, 0)).2
          then H.percent2 e.2
            ((codePoints (H.toLowerCase text)).foldl letterStep (initialLetterCounts, 0)).2
          else 0)) := rfl

theorem letterLoop_facts (H : Host) (text : JSString) :
    (((codePoints (H.toLowerCase text)).foldl letterStep (initialLetterCounts, 0)).1.map
        (fun e => e.1) = initialLetterCounts.map (fun e => e.1)) ∧
    ((((codePoints (H.toLowerCase text)).foldl letterStep (initialLetterCounts, 0)).1.map
        (fun e => e.2)).sum =
      ((codePoints (H.toLowerCase text)).foldl letterStep (initialLetterCounts, 0)).2) ∧
    (((codePoints (H.toLowerCase text)).foldl letterStep (initialLetterCounts, 0)).2 =
      (codePoints (H.toLowerCase text)).countP isLetterChar) := by
  have h := letterLoop_invariant (H.toLowerCase text) (codePoints (H.toLowerCase text))
    (fun _ hx => hx) (initialLetterCounts, 0) rfl (by decide)
  refine ⟨h.1, h.2.1, ?_⟩
  rw [h.2.2]; simp

theorem calculateLetterFrequency_keys (H : Host) (text : JSString) :
    (calculateLetterFrequency H text).map (fun e => e.1) =
      (List.range' 97 26).map (fun i => [i]) := by
  rw [calculateLetterFrequency_unfold, List.map_map]
  rw [← initialLetterCounts_keys, ← (letterLoop_facts H text).1]
  rfl

/-- With no letter counted every value is `0`. -/
theorem calculateLetterFrequency_zero (H : Host) (text : JSString)
    (h : ∀ c ∈ H.toLowerCase text, isLowerAZ c = false) :
    ∀ e ∈ calculateLetterFrequency H text, e.2 = 0 := by
  have ht : ((codePoints (H.toLowerCase text)).foldl letterStep (initialLetterCounts, 0)).2 = 0 := by
    rw [(letterLoop_facts H text).2.2, List.countP_eq_zero]
    intro ch hch hl
    obtain ⟨c, _, hc, hlow⟩ := isLetterChar_codePoints _ ch hch hl
    rw [h c hc] at hlow; cases hlow
  intro e he
  rw [calculateLetterFrequency_unfold, List.mem_map] at he
  obtain ⟨x, _, hx⟩ := he
  rw [← hx, ht]
  rfl

/-- With a letter in the text the values add up to `100.00` within `0.13`. -/
theorem calculateLetterFrequency_sum_near (H : Host) (text : JSString)
    (h : ∃ c ∈ text, isAsciiLetter c = true) :
    9987 ≤ sumOfValues (calculateLetterFrequency H text) ∧
      sumOfValues (calculateLetterFrequency H text) ≤ 10013 := by
  obtain ⟨c, hc, hl⟩ := h
  have hmem := H.lower_letter text c hc hl
  have hlow : isLowerAZ (asciiLower c) = true := by
    unfold isAsciiLetter at hl
    simp only [isLowerAZ, isUpperAZ, asciiLower, Bool.or_eq_true, Bool.and_eq_true,
      decide_eq_true_eq] at hl ⊢
    split <;> omega
  have hb := isLowerAZ_lt hlow
  have hcp : [asciiLower c] ∈ codePoints (H.toLowerCase text) :=
    codePoints_mem _ _ hmem (by simp [isHighSurrogate]; omega) (by simp [isLowSurrogate]; omega)
  obtain ⟨hkeys, hsum, htot⟩ := letterLoop_facts H text
  have hpos : 0 < (codePoints (H.toLowerCase text)).countP isLetterChar :=
    List.countP_pos_iff.2 ⟨_, hcp, by rw [isLetterChar_single]; exact hlow⟩
  unfold sumOfValues
  rw [calculateLetterFrequency_unfold]
  generalize ((codePoints (H.toLowerCase text)).foldl letterStep (initialLetterCounts, 0)) = st
    at hkeys hsum htot
  rw [← htot] at hpos
  have hlen : (st.1.map (fun e => e.2)).length = 26 := by
    have := congrArg List.length hkeys
    simp only [List.length_map] at this ⊢
    rw [this]; rfl
  have hle : ∀ v ∈ st.1.map (fun e => e.2), v ≤ st.2 := by
    intro v hv
    rw [← hsum]
    exact List.single_le_sum (fun _ _ => Nat.zero_le _) v hv
  have hb2 := percent_sum_bounds H st.2 hpos (st.1.map (fun e => e.2)) hle
  rw [hsum, hlen] at hb2
  have e : (st.1.map (fun e => (e.1, if 0 < st.2 then H.percent2 e.2 st.2 else 0))).map
      (fun e => e.2) = (st.1.map (fun e => e.2)).map (fun v => H.percent2 v st.2) := by
    rw [List.map_map, List.map_map]
    apply List.map_congr_left
    intro x _
    simp [hpos]
  rw [e]
  generalize ((st.1.map (fun e => e.2)).map (fun v => H.percent2 v st.2)).sum = S at hb2
  obtain ⟨h1, h2⟩ := hb2
  have h1a : (100 * S) * st.2 ≤ 1001326 * st.2 := by nlinarith
  have h2a : 998674 * st.2 ≤ (100 * S) * st.2 := by nlinarith
  have h1b := Nat.le_of_mul_le_mul_right h1a hpos
  have h2b := Nat.le_of_mul_le_mul_right h2a hpos
  omega

/-- C9, as stated, fails in its second part: the Kelvin sign `U+212A` is no
ASCII letter, `toLowerCase` turns it into `k`, and `k` gets `100.00`. -/
theorem calculateLetterFrequency_kelvin_sign :
    ¬ (∀ text : JSString, (∀ c ∈ text, isAsciiLetter c = false) →
      ∀ e ∈ calculateLetterFrequency jsHost text, e.2 = 0) := by
  intro h
  have := h [0x212A] (by decide) (js "k", 10000) (by decide)
  revert this
  decide

/-- C9, amended: the result has exactly the keys `a` to `z`; for a text with at
least one ASCII letter the 26 values, in hundredths, add up to `10000` within
`13`; all values are `0` for a text whose lower-cased form has no letter `a`-`z`,
in particular for a text of ASCII characters without a letter. -/
theorem calculateLetterFrequency_sum (H : Host) (text : JSString) :
    (calculateLetterFrequency H text).map (fun e => e.1) =
      (List.range' 97 26).map (fun i => [i]) ∧
    ((∃ c ∈ text, isAsciiLetter c = true) →
      9987 ≤ sumOfValues (calculateLetterFrequency H text) ∧
        sumOfValues (calculateLetterFrequency H text) ≤ 10013) ∧
    ((∀ c ∈ H.toLowerCase text, isLowerAZ c = false) →
      ∀ e ∈ calculateLetterFrequency H text, e.2 = 0) ∧
    ((∀ c ∈ text, isAscii c = true ∧ isAsciiLetter c = false) →
      ∀ e ∈ calculateLetterFrequency H text, e.2 = 0) := by
  refine ⟨calculateLetterFrequency_keys H text, calculateLetterFrequency_sum_near H text,
    calculateLetterFrequency_zero H text, ?_⟩
  intro h
  apply calculateLetterFrequency_zero
  rw [H.lower_ascii text (fun c hc => (h c hc).1)]
  intro c hc
  rw [List.mem_map] at hc
  obtain ⟨d, hd, hdc⟩ := hc
  have hn := (h d hd).2
  unfold isAsciiLetter at hn
  simp only [Bool.or_eq_false_iff] at hn
  rw [← hdc]
  unfold asciiLower
  rw [hn.2]
  exact hn.1

/-- Witness for `calculateLetterFrequency_sum`: a text with letters and a text
without. -/
theorem calculateLetterFrequency_sum_witness :
    (9987 ≤ sumOfValues (calculateLetterFrequency jsHost (js "The cat sat on the mat.")) ∧
      sumOfValues (calculateLetterFrequency jsHost (js "The cat sat on the mat.")) ≤ 10013) ∧
    (∀ e ∈ calculateLetterFrequency jsHost (js "12 + 30 = 42"), e.2 = 0) :=
  ⟨(calculateLetterFrequency_sum jsHost (js "The cat sat on the mat.")).2.1
      ⟨104, by decide, by decide⟩,
   (calculateLetterFrequency_sum jsHost (js "12 + 30 = 42")).2.2.2 (by decide)⟩


/-! ## Language detection -/

/-- C10: whatever the text and the accented characters are, `detectLanguage`
returns `French` when `E > 13.5`, `7 < A < 9.5` and `R > 5.5`; otherwise `English`
when `11 < E < 14`, `T > 8.5` and `7.5 < A < 9.5`; otherwise `Spanish` when
`A > 10.5`, `O > 7.5` and `S > 6.5` (percentages in hundredths).  So a table with
both the French and the English signature gives `French`. -/
theorem detectLanguage_signature_priority (H : Host) (text : JSString)
    (letterFreq : JSObject Nat) (foreignChars : List ForeignChar) :
    ((1350 < freqOf letterFreq "e" ∧ 700 < freqOf letterFreq "a" ∧ freqOf letterFreq "a" < 950 ∧
        550 < freqOf letterFreq "r") →
      detectLanguage H text letterFreq foreignChars = js "French") ∧
    (¬ (1350 < freqOf letterFreq "e" ∧ 700 < freqOf letterFreq "a" ∧
          freqOf letterFreq "a" < 950 ∧ 550 < freqOf letterFreq "r") →
      (1100 < freqOf letterFreq "e" ∧ freqOf letterFreq "e" < 1400 ∧
        850 < freqOf letterFreq "t" ∧ 750 < freqOf letterFreq "a" ∧
        freqOf letterFreq "a" < 950) →
      detectLanguage H text letterFreq foreignChars = js "English") ∧
    (¬ (1350 < freqOf letterFreq "e" ∧ 700 < freqOf letterFreq "a" ∧
          freqOf letterFreq "a" < 950 ∧ 550 < freqOf letterFreq "r") →
      ¬ (1100 < freqOf letterFreq "e" ∧ freqOf letterFreq "e" < 1400 ∧
          850 < freqOf letterFreq "t" ∧ 750 < freqOf letterFreq "a" ∧
          freqOf letterFreq "a" < 950) →
      (1050 < freqOf letterFreq "a" ∧ 750 < freqOf letterFreq "o" ∧
        650 < freqOf letterFreq "s") →
      detectLanguage H text letterFreq foreignChars = js "Spanish") ∧
    ((1350 < freqOf letterFreq "e" ∧ freqOf letterFreq "e" < 1400 ∧
        750 < freqOf letterFreq "a" ∧ freqOf letterFreq "a" < 950 ∧
        550 < freqOf letterFreq "r" ∧ 850 < freqOf letterFreq "t") →
      englishSignature letterFreq = true ∧
        detectLanguage H text letterFreq foreignChars = js "French") := by
  have hF : frenchSignature letterFreq = true ↔
      (1350 < freqOf letterFreq "e" ∧ 700 < freqOf letterFreq "a" ∧
        freqOf letterFreq "a" < 950 ∧ 550 < freqOf letterFreq "r") := by
    simp [frenchSignature, and_assoc]
  have hE : englishSignature letterFreq = true ↔
      (1100 < freqOf letterFreq "e" ∧ freqOf letterFreq "e" < 1400 ∧
        850 < freqOf letterFreq "t" ∧ 750 < freqOf letterFreq "a" ∧
        freqOf letterFreq "a" < 950) := by
    simp [englishSignature, and_assoc]
  have hS : spanishSignature letterFreq = true ↔
      (1050 < freqOf letterFreq "a" ∧ 750 < freqOf letterFreq "o" ∧
        650 < freqOf letterFreq "s") := by
    simp [spanishSignature, and_assoc]
  refine ⟨?_, ?_, ?_, ?_⟩
  · intro h
    unfold detectLanguage
    rw [if_pos (hF.2 h)]
  · intro h1 h2
    unfold detectLanguage
    rw [if_neg (fun h => h1 (hF.1 h)), if_pos (hE.2 h2)]
  · intro h1 h2 h3
    unfold detectLanguage
    rw [if_neg (fun h => h1 (hF.1 h)), if_neg (fun h => h2 (hE.1 h)), if_pos (hS.2 h3)]
  · intro h
    refine ⟨hE.2 ⟨by omega, h.2.1, h.2.2.2.2.2, h.2.2.1, h.2.2.2.1⟩, ?_⟩
    unfold detectLanguage
    rw [if_pos (hF.2 ⟨h.1, by omega, h.2.2.2.1, h.2.2.2.2.1⟩)]

/-- Witness for `detectLanguage_signature_priority`: the letter frequencies of
`frenchLikeText` have both the French and the English signature, its accented
characters are 20 `ñ`, and the result is `French`. -/
theorem detectLanguage_signature_priority_witness :
    (findForeignCharacters jsHost frenchLikeText).map (fun fc => (fc.char, fc.count)) =
      [(js "ñ", 20)] ∧
    englishSignature (calculateLetterFrequency jsHost frenchLikeText) = true ∧
    detectLanguage jsHost (cleanText jsHost frenchLikeText)
      (calculateLetterFrequency jsHost frenchLikeText)
      (findForeignCharacters jsHost frenchLikeText) = js "French" :=
  ⟨by decide,
   (detectLanguage_signature_priority jsHost (cleanText jsHost frenchLikeText)
      (calculateLetterFrequency jsHost frenchLikeText)
      (findForeignCharacters jsHost frenchLikeText)).2.2.2 (by decide)⟩


/-! ## Tokenizing -/

theorem detectByWords_range (H : Host) (text : JSString) (foreignChars : List ForeignChar) :
    detectByWords H text foreignChars ∈ possibleLanguages := by
  unfold detectByWords possibleLanguages
  simp only
  split
  · simp
  · split
    · simp
    · split
      · simp
      · split
        · split <;> simp
        · simp

/-- Every value `detectLanguage` returns is one of the five listed. -/
theorem detectLanguage_range (H : Host) (text : JSString) (letterFreq : JSObject Nat)
    (foreignChars : List ForeignChar) :
    detectLanguage H text letterFreq foreignChars ∈ possibleLanguages := by
  unfold detectLanguage
  split
  · simp [possibleLanguages]
  · split
    · simp [possibleLanguages]
    · split
      · simp [possibleLanguages]
      · unfold detectByChars
        split
        · simp only
          split
          · simp [possibleLanguages]
          · split
            · simp [possibleLanguages]
            · exact detectByWords_range H text foreignChars
        · exact detectByWords_range H text foreignChars

/-- The list `tokenizeText` selects is the one the specification assigns. -/
theorem currentStopWords_eq_chosen (H : Host) (sw : StopWordSets) (language : JSString)
    (hl : language ∈ possibleLanguages) :
    currentStopWords H sw language = chosenStopWords sw language := by
  simp only [possibleLanguages, List.mem_cons, List.mem_singleton, List.not_mem_nil,
    or_false] at hl
  unfold currentStopWords chosenStopWords
  rcases hl with h | h | h | h | h <;> subst h
  · rw [H.lower_ascii _ (by decide)]
    rw [if_pos (by decide), if_pos rfl]
  · rw [H.lower_ascii _ (by decide)]
    rw [if_neg (by decide), if_neg (by decide), if_neg (by decide), if_neg (by decide)]
  · rw [H.lower_ascii _ (by decide)]
    rw [if_neg (by decide), if_pos (by decide), if_neg (by decide), if_pos rfl]
  · rw [H.lower_ascii _ (by decide)]
    rw [if_neg (by decide), if_neg (by decide), if_neg (by decide), if_neg (by decide)]
  · rw [H.lower_ascii _ (by decide)]
    rw [if_neg (by decide), if_neg (by decide), if_neg (by decide), if_neg (by decide)]

theorem splitAux_units (s : JSString) : ∀ (cur : JSString) (inWs : Bool),
    ∀ w ∈ splitAux s cur inWs, ∀ c ∈ w, c ∈ s ∨ c ∈ cur := by
  induction s with
  | nil =>
    intro cur inWs w hw c hc
    simp only [splitAux, List.mem_singleton] at hw
    subst hw
    exact Or.inr (List.mem_reverse.1 hc)
  | cons d ds ih =>
    intro cur inWs w hw c hc
    by_cases hd : isWhiteSpace d = true
    · cases inWs with
      | true =>
        simp only [splitAux, hd, if_true] at hw
        rcases ih [] true w hw c hc with h | h
        · exact Or.inl (List.mem_cons_of_mem _ h)
        · simp at h
      | false =>
        simp only [splitAux, hd, if_true, Bool.false_eq_true, if_false, List.mem_cons] at hw
        rcases hw with hw | hw
        · subst hw; exact Or.inr (List.mem_reverse.1 hc)
        · rcases ih [] true w hw c hc with h | h
          · exact Or.inl (List.mem_cons_of_mem _ h)
          · simp at h
    · have hd2 : isWhiteSpace d = false := by simpa using hd
      simp only [splitAux, hd2, Bool.false_eq_true, if_false] at hw
      rcases ih (d :: cur) false w hw c hc with h | h
      · exact Or.inl (List.mem_cons_of_mem _ h)
      · rcases List.mem_cons.1 h with h | h
        · subst h; exact Or.inl (List.mem_cons_self _ _)
        · exact Or.inr h

theorem splitWs_units (s w : JSString) (hw : w ∈ splitWs s) : ∀ c ∈ w, c ∈ s := by
  intro c hc
  rcases splitAux_units s [] false w hw c hc with h | h
  · exact h
  · simp at h

/-- A field of a cleaned text is its own lower-case form. -/
theorem lower_word_of_clean (H : Host) (t w : JSString) (hw : w ∈ splitWs (cleanText H t)) :
    H.toLowerCase w = w := by
  have hu : ∀ c ∈ w, isLowerAZ c = true ∨ c = 32 :=
    fun c hc => (cleanText_isClean H t).1 c (splitWs_units _ w hw c hc)
  rw [H.lower_ascii w (fun c hc => (clean_unit_facts (hu c hc)).1)]
  conv_rhs => rw [← List.map_id w]
  exact List.map_congr_left (fun c hc => (clean_unit_facts (hu c hc)).2.1)

/-- On a cleaned text `tokenizeText` keeps, in order, the tokens that are longer
than one unit and are not in the selected list. -/
theorem tokenizeText_eq_filter (H : Host) (sw : StopWordSets) (t language : JSString) :
    tokenizeText H sw (cleanText H t) language =
      (tokens (cleanText H t)).filter
        (fun w => decide (1 < w.length ∧ w ∉ currentStopWords H sw language)) := by
  unfold tokenizeText
  simp only
  rw [← words_eq_tokens, List.filter_filter, List.filter_filter]
  apply List.filter_congr
  intro w hw
  rw [lower_word_of_clean H t w hw]
  rw [Bool.eq_iff_iff]
  simp only [Bool.and_eq_true, Bool.not_eq_true', decide_eq_true_eq, List.contains_eq_any_beq,
    List.any_eq_false, beq_iff_eq]
  have hm : (∀ x ∈ currentStopWords H sw language, ¬ w = x) ↔
      w ∉ currentStopWords H sw language :=
    ⟨fun h hin => h w hin rfl, fun h x hx e => h (e ▸ hx)⟩
  rw [hm]
  constructor
  · rintro ⟨h1, h2⟩; exact ⟨⟨h2, h1⟩, by omega⟩
  · rintro ⟨⟨h1, h2⟩, _⟩; exact ⟨h2, h1⟩

/-- C8: `detectLanguage` returns one of five values; for every text and each of
these values, the list `tokenizeText` selects is the French list for `French`, the Spanish list
for `Spanish` and the English list otherwise; no word it returns for the
cleaned text has length 1 or less or is in that list; the words are the tokens
of the cleaned text that pass, in their order. -/
theorem tokenizeText_no_stop_words (H : Host) (sw : StopWordSets) (t language : JSString)
    (hl : language ∈ possibleLanguages) :
    (∀ (text : JSString) (letterFreq : JSObject Nat) (foreignChars : List ForeignChar),
      detectLanguage H text letterFreq foreignChars ∈ possibleLanguages) ∧
    currentStopWords H sw language = chosenStopWords sw language ∧
    (∀ w ∈ tokenizeText H sw (cleanText H t) language,
      1 < w.length ∧ w ∉ chosenStopWords sw language) ∧
    tokenizeText H sw (cleanText H t) language =
      (tokens (cleanText H t)).filter
        (fun w => decide (1 < w.length ∧ w ∉ chosenStopWords sw language)) ∧
    List.Sublist (tokenizeText H sw (cleanText H t) language) (tokens (cleanText H t)) := by
  have hc := currentStopWords_eq_chosen H sw language hl
  have he := tokenizeText_eq_filter H sw t language
  rw [hc] at he
  refine ⟨detectLanguage_range H, hc, ?_, he, ?_⟩
  · intro w hw
    rw [he, List.mem_filter] at hw
    simpa using hw.2
  · rw [he]; exact List.filter_sublist _

/-- Witness for `tokenizeText_no_stop_words`. -/
theorem tokenizeText_no_stop_words_witness :
    tokenizeText jsHost sampleStopWords (cleanText jsHost (js "The cat sat on the mat."))
        (js "English") = [js "cat", js "sat", js "mat"] ∧
    ∀ w ∈ tokenizeText jsHost sampleStopWords (cleanText jsHost (js "The cat sat on the mat."))
        (js "English"), 1 < w.length ∧ w ∉ chosenStopWords sampleStopWords (js "English") :=
  ⟨by decide,
   (tokenizeText_no_stop_words jsHost sampleStopWords (js "The cat sat on the mat.")
      (js "English") (by decide)).2.2.1⟩

/-! ## Document assembly -/

/-- C2: `processDocument` fails exactly when `detectGarbageFile` reports
garbage, and the message is `Garbage file detected: ` followed by the reason of
the classifier; otherwise it returns a record whose `originalContent` is the
text, whose `name` is the given name and whose `wordCount` is the length of its
`words`. -/
theorem processDocument_fails_iff_garbage (H : Host) (sw : StopWordSets) (id : JSString)
    (uploadDate : Nat) (filename content : JSString) :
    ((∃ msg, processDocument H sw id uploadDate filename content = Except.error msg) ↔
      (detectGarbageFile content).isGarbage = true) ∧
    ((detectGarbageFile content).isGarbage = true →
      processDocument H sw id uploadDate filename content =
        Except.error (js "Garbage file detected: " ++ (detectGarbageFile content).reason)) ∧
    ((detectGarbageFile content).isGarbage = false →
      ∃ doc, processDocument H sw id uploadDate filename content = Except.ok doc) ∧
    (∀ doc, processDocument H sw id uploadDate filename content = Except.ok doc →
      doc.originalContent = content ∧ doc.name = filename ∧
        doc.wordCount = doc.words.length) := by
  cases hg : (detectGarbageFile content).isGarbage with
  | true =>
    have e : processDocument H sw id uploadDate filename content =
        Except.error (js "Garbage file detected: " ++ (detectGarbageFile content).reason) := by
      unfold processDocument
      simp only [hg, if_true]
    refine ⟨⟨fun _ => rfl, fun _ => ⟨_, e⟩⟩, fun _ => e, (fun h => by cases h), ?_⟩
    intro doc hd
    rw [e] at hd
    cases hd
  | false =>
    have e : ∃ doc, processDocument H sw id uploadDate filename content = Except.ok doc ∧
        doc.originalContent = content ∧ doc.name = filename ∧
        doc.wordCount = doc.words.length := by
      unfold processDocument
      simp only [hg, Bool.false_eq_true, if_false]
      exact ⟨_, rfl, rfl, rfl, rfl⟩
    obtain ⟨doc, hd, h1, h2, h3⟩ := e
    refine ⟨⟨?_, (fun h => by cases h)⟩, (fun h => by cases h), fun _ => ⟨doc, hd⟩, ?_⟩
    · rintro ⟨msg, hm⟩
      rw [hd] at hm
      cases hm
    · intro doc2 hd2
      rw [hd] at hd2
      cases hd2
      exact ⟨h1, h2, h3⟩

/-- Witness for `processDocument_fails_iff_garbage`: a PDF header is refused with
the reason of the classifier, a sentence is accepted. -/
theorem processDocument_fails_iff_garbage_witness :
    processDocument jsHost sampleStopWords (js "doc_1") 0 (js "a.txt") (js "%PDF-1.4") =
      Except.error (js "Garbage file detected: " ++ reasonPdf) ∧
    (∃ doc, processDocument jsHost sampleStopWords (js "doc_1") 0 (js "a.txt")
        (js "The cat sat on the mat.") = Except.ok doc) :=
  ⟨(processDocument_fails_iff_garbage jsHost sampleStopWords (js "doc_1") 0 (js "a.txt")
      (js "%PDF-1.4")).2.1 (by decide),
   (processDocument_fails_iff_garbage jsHost sampleStopWords (js "doc_1") 0 (js "a.txt")
      (js "The cat sat on the mat.")).2.2.1 (by decide)⟩


/-! ## Language detection: the three stages -/

/-- C11, as stated, fails: the letter frequencies of `frenchLikeText` are a table
of percentages adding up to `100.00` that has the French and the English
signature. -/
theorem signatures_not_exclusive :
    isPercentTable (calculateLetterFrequency jsHost frenchLikeText) = true ∧
    frenchSignature (calculateLetterFrequency jsHost frenchLikeText) = true ∧
    englishSignature (calculateLetterFrequency jsHost frenchLikeText) = true := by
  decide

/-- C11, amended: the Spanish signature excludes the French and the English
one; the French and the English signature hold together exactly when
`13.5 < E < 14`, `7.5 < A < 9.5`, `R > 5.5` and `T > 8.5`. -/
theorem signatures_overlap_only_french_english (letterFreq : JSObject Nat) :
    ¬ (frenchSignature letterFreq = true ∧ spanishSignature letterFreq = true) ∧
    ¬ (englishSignature letterFreq = true ∧ spanishSignature letterFreq = true) ∧
    ((frenchSignature letterFreq = true ∧ englishSignature letterFreq = true) ↔
      (1350 < freqOf letterFreq "e" ∧ freqOf letterFreq "e" < 1400 ∧
        750 < freqOf letterFreq "a" ∧ freqOf letterFreq "a" < 950 ∧
        550 < freqOf letterFreq "r" ∧ 850 < freqOf letterFreq "t")) := by
  simp only [frenchSignature, englishSignature, spanishSignature, Bool.and_eq_true,
    decide_eq_true_eq]
  refine ⟨?_, ?_, ?_⟩
  · rintro ⟨h1, h2⟩; omega
  · rintro ⟨h1, h2⟩; omega
  · constructor
    · rintro ⟨h1, h2⟩; omega
    · intro h; omega

/-- C12: on twenty `ñ`, whose letter frequencies match no signature, the list of
accented characters counts 20 `ñ` and `detectLanguage` does not return
`Spanish`; on a text with twelve of the French accented letters it does not
return `French`.  The characters the source compares with are the two-unit
strings of `spanishUnique` and `frenchHeavy`, which no entry of the list
equals. -/
theorem detectLanguage_accents_not_detected :
    (findForeignCharacters jsHost twentyEnyes).map (fun fc => (fc.char, fc.count)) =
      [(js "ñ", 20)] ∧
    stagesInconclusive jsHost (calculateLetterFrequency jsHost twentyEnyes)
      (findForeignCharacters jsHost twentyEnyes) = true ∧
    countIn jsHost spanishUnique (findForeignCharacters jsHost twentyEnyes) = 0 ∧
    detectLanguage jsHost (cleanText jsHost twentyEnyes)
      (calculateLetterFrequency jsHost twentyEnyes)
      (findForeignCharacters jsHost twentyEnyes) = undeterminedCorruption ∧
    (findForeignCharacters jsHost frenchAccents).map (fun fc => (fc.char, fc.count)) =
      [(js "è", 4), (js "à", 3), (js "ç", 2), (js "ê", 2), (js "é", 1), (js "ù", 1)] ∧
    countIn jsHost frenchHeavy (findForeignCharacters jsHost frenchAccents) = 0 ∧
    detectLanguage jsHost (cleanText jsHost frenchAccents)
      (calculateLetterFrequency jsHost frenchAccents)
      (findForeignCharacters jsHost frenchAccents) = undeterminedCorruption := by
  decide

theorem language_names_distinct :
    js "English" ≠ js "French" ∧ js "English" ≠ js "Spanish" ∧ js "French" ≠ js "Spanish" ∧
    js "English" ≠ undeterminedCorruption ∧ js "English" ≠ undeterminedPatterns ∧
    js "French" ≠ undeterminedCorruption ∧ js "French" ≠ undeterminedPatterns ∧
    js "Spanish" ≠ undeterminedCorruption ∧ js "Spanish" ≠ undeterminedPatterns := by
  decide

/-- The word analysis, by cases on the three scores. -/
theorem detectByWords_cases (H : Host) (text : JSString) (foreignChars : List ForeignChar) :
    (3 ≤ englishScore H text ∧ frenchScore H text + 2 ≤ englishScore H text ∧
        spanishScore H text + 2 ≤ englishScore H text ∧
        detectByWords H text foreignChars = js "English") ∨
    (3 ≤ frenchScore H text ∧ englishScore H text + 2 ≤ frenchScore H text ∧
        spanishScore H text + 2 ≤ frenchScore H text ∧
        detectByWords H text foreignChars = js "French") ∨
    (3 ≤ spanishScore H text ∧ englishScore H text + 2 ≤ spanishScore H text ∧
        frenchScore H text + 2 ≤ spanishScore H text ∧
        detectByWords H text foreignChars = js "Spanish") ∨
    (¬ (3 ≤ englishScore H text ∧ frenchScore H text + 2 ≤ englishScore H text ∧
          spanishScore H text + 2 ≤ englishScore H text) ∧
      ¬ (3 ≤ frenchScore H text ∧ englishScore H text + 2 ≤ frenchScore H text ∧
          spanishScore H text + 2 ≤ frenchScore H text) ∧
      ¬ (3 ≤ spanishScore H text ∧ englishScore H text + 2 ≤ spanishScore H text ∧
          frenchScore H text + 2 ≤ spanishScore H text) ∧
      (detectByWords H text foreignChars = undeterminedCorruption ∨
        detectByWords H text foreignChars = undeterminedPatterns)) := by
  unfold detectByWords englishScore frenchScore spanishScore
  simp only
  generalize wordScore commonEnglishWords (H.toLowerCase text) = e
  generalize wordScore commonFrenchWords (H.toLowerCase text) = f
  generalize wordScore commonSpanishWords (H.toLowerCase text) = s
  by_cases h1 : (decide (3 ≤ max (max e f) s) && (e == max (max e f) s && decide (f + 2 ≤ e) &&
      decide (s + 2 ≤ e))) = true
  · rw [if_pos h1]
    simp only [Bool.and_eq_true, decide_eq_true_eq, beq_iff_eq] at h1
    left; refine ⟨by omega, by omega, by omega, rfl⟩
  · rw [if_neg h1]
    simp only [Bool.and_eq_true, decide_eq_true_eq, beq_iff_eq] at h1
    by_cases h2 : (decide (3 ≤ max (max e f) s) && (f == max (max e f) s &&
        decide (e + 2 ≤ f) && decide (s + 2 ≤ f))) = true
    · rw [if_pos h2]
      simp only [Bool.and_eq_true, decide_eq_true_eq, beq_iff_eq] at h2
      right; left; refine ⟨by omega, by omega, by omega, rfl⟩
    · rw [if_neg h2]
      simp only [Bool.and_eq_true, decide_eq_true_eq, beq_iff_eq] at h2
      by_cases h3 : (decide (3 ≤ max (max e f) s) && (s == max (max e f) s &&
          decide (e + 2 ≤ s) && decide (f + 2 ≤ s))) = true
      · rw [if_pos h3]
        simp only [Bool.and_eq_true, decide_eq_true_eq, beq_iff_eq] at h3
        right; right; left; refine ⟨by omega, by omega, by omega, rfl⟩
      · rw [if_neg h3]
        simp only [Bool.and_eq_true, decide_eq_true_eq, beq_iff_eq] at h3
        right; right; right
        refine ⟨by omega, by omega, by omega, ?_⟩
        split
        · split
          · exact Or.inl rfl
          · exact Or.inr rfl
        · exact Or.inr rfl

/-- With both earlier stages inconclusive the result is the one of the word
analysis. -/
theorem detectLanguage_of_inconclusive (H : Host) (text : JSString) (letterFreq : JSObject Nat)
    (foreignChars : List ForeignChar) (h : stagesInconclusive H letterFreq foreignChars = true) :
    detectLanguage H text letterFreq foreignChars = detectByWords H text foreignChars := by
  unfold stagesInconclusive at h
  simp only [Bool.and_eq_true, Bool.not_eq_true', Bool.or_eq_true, decide_eq_true_eq] at h
  obtain ⟨⟨⟨hf, he⟩, hs⟩, hc⟩ := h
  unfold detectLanguage
  simp only [hf, he, hs, Bool.false_eq_true, if_false]
  unfold detectByChars
  rcases hc with hc | ⟨h1, h2⟩
  · rw [if_neg (by omega)]
  · split
    · simp only
      rw [if_neg (by omega), if_neg (by omega)]
    · rfl

/-- C13: when the letter-frequency and the accented-character stage are
inconclusive, `detectLanguage` returns a language exactly when its common-word
score is at least 3 and at least 2 above each of the two other scores; no two
languages satisfy this together; otherwise the result is one of the two
`Language cannot be detected` strings. -/
theorem detectLanguage_word_scores (H : Host) (text : JSString) (letterFreq : JSObject Nat)
    (foreignChars : List ForeignChar) (h : stagesInconclusive H letterFreq foreignChars = true) :
    (detectLanguage H text letterFreq foreignChars = js "English" ↔
      (3 ≤ englishScore H text ∧ frenchScore H text + 2 ≤ englishScore H text ∧
        spanishScore H text + 2 ≤ englishScore H text)) ∧
    (detectLanguage H text letterFreq foreignChars = js "French" ↔
      (3 ≤ frenchScore H text ∧ englishScore H text + 2 ≤ frenchScore H text ∧
        spanishScore H text + 2 ≤ frenchScore H text)) ∧
    (detectLanguage H text letterFreq foreignChars = js "Spanish" ↔
      (3 ≤ spanishScore H text ∧ englishScore H text + 2 ≤ spanishScore H text ∧
        frenchScore H text + 2 ≤ spanishScore H text)) ∧
    ¬ ((frenchScore H text + 2 ≤ englishScore H text ∧
          englishScore H text + 2 ≤ frenchScore H text) ∨
       (spanishScore H text + 2 ≤ englishScore H text ∧
          englishScore H text + 2 ≤ spanishScore H text) ∨
       (spanishScore H text + 2 ≤ frenchScore H text ∧
          frenchScore H text + 2 ≤ spanishScore H text)) ∧
    ((detectLanguage H text letterFreq foreignChars ≠ js "English" ∧
        detectLanguage H text letterFreq foreignChars ≠ js "French" ∧
        detectLanguage H text letterFreq foreignChars ≠ js "Spanish") →
      (detectLanguage H text letterFreq foreignChars = undeterminedCorruption ∨
        detectLanguage H text letterFreq foreignChars = undeterminedPatterns)) := by
  rw [detectLanguage_of_inconclusive H text letterFreq foreignChars h]
  obtain ⟨d1, d2, d3, d4, d5, d6, d7, d8, d9⟩ := language_names_distinct
  have hc := detectByWords_cases H text foreignChars
  refine ⟨?_, ?_, ?_, by omega, ?_⟩
  · rcases hc with ⟨a, b, c, e⟩ | ⟨a, b, c, e⟩ | ⟨a, b, c, e⟩ | ⟨a, b, c, e⟩
    · exact ⟨fun _ => ⟨a, b, c⟩, fun _ => e⟩
    · rw [e]; exact ⟨fun x => absurd x.symm d1, fun x => by omega⟩
    · rw [e]; exact ⟨fun x => absurd x.symm d2, fun x => by omega⟩
    · refine ⟨fun x => ?_, fun x => absurd x a⟩
      rcases e with e | e <;> rw [e] at x
      · exact absurd x.symm d4
      · exact absurd x.symm d5
  · rcases hc with ⟨a, b, c, e⟩ | ⟨a, b, c, e⟩ | ⟨a, b, c, e⟩ | ⟨a, b, c, e⟩
    · rw [e]; exact ⟨fun x => absurd x d1, fun x => by omega⟩
    · exact ⟨fun _ => ⟨a, b, c⟩, fun _ => e⟩
    · rw [e]; exact ⟨fun x => absurd x.symm d3, fun x => by omega⟩
    · refine ⟨fun x => ?_, fun x => absurd x b⟩
      rcases e with e | e <;> rw [e] at x
      · exact absurd x.symm d6
      · exact absurd x.symm d7
  · rcases hc with ⟨a, b, c, e⟩ | ⟨a, b, c, e⟩ | ⟨a, b, c, e⟩ | ⟨a, b, c, e⟩
    · rw [e]; exact ⟨fun x => absurd x d2, fun x => by omega⟩
    · rw [e]; exact ⟨fun x => absurd x d3, fun x => by omega⟩
    · exact ⟨fun _ => ⟨a, b, c⟩, fun _ => e⟩
    · refine ⟨fun x => ?_, fun x => absurd x c⟩
      rcases e with e | e <;> rw [e] at x
      · exact absurd x.symm d8
      · exact absurd x.symm d9
  · rintro ⟨n1, n2, n3⟩
    rcases hc with ⟨_, _, _, e⟩ | ⟨_, _, _, e⟩ | ⟨_, _, _, e⟩ | ⟨_, _, _, e⟩
    · exact absurd e n1
    · exact absurd e n2
    · exact absurd e n3
    · exact e

/-- Witness for `detectLanguage_word_scores`: three common English words, no
French or Spanish one. -/
theorem detectLanguage_word_scores_witness :
    englishScore jsHost (js "the cat sat on the mat") = 3 ∧
    (detectLanguage jsHost (js "the cat sat on the mat")
        (calculateLetterFrequency jsHost (js "The cat sat on the mat.")) [] = js "English" ↔
      (3 ≤ englishScore jsHost (js "the cat sat on the mat") ∧
        frenchScore jsHost (js "the cat sat on the mat") + 2 ≤
          englishScore jsHost (js "the cat sat on the mat") ∧
        spanishScore jsHost (js "the cat sat on the mat") + 2 ≤
          englishScore jsHost (js "the cat sat on the mat"))) :=
  ⟨by decide,
   (detectLanguage_word_scores jsHost (js "the cat sat on the mat")
      (calculateLetterFrequency jsHost (js "The cat sat on the mat.")) [] (by decide)).1⟩

/-- C15: every text that contains `%PDF` is rejected, with the reason of the PDF
check, and that reason contains `PDF`. -/
theorem detectGarbageFile_pdf (t : JSString) (h : js "%PDF" <:+: t) :
    detectGarbageFile t = ⟨true, reasonPdf⟩ ∧ (detectGarbageFile t).isGarbage = true ∧
      js "PDF" <:+: (detectGarbageFile t).reason := by
  have hp : hasPdfMarker t = true := by
    unfold hasPdfMarker
    rw [decide_eq_true_eq]
    exact Or.inl h
  have e : detectGarbageFile t = ⟨true, reasonPdf⟩ := by
    rw [detectGarbageFile_chain, hp]; rfl
  refine ⟨e, by rw [e], ?_⟩
  rw [e]
  exact (includes_iff reasonPdf (js "PDF")).1 (by decide)

/-- Witness for `detectGarbageFile_pdf`: a PDF header. -/
theorem detectGarbageFile_pdf_witness :
    detectGarbageFile (js "%PDF-1.4 binary stream") = ⟨true, reasonPdf⟩ :=
  (detectGarbageFile_pdf (js "%PDF-1.4 binary stream")
    ((includes_iff _ _).1 (by decide))).1


/-! ## The sentence of the first scenario -/

/-- The steps of `cleanText` lower-case ASCII units only, so every host gives the
same cleaned text. -/
theorem cleanText_any_host (H : Host) (t : JSString) : cleanText H t = cleanText jsHost t := by
  have hf : ∀ c ∈ t.filter isAscii, isAscii c = true := fun c hc => (List.mem_filter.1 hc).2
  unfold cleanText
  simp only
  rw [H.lower_ascii _ hf, jsHost.lower_ascii _ hf]

theorem detectByWords_ascii (H : Host) (text : JSString) (foreignChars : List ForeignChar)
    (h : ∀ c ∈ text, isAscii c = true) :
    detectByWords H text foreignChars = detectByWords jsHost text foreignChars := by
  unfold detectByWords
  rw [H.lower_ascii _ h, jsHost.lower_ascii _ h]

theorem getProp_map {α β : Type} (obj : JSObject α) (g : α → β) (key : JSString) :
    getProp (obj.map (fun e => (e.1, g e.2))) key = (getProp obj key).map g := by
  unfold getProp
  induction obj with
  | nil => rfl
  | cons e es ih =>
    simp only [List.map_cons, List.find?_cons]
    cases h : (e.1 == key)
    · simpa using ih
    · simp

/-- The letter frequencies of the sentence: 2 `e`, 3 `a`, 5 `t`, 1 `o` among 17
letters, each shown as the host rounds it. -/
theorem letterFrequency_of_sentence (H : Host) :
    freqOf (calculateLetterFrequency H (js "The cat sat on the mat.")) "e" = H.percent2 2 17 ∧
    freqOf (calculateLetterFrequency H (js "The cat sat on the mat.")) "a" = H.percent2 3 17 ∧
    freqOf (calculateLetterFrequency H (js "The cat sat on the mat.")) "o" = H.percent2 1 17 := by
  have hl : H.toLowerCase (js "The cat sat on the mat.") =
      (js "The cat sat on the mat.").map asciiLower := H.lower_ascii _ (by decide)
  have h2 : ((codePoints ((js "The cat sat on the mat.").map asciiLower)).foldl letterStep
      (initialLetterCounts, 0)).2 = 17 := by decide
  have he : getProp ((codePoints ((js "The cat sat on the mat.").map asciiLower)).foldl letterStep
      (initialLetterCounts, 0)).1 (js "e") = some 2 := by decide
  have ha : getProp ((codePoints ((js "The cat sat on the mat.").map asciiLower)).foldl letterStep
      (initialLetterCounts, 0)).1 (js "a") = some 3 := by decide
  have ho : getProp ((codePoints ((js "The cat sat on the mat.").map asciiLower)).foldl letterStep
      (initialLetterCounts, 0)).1 (js "o") = some 1 := by decide
  unfold freqOf
  rw [calculateLetterFrequency_unfold, hl, h2]
  simp only [getProp_map _ (fun v => if 0 < 17 then H.percent2 v 17 else 0), he, ha, ho]
  simp

/-- C14: for `The cat sat on the mat.` and every host, `cleanText` returns
`the cat sat on the mat`, the text has no accented character, and
`detectLanguage` returns `English`, hence neither `French` nor `Spanish`. -/
theorem sentence_is_english (H : Host) :
    cleanText H (js "The cat sat on the mat.") = js "the cat sat on the mat" ∧
    findForeignCharacters H (js "The cat sat on the mat.") = [] ∧
    detectLanguage H (cleanText H (js "The cat sat on the mat."))
      (calculateLetterFrequency H (js "The cat sat on the mat."))
      (findForeignCharacters H (js "The cat sat on the mat.")) = js "English" ∧
    detectLanguage H (cleanText H (js "The cat sat on the mat."))
      (calculateLetterFrequency H (js "The cat sat on the mat."))
      (findForeignCharacters H (js "The cat sat on the mat.")) ≠ js "French" ∧
    detectLanguage H (cleanText H (js "The cat sat on the mat."))
      (calculateLetterFrequency H (js "The cat sat on the mat."))
      (findForeignCharacters H (js "The cat sat on the mat.")) ≠ js "Spanish" := by
  have hc : cleanText H (js "The cat sat on the mat.") = js "the cat sat on the mat" := by
    rw [cleanText_any_host H _]; decide
  have hf : findForeignCharacters H (js "The cat sat on the mat.") = [] := by
    have e : (codePoints (js "The cat sat on the mat.")).foldl foreignStep [] = [] := by decide
    unfold findForeignCharacters
    rw [e]; rfl
  obtain ⟨fe, fa, fo⟩ := letterFrequency_of_sentence H
  have be := H.percent2_near 2 17 (by omega) (by omega)
  have ba := H.percent2_near 3 17 (by omega) (by omega)
  have bo := H.percent2_near 1 17 (by omega) (by omega)
  have hr : detectLanguage H (cleanText H (js "The cat sat on the mat."))
      (calculateLetterFrequency H (js "The cat sat on the mat."))
      (findForeignCharacters H (js "The cat sat on the mat.")) = js "English" := by
    have s1 : frenchSignature (calculateLetterFrequency H (js "The cat sat on the mat.")) =
        false := by
      unfold frenchSignature
      rw [fe]
      have : ¬ 1350 < H.percent2 2 17 := by omega
      simp [this]
    have s2 : englishSignature (calculateLetterFrequency H (js "The cat sat on the mat.")) =
        false := by
      unfold englishSignature
      rw [fa]
      have : ¬ H.percent2 3 17 < 950 := by omega
      simp [this]
    have s3 : spanishSignature (calculateLetterFrequency H (js "The cat sat on the mat.")) =
        false := by
      unfold spanishSignature
      rw [fo]
      have : ¬ 750 < H.percent2 1 17 := by omega
      simp [this]
    rw [hc, hf]
    unfold detectLanguage
    simp only [s1, s2, s3, Bool.false_eq_true, if_false]
    unfold detectByChars
    rw [if_neg (by decide), detectByWords_ascii H _ _ (by decide)]
    decide
  refine ⟨hc, hf, hr, ?_, ?_⟩
  · rw [hr]; decide
  · rw [hr]; decide


/-! ## Query expansion -/

theorem includes_star (s : JSString) : includes s (js "*") = decide (42 ∈ s) := by
  have e : js "*" = [42] := by decide
  rw [e]
  induction s with
  | nil => simp [includes, startsWith]
  | cons c cs ih =>
    rw [includes, ih]
    simp only [startsWith, Bool.and_true, List.mem_cons]
    by_cases h : c = 42
    · subst h; simp
    · have h2 : ¬ 42 = c := fun e => h e.symm
      simp [h, h2]

theorem expandStep_eq (H : Host) (st : List JSString × List KeywordInfo) (keyword : JSString) :
    (expandStep H st keyword).1 = st.1 ++ termsOfToken H keyword ∧
    (expandStep H st keyword).2.map (fun i => (i.original, i.stemmed.getD i.original, i.type)) =
      st.2.map (fun i => (i.original, i.stemmed.getD i.original, i.type)) ++
        tuplesOfToken H keyword := by
  unfold expandStep termsOfToken tuplesOfToken
  rw [includes_star]
  by_cases hs : 42 ∈ keyword
  · simp [hs]
  · by_cases hc : stemWord H keyword ≠ keyword ∧ 2 < (stemWord H keyword).length
    · have hb : (stemWord H keyword != keyword && decide (2 < (stemWord H keyword).length)) =
          true := by
        simp only [Bool.and_eq_true, bne_iff_ne, decide_eq_true_eq]; exact hc
      simp only [hs, decide_False, Bool.false_eq_true, if_false, hb, if_true, if_pos hc]
      simp
    · have hb : (stemWord H keyword != keyword && decide (2 < (stemWord H keyword).length)) =
          false := by
        rw [Bool.eq_false_iff]
        intro h
        simp only [Bool.and_eq_true, bne_iff_ne, decide_eq_true_eq] at h
        exact hc h
      simp only [hs, decide_False, Bool.false_eq_true, if_false, hb, if_neg hc]
      simp

theorem expandLoop_eq (H : Host) (raw : List JSString) :
    ∀ st : List JSString × List KeywordInfo,
    (raw.foldl (expandStep H) st).1 = st.1 ++ raw.flatMap (termsOfToken H) ∧
    (raw.foldl (expandStep H) st).2.map
        (fun i => (i.original, i.stemmed.getD i.original, i.type)) =
      st.2.map (fun i => (i.original, i.stemmed.getD i.original, i.type)) ++
        raw.flatMap (tuplesOfToken H) := by
  induction raw with
  | nil => intro st; simp
  | cons k ks ih =>
    intro st
    obtain ⟨h1, h2⟩ := ih (expandStep H st k)
    obtain ⟨e1, e2⟩ := expandStep_eq H st k
    rw [List.foldl_cons, h1, h2, e1, e2]
    simp [List.append_assoc]

theorem rebuildStep_eq (H : Host) (keywords : List JSString) (keyword : JSString) :
    rebuildStep H keywords keyword = keywords ++ termsOfToken H keyword := by
  unfold rebuildStep termsOfToken
  rw [includes_star]
  by_cases hs : 42 ∈ keyword
  · simp [hs]
  · by_cases hc : stemWord H keyword ≠ keyword ∧ 2 < (stemWord H keyword).length
    · have hb : (stemWord H keyword != keyword && decide (2 < (stemWord H keyword).length)) =
          true := by
        simp only [Bool.and_eq_true, bne_iff_ne, decide_eq_true_eq]; exact hc
      simp only [hs, decide_False, Bool.false_eq_true, if_false, hb, if_true, if_pos hc]
      simp
    · have hb : (stemWord H keyword != keyword && decide (2 < (stemWord H keyword).length)) =
          false := by
        rw [Bool.eq_false_iff]
        intro h
        simp only [Bool.and_eq_true, bne_iff_ne, decide_eq_true_eq] at h
        exact hc h
      simp only [hs, decide_False, Bool.false_eq_true, if_false, hb, if_neg hc]

theorem rebuildLoop_eq (H : Host) (raw : List JSString) : ∀ keywords : List JSString,
    raw.foldl (rebuildStep H) keywords = keywords ++ raw.flatMap (termsOfToken H) := by
  induction raw with
  | nil => intro keywords; simp
  | cons k ks ih =>
    intro keywords
    rw [List.foldl_cons, ih, rebuildStep_eq]
    simp [List.append_assoc]

/-- C16: the keyword list of `searchFiles` is, token by token and in order, the
token alone when it contains `*`, otherwise the token followed by its stem
exactly when the stem differs from the token and is longer than 2; the entries
of `keywordInfo` are the matching tuples; the list `openFileFromSearch`
rebuilds from the same raw keywords is the same list. -/
theorem expandKeywords_eq_terms (H : Host) (raw : List JSString) :
    (expandKeywords H raw).1 = raw.flatMap (termsOfToken H) ∧
    (expandKeywords H raw).2.map (fun i => (i.original, i.stemmed.getD i.original, i.type)) =
      raw.flatMap (tuplesOfToken H) ∧
    rebuildKeywords H raw = (expandKeywords H raw).1 := by
  obtain ⟨h1, h2⟩ := expandLoop_eq H raw ([], [])
  unfold expandKeywords rebuildKeywords
  refine ⟨by simpa using h1, by simpa using h2, ?_⟩
  rw [h1, rebuildLoop_eq]


/-! ## Matching -/

/-- The items of a pattern whose characters are ASCII match the same way under
every case folding. -/
theorem matchItems_any_fold (F : CaseFold) (items : List PatItem)
    (h : ∀ c, PatItem.lit c ∈ items → isAscii c = true) :
    matchItems F items = matchItems asciiFold items := by
  induction items with
  | nil => funext before s; simp [matchItems]
  | cons item rest ih =>
    have ih2 := ih (fun c hc => h c (List.mem_cons_of_mem _ hc))
    cases item with
    | lit c =>
      funext before s
      cases s with
      | nil => simp [matchItems]
      | cons d s =>
        simp only [matchItems]
        rw [F.same_ascii c d (h c (List.mem_cons_self _ _)),
          asciiFold.same_ascii c d (h c (List.mem_cons_self _ _)), ih2]
    | wordStar =>
      funext before s
      simp only [matchItems]
      rw [ih2]

theorem matchAllAux_any_fold (F : CaseFold) (items : List PatItem)
    (h : ∀ c, PatItem.lit c ∈ items → isAscii c = true) (s : JSString) :
    ∀ (before : Option Nat) (pos skip : Nat),
    matchAllAux F items before pos skip s = matchAllAux asciiFold items before pos skip s := by
  induction s with
  | nil =>
    intro before pos skip
    simp only [matchAllAux, matchAt, matchItems_any_fold F items h]
  | cons c cs ih =>
    intro before pos skip
    simp only [matchAllAux, matchAt, matchItems_any_fold F items h, ih]

theorem keywordPattern_ascii (keyword : JSString) (hk : ∀ c ∈ keyword, isAscii c = true)
    (items : List PatItem) (hp : keywordPattern keyword = some items) :
    ∀ c, PatItem.lit c ∈ items → isAscii c = true := by
  intro c hc
  unfold keywordPattern at hp
  split at hp
  · simp only [Option.some.injEq] at hp
    rw [← hp, List.mem_map] at hc
    obtain ⟨d, hd, he⟩ := hc
    split at he
    · cases he
    · cases he; exact hk c hd
  · split at hp
    · cases hp
    · simp only [Option.some.injEq] at hp
      rw [← hp, List.mem_map] at hc
      obtain ⟨d, hd, he⟩ := hc
      cases he; exact hk c hd

theorem keywordMatches_any_fold (F : CaseFold) (text lowerText keyword : JSString)
    (hk : ∀ c ∈ keyword, isAscii c = true) :
    keywordMatches F text lowerText keyword = keywordMatches asciiFold text lowerText keyword := by
  unfold keywordMatches
  cases hp : keywordPattern keyword with
  | none => rfl
  | some items =>
    simp only [Option.map_some', matchAll]
    rw [matchAllAux_any_fold F items (keywordPattern_ascii keyword hk items hp)]

theorem collectMatches_any_fold (F : CaseFold) (text lowerText : JSString)
    (keywords : List JSString) (hk : ∀ k ∈ keywords, ∀ c ∈ k, isAscii c = true) :
    collectMatches F text lowerText keywords = collectMatches asciiFold text lowerText keywords := by
  induction keywords with
  | nil => rfl
  | cons k ks ih =>
    simp only [collectMatches]
    rw [keywordMatches_any_fold F text lowerText k (hk k (List.mem_cons_self _ _)),
      ih (fun k2 h2 => hk k2 (List.mem_cons_of_mem _ h2))]

/-- On ASCII text and ASCII keywords every host and every case folding give the
same matches. -/
theorem findKeywordsInText_ascii (H : Host) (F : CaseFold) (text : JSString)
    (keywords : List JSString) (ht : ∀ c ∈ text, isAscii c = true)
    (hk : ∀ k ∈ keywords, ∀ c ∈ k, isAscii c = true) :
    findKeywordsInText H F text keywords = findKeywordsInText jsHost asciiFold text keywords := by
  unfold findKeywordsInText
  rw [H.lower_ascii text ht, jsHost.lower_ascii text ht, collectMatches_any_fold F _ _ _ hk]


theorem starLoop_le (k : Option Nat → JSString → Option Nat)
    (hk : ∀ b s n, k b s = some n → n ≤ s.length) :
    ∀ (s : JSString) (b : Option Nat) (n : Nat), starLoop k b s = some n → n ≤ s.length := by
  intro s
  induction s with
  | nil => intro b n h; exact hk b [] n h
  | cons d s ih =>
    intro b n h
    rw [starLoop] at h
    by_cases hw : isWordChar d = true
    · rw [if_pos hw] at h
      cases hq : starLoop k (some d) s with
      | some m =>
        rw [hq] at h
        simp only [Option.some.injEq] at h
        have := ih (some d) m hq
        simp only [List.length_cons]; omega
      | none =>
        rw [hq] at h
        exact hk b (d :: s) n h
    · rw [if_neg hw] at h
      exact hk b (d :: s) n h

/-- A match does not reach beyond the end of the text. -/
theorem matchItems_le (F : CaseFold) (items : List PatItem) :
    ∀ (b : Option Nat) (s : JSString) (n : Nat), matchItems F items b s = some n →
      n ≤ s.length := by
  induction items with
  | nil =>
    intro b s n h
    simp only [matchItems] at h
    split at h
    · cases h; exact Nat.zero_le _
    · cases h
  | cons item rest ih =>
    cases item with
    | lit c =>
      intro b s n h
      cases s with
      | nil => simp [matchItems] at h
      | cons d s =>
        simp only [matchItems] at h
        split at h
        · cases hq : matchItems F rest (some d) s with
          | some m =>
            rw [hq] at h
            simp only [Option.map_some', Option.some.injEq] at h
            have := ih (some d) s m hq
            simp only [List.length_cons]; omega
          | none => rw [hq] at h; cases h
        · cases h
    | wordStar =>
      intro b s n h
      simp only [matchItems] at h
      exact starLoop_le _ ih s b n h

theorem matchAt_le (F : CaseFold) (items : List PatItem) (b : Option Nat) (s : JSString)
    (n : Nat) (h : matchAt F items b s = some n) : n ≤ s.length := by
  unfold matchAt at h
  split at h
  · exact matchItems_le F items b s n h
  · cases h

/-- The matches of the global expression lie inside the text, each starting
after the one before. -/
theorem matchAllAux_ordered (F : CaseFold) (items : List PatItem) (s : JSString) :
    ∀ (before : Option Nat) (pos skip : Nat),
    (∀ m ∈ matchAllAux F items before pos skip s, pos ≤ m.1 ∧ m.1 + m.2 ≤ pos + s.length) ∧
    ((matchAllAux F items before pos skip s).map (fun m => m.1)).Pairwise (fun a b => a < b) := by
  induction s with
  | nil =>
    intro before pos skip
    rw [matchAllAux]
    split
    · cases hq : matchAt F items before [] with
      | some n =>
        have := matchAt_le F items before [] n hq
        simp only [List.length_nil] at this
        simp only [List.mem_singleton, List.map_cons, List.map_nil, List.pairwise_cons,
          List.not_mem_nil, false_implies, implies_true, List.Pairwise.nil, and_self, and_true]
        intro m hm; subst hm
        simp only [List.length_nil]; omega
      | none => simp
    · simp
  | cons c cs ih =>
    intro before pos skip
    rw [matchAllAux]
    split
    · cases hq : matchAt F items before (c :: cs) with
      | some n =>
        have hn := matchAt_le F items before (c :: cs) n hq
        simp only [List.length_cons] at hn
        obtain ⟨h1, h2⟩ := ih (some c) (pos + 1) (n - 1)
        simp only [List.mem_cons, List.map_cons, List.pairwise_cons, List.length_cons]
        refine ⟨?_, ?_, h2⟩
        · rintro m (hm | hm)
          · subst hm; simp only; omega
          · have := h1 m hm; omega
        · intro a ha
          rw [List.mem_map] at ha
          obtain ⟨m, hm, rfl⟩ := ha
          have := h1 m hm; omega
      | none =>
        obtain ⟨h1, h2⟩ := ih (some c) (pos + 1) 0
        simp only [List.length_cons]
        refine ⟨?_, h2⟩
        intro m hm
        have := h1 m hm; omega
    · obtain ⟨h1, h2⟩ := ih (some c) (pos + 1) (skip - 1)
      simp only [List.length_cons]
      refine ⟨?_, h2⟩
      intro m hm
      have := h1 m hm; omega

/-- The matches of one keyword: positions strictly increasing, each match a
slice of the lower-cased text, the context a slice of the text. -/
theorem keywordMatches_facts (F : CaseFold) (text lowerText keyword : JSString)
    (ms : List SearchMatch) (h : keywordMatches F text lowerText keyword = some ms) :
    (ms.map (fun m => m.position)).Pairwise (fun a b => a < b) ∧
    ∀ m ∈ ms, m.keyword = keyword ∧ m.isWildcard = decide (42 ∈ keyword) ∧
      m.position + m.fullMatch.length ≤ lowerText.length ∧
      (lowerText.drop m.position).take m.fullMatch.length = m.fullMatch ∧
      m.context = substring text (m.position - 50)
        (min text.length (m.position + m.fullMatch.length + 50)) := by
  unfold keywordMatches at h
  cases hp : keywordPattern keyword with
  | none => rw [hp] at h; cases h
  | some items =>
    rw [hp] at h
    simp only [Option.map_some', Option.some.injEq] at h
    obtain ⟨h1, h2⟩ := matchAllAux_ordered F items lowerText none 0 0
    subst h
    constructor
    · rw [List.map_map]
      exact h2
    · intro m hm
      rw [List.mem_map] at hm
      obtain ⟨p, hpm, rfl⟩ := hm
      have hb := h1 p hpm
      simp only [Nat.zero_add] at hb
      have hl : ((lowerText.drop p.1).take p.2).length = p.2 := by
        rw [List.length_take, List.length_drop]; omega
      unfold makeMatch
      simp only [hl, includes_star]
      exact ⟨trivial, trivial, hb.2, trivial, trivial⟩

/-- The matches of a keyword list are the matches of its keywords, one group
after the other. -/
theorem collectMatches_groups (F : CaseFold) (text lowerText : JSString)
    (keywords : List JSString) : ∀ ms : List SearchMatch,
    collectMatches F text lowerText keywords = some ms →
    ∃ groups : List (List SearchMatch),
      List.Forall₂ (fun keyword g => keywordMatches F text lowerText keyword = some g)
        keywords groups ∧ ms = groups.flatten := by
  induction keywords with
  | nil =>
    intro ms h
    simp only [collectMatches, Option.some.injEq] at h
    exact ⟨[], List.Forall₂.nil, by simp [← h]⟩
  | cons k ks ih =>
    intro ms h
    rw [collectMatches] at h
    cases hk : keywordMatches F text lowerText k with
    | none => rw [hk] at h; cases h
    | some g =>
      cases hr : collectMatches F text lowerText ks with
      | none => rw [hk, hr] at h; cases h
      | some more =>
        rw [hk, hr] at h
        simp only [Option.some.injEq] at h
        obtain ⟨groups, hf, hm⟩ := ih more hr
        exact ⟨g :: groups, List.Forall₂.cons hk hf, by rw [← h, hm]; simp⟩


theorem findKeywordsInText_single (H : Host) (F : CaseFold) (text keyword : JSString) :
    findKeywordsInText H F text [keyword] =
      keywordMatches F text (H.toLowerCase text) keyword := by
  unfold findKeywordsInText
  simp only [collectMatches]
  cases keywordMatches F text (H.toLowerCase text) keyword with
  | none => rfl
  | some g => simp

/-- C19, as stated, fails: for the keywords `cat`, `the` on `the cat` the match
of `cat` at 4 comes before the match of `the` at 0. -/
theorem matches_not_in_position_order :
    (findKeywordsInText jsHost asciiFold (js "the cat") [js "cat", js "the"]).map
        (fun ms => ms.map (fun m => (m.fullMatch, m.position))) =
      some [(js "cat", 4), (js "the", 0)] ∧
    ¬ (∀ (text : JSString) (keywords : List JSString) (ms : List SearchMatch),
        findKeywordsInText jsHost asciiFold text keywords = some ms →
        (ms.map (fun m => m.position)).Pairwise (fun a b => a ≤ b)) := by
  refine ⟨by decide, ?_⟩
  intro h
  have := h (js "the cat") [js "cat", js "the"] _ rfl
  revert this
  decide

/-- The pattern of a keyword is described exactly when the keyword is plain. -/
theorem keywordPattern_isSome (k : JSString) :
    (∃ items, keywordPattern k = some items) ↔ isPlainKeyword k = true := by
  unfold keywordPattern isPlainKeyword
  rw [includes_star]
  by_cases hs : 42 ∈ k
  · simp [hs]
  · by_cases ho : k.any isRegexOperator = true
    · simp [hs, ho]
    · simp [hs, ho]

theorem collectMatches_isSome (F : CaseFold) (text lowerText : JSString)
    (keywords : List JSString) :
    (∃ ms, collectMatches F text lowerText keywords = some ms) ↔
      ∀ k ∈ keywords, isPlainKeyword k = true := by
  induction keywords with
  | nil => simp [collectMatches]
  | cons k ks ih =>
    rw [collectMatches]
    have hk := keywordPattern_isSome k
    cases hp : keywordPattern k with
    | none =>
      have hn : ¬ isPlainKeyword k = true := by
        intro h; obtain ⟨items, hi⟩ := hk.2 h; rw [hp] at hi; cases hi
      have e : keywordMatches F text lowerText k = none := by
        unfold keywordMatches; rw [hp]; rfl
      rw [e]
      constructor
      · rintro ⟨ms, h⟩; cases h
      · intro h; exact absurd (h k (List.mem_cons_self _ _)) hn
    | some items =>
      have hy : isPlainKeyword k = true := hk.1 ⟨items, hp⟩
      have e : ∃ g, keywordMatches F text lowerText k = some g := by
        unfold keywordMatches; rw [hp]; exact ⟨_, rfl⟩
      obtain ⟨g, hg⟩ := e
      rw [hg]
      cases hr : collectMatches F text lowerText ks with
      | none =>
        rw [hr] at ih
        constructor
        · rintro ⟨ms, h⟩; cases h
        · intro h
          obtain ⟨ms, hm⟩ := ih.2 (fun k2 h2 => h k2 (List.mem_cons_of_mem _ h2))
          cases hm
      | some more =>
        rw [hr] at ih
        constructor
        · intro _ k2 h2
          rcases List.mem_cons.1 h2 with e2 | e2
          · subst e2; exact hy
          · exact ih.1 ⟨more, rfl⟩ k2 e2
        · intro _; exact ⟨_, rfl⟩

/-- Every match of `findKeywordsInText` is a slice of the lower-cased text at its
position, and its context is a slice of the text. -/
theorem findKeywordsInText_facts (H : Host) (F : CaseFold) (text : JSString)
    (keywords : List JSString) (ms : List SearchMatch)
    (h : findKeywordsInText H F text keywords = some ms) :
    ∀ m ∈ ms, m.position + m.fullMatch.length ≤ (H.toLowerCase text).length ∧
      ((H.toLowerCase text).drop m.position).take m.fullMatch.length = m.fullMatch ∧
      m.context = substring text (m.position - 50)
        (min text.length (m.position + m.fullMatch.length + 50)) := by
  obtain ⟨groups, hf, hm⟩ := collectMatches_groups F text (H.toLowerCase text) keywords ms h
  intro m hmem
  rw [hm, List.mem_flatten] at hmem
  obtain ⟨g, hg, hmg⟩ := hmem
  clear hm h
  induction hf with
  | nil => simp at hg
  | cons hk _ ih =>
    rcases List.mem_cons.1 hg with e | e
    · subst e
      have := (keywordMatches_facts F text _ _ _ hk).2 m hmg
      exact ⟨this.2.2.1, this.2.2.2.1, this.2.2.2.2⟩
    · exact ih e

theorem searchDocuments_results (H : Host) (F : CaseFold) (keywords : List JSString)
    (documents : List StoredDocument) : ∀ rs : List SearchResult,
    searchDocuments H F keywords documents = some rs →
    ∀ r ∈ rs, (∃ data ∈ documents, r.cleanedText = searchedText data ∧
        r.originalContent = data.originalContent) ∧
      findKeywordsInText H F r.cleanedText keywords = some r.matchList := by
  induction documents with
  | nil =>
    intro rs h r hr
    simp only [searchDocuments, Option.some.injEq] at h
    subst h; simp at hr
  | cons d ds ih =>
    intro rs h r hr
    rw [searchDocuments] at h
    cases hk : findKeywordsInText H F (searchedText d) keywords with
    | none => rw [hk] at h; cases h
    | some ms =>
      cases hq : searchDocuments H F keywords ds with
      | none => rw [hk, hq] at h; cases h
      | some more =>
        rw [hk, hq] at h
        simp only at h
        have hmore : ∀ r ∈ more, (∃ data ∈ d :: ds, r.cleanedText = searchedText data ∧
            r.originalContent = data.originalContent) ∧
            findKeywordsInText H F r.cleanedText keywords = some r.matchList := by
          intro r2 hr2
          obtain ⟨⟨data, hd, e⟩, hf⟩ := ih more hq r2 hr2
          exact ⟨⟨data, List.mem_cons_of_mem _ hd, e⟩, hf⟩
        split at h
        · simp only [Option.some.injEq] at h
          subst h
          rcases List.mem_cons.1 hr with e | e
          · subst e
            exact ⟨⟨d, List.mem_cons_self _ _, rfl, rfl⟩, hk⟩
          · exact hmore r e
        · simp only [Option.some.injEq] at h
          subst h
          exact hmore r hr

theorem searchSamples_results (H : Host) (F : CaseFold) (keywords : List JSString)
    (samples : List SampleFile) : ∀ rs : List SearchResult,
    searchSamples H F keywords samples = some rs →
    ∀ r ∈ rs, (∃ s ∈ samples, r.cleanedText = s.cleanedText ∧
        r.originalContent = s.originalContent) ∧
      findKeywordsInText H F r.cleanedText keywords = some r.matchList := by
  induction samples with
  | nil =>
    intro rs h r hr
    simp only [searchSamples, Option.some.injEq] at h
    subst h; simp at hr
  | cons d ds ih =>
    intro rs h r hr
    rw [searchSamples] at h
    cases hk : findKeywordsInText H F d.cleanedText keywords with
    | none => rw [hk] at h; cases h
    | some ms =>
      cases hq : searchSamples H F keywords ds with
      | none => rw [hk, hq] at h; cases h
      | some more =>
        rw [hk, hq] at h
        simp only at h
        have hmore : ∀ r ∈ more, (∃ s ∈ d :: ds, r.cleanedText = s.cleanedText ∧
            r.originalContent = s.originalContent) ∧
            findKeywordsInText H F r.cleanedText keywords = some r.matchList := by
          intro r2 hr2
          obtain ⟨⟨s, hd, e⟩, hf⟩ := ih more hq r2 hr2
          exact ⟨⟨s, List.mem_cons_of_mem _ hd, e⟩, hf⟩
        split at h
        · simp only [Option.some.injEq] at h
          subst h
          rcases List.mem_cons.1 hr with e | e
          · subst e
            exact ⟨⟨d, List.mem_cons_self _ _, rfl, rfl⟩, hk⟩
          · exact hmore r e
        · simp only [Option.some.injEq] at h
          subst h
          exact hmore r hr

/-- C18, as stated, fails: for `Hello, World!` and the query `world` the match is
at position 6 of the cleaned text `hello world`; the 5 characters of
`originalContent` from position 6 are ` Worl`, and the context is the cleaned
text, not a slice of `originalContent`. -/
theorem search_position_not_in_original :
    searchFiles jsHost asciiFold [helloDocument] [] (js "world") =
      SearchOutcome.displayed
        [⟨js "d1", js "hello.txt", [⟨js "world", 6, js "hello world", js "world", false⟩],
          js "Hello, World!", js "hello world", false⟩]
        [js "world"] [⟨js "world", none, js "exact"⟩] ∧
    ((js "Hello, World!").drop 6).take 5 = js " Worl" ∧
    (js " Worl").map asciiLower ≠ (js "world").map asciiLower ∧
    substring (js "Hello, World!") (6 - 50) (min (js "Hello, World!").length (6 + 5 + 50)) ≠
      js "hello world" := by
  decide

/-- C18, amended: each match reported by the search for a document has a
position that is an offset into the text searched, which is the `cleanedText` of
the result (the `cleanedText` of the document, or its `originalContent` when the
cleaned text is empty or missing): the units of the lower-cased searched text
from that position are the matched text, they are units of the searched text
itself when it is a cleaned text, and the context is the slice of the searched
text from 50 units before the match to 50 units after it. -/
theorem search_positions_in_searched_text (H : Host) (F : CaseFold)
    (documents : List StoredDocument) (sampleFilesCache : List SampleFile) (input : JSString)
    (results : List SearchResult) (raw : List JSString) (info : List KeywordInfo)
    (h : searchFiles H F documents sampleFilesCache input =
      SearchOutcome.displayed results raw info) :
    ∀ r ∈ results,
      ((∃ data ∈ documents, r.cleanedText = searchedText data ∧
          r.originalContent = data.originalContent) ∨
        (∃ s ∈ sampleFilesCache, r.cleanedText = s.cleanedText ∧
          r.originalContent = s.originalContent)) ∧
      ∀ m ∈ r.matchList,
        m.position + m.fullMatch.length ≤ (H.toLowerCase r.cleanedText).length ∧
        ((H.toLowerCase r.cleanedText).drop m.position).take m.fullMatch.length = m.fullMatch ∧
        (IsClean r.cleanedText →
          (r.cleanedText.drop m.position).take m.fullMatch.length = m.fullMatch) ∧
        m.context = substring r.cleanedText (m.position - 50)
          (min r.cleanedText.length (m.position + m.fullMatch.length + 50)) := by
  unfold searchFiles at h
  simp only at h
  split at h
  · cases h
  · split at h
    · cases h
    · revert h
      cases ha : searchDocuments H F (expandKeywords H (rawKeywords H (trim input))).1 documents with
      | none => intro h; cases h
      | some a =>
        cases hb : searchSamples H F (expandKeywords H (rawKeywords H (trim input))).1
            sampleFilesCache with
        | none => intro h; cases h
        | some b =>
          intro h
          simp only [SearchOutcome.displayed.injEq] at h
          obtain ⟨hres, _, _⟩ := h
          intro r hr
          rw [← hres, List.mem_append] at hr
          have key : ((∃ data ∈ documents, r.cleanedText = searchedText data ∧
                r.originalContent = data.originalContent) ∨
              (∃ s ∈ sampleFilesCache, r.cleanedText = s.cleanedText ∧
                r.originalContent = s.originalContent)) ∧
              findKeywordsInText H F r.cleanedText
                (expandKeywords H (rawKeywords H (trim input))).1 = some r.matchList := by
            rcases hr with hr | hr
            · obtain ⟨h1, h2⟩ := searchDocuments_results H F _ documents a ha r hr
              exact ⟨Or.inl h1, h2⟩
            · obtain ⟨h1, h2⟩ := searchSamples_results H F _ sampleFilesCache b hb r hr
              exact ⟨Or.inr h1, h2⟩
          refine ⟨key.1, ?_⟩
          intro m hm
          obtain ⟨f1, f2, f3⟩ := findKeywordsInText_facts H F _ _ _ key.2 m hm
          refine ⟨f1, f2, ?_, f3⟩
          intro hc
          have hlow : H.toLowerCase r.cleanedText = r.cleanedText := by
            rw [H.lower_ascii _ (fun c hcm => (clean_unit_facts (hc.1 c hcm)).1)]
            conv_rhs => rw [← List.map_id r.cleanedText]
            exact List.map_congr_left (fun c hcm => (clean_unit_facts (hc.1 c hcm)).2.1)
          rw [hlow] at f2
          exact f2

/-- Witness for `search_positions_in_searched_text`: the match of `world` in the
result for `Hello, World!`. -/
theorem search_positions_in_searched_text_witness :
    searchFiles jsHost asciiFold [helloDocument] [] (js "world") =
      SearchOutcome.displayed
        [⟨js "d1", js "hello.txt", [⟨js "world", 6, js "hello world", js "world", false⟩],
          js "Hello, World!", js "hello world", false⟩]
        [js "world"] [⟨js "world", none, js "exact"⟩] ∧
    6 + (js "world").length ≤ (jsHost.toLowerCase (js "hello world")).length ∧
    ((jsHost.toLowerCase (js "hello world")).drop 6).take (js "world").length = js "world" ∧
    js "hello world" = substring (js "hello world") (6 - 50)
      (min (js "hello world").length (6 + (js "world").length + 50)) :=
  ⟨by decide,
   ((search_positions_in_searched_text jsHost asciiFold [helloDocument] [] (js "world")
      [⟨js "d1", js "hello.txt", [⟨js "world", 6, js "hello world", js "world", false⟩],
        js "Hello, World!", js "hello world", false⟩]
      [js "world"] [⟨js "world", none, js "exact"⟩] (by decide)
      ⟨js "d1", js "hello.txt", [⟨js "world", 6, js "hello world", js "world", false⟩],
        js "Hello, World!", js "hello world", false⟩ (List.mem_singleton_self _)).2
      ⟨js "world", 6, js "hello world", js "world", false⟩ (List.mem_singleton_self _)).1,
   ((search_positions_in_searched_text jsHost asciiFold [helloDocument] [] (js "world")
      [⟨js "d1", js "hello.txt", [⟨js "world", 6, js "hello world", js "world", false⟩],
        js "Hello, World!", js "hello world", false⟩]
      [js "world"] [⟨js "world", none, js "exact"⟩] (by decide)
      ⟨js "d1", js "hello.txt", [⟨js "world", 6, js "hello world", js "world", false⟩],
        js "Hello, World!", js "hello world", false⟩ (List.mem_singleton_self _)).2
      ⟨js "world", 6, js "hello world", js "world", false⟩ (List.mem_singleton_self _)).2.1,
   ((search_positions_in_searched_text jsHost asciiFold [helloDocument] [] (js "world")
      [⟨js "d1", js "hello.txt", [⟨js "world", 6, js "hello world", js "world", false⟩],
        js "Hello, World!", js "hello world", false⟩]
      [js "world"] [⟨js "world", none, js "exact"⟩] (by decide)
      ⟨js "d1", js "hello.txt", [⟨js "world", 6, js "hello world", js "world", false⟩],
        js "Hello, World!", js "hello world", false⟩ (List.mem_singleton_self _)).2
      ⟨js "world", 6, js "hello world", js "world", false⟩ (List.mem_singleton_self _)).2.2.2⟩


/-! ## The query `running` -/

/-- C20, as stated, fails: for the query `running` and the document
`She runs and ran.` the search finds no match, and the document is not part of
the result. -/
theorem running_does_not_find_runs :
    searchFiles jsHost asciiFold [runsDocument] [] (js "running") =
      SearchOutcome.displayed [] [js "running"]
        [⟨js "running", none, js "exact"⟩, ⟨js "running", some (js "run"), js "stemmed"⟩] := by
  decide

theorem expandKeywords_running (H : Host) :
    (expandKeywords H (rawKeywords H (js "running"))).1 = [js "running", js "run"] := by
  have hr : rawKeywords H (js "running") = [js "running"] := by
    unfold rawKeywords
    rw [H.lower_ascii _ (by decide)]
    decide
  have hs : stemWord H (js "running") = js "run" := by
    rw [stemWord_ascii H _ (by decide)]; decide
  rw [hr]
  unfold expandKeywords
  simp only [List.foldl_cons, List.foldl_nil, expandStep, hs]
  decide

/-- C20, amended: for every host the query `running` is expanded to the terms
`running` and `run`, which are matched as whole words: in `she runs and ran` they
find no match, neither on `runs` nor on `ran`, and the document is not part of
the result; in `they run and ran` the stemmed term finds the word `run`, nothing
on `ran`, and the document is part of the result. -/
theorem running_finds_the_word_run (H : Host) (F : CaseFold) :
    (expandKeywords H (rawKeywords H (js "running"))).1 = [js "running", js "run"] ∧
    findKeywordsInText H F (js "she runs and ran") [js "running", js "run"] = some [] ∧
    findKeywordsInText H F (js "they run and ran") [js "running", js "run"] =
      some [⟨js "run", 5, js "they run and ran", js "run", false⟩] ∧
    (∃ raw info, searchFiles H F [runsDocument] [] (js "running") =
      SearchOutcome.displayed [] raw info) ∧
    (∃ raw info, searchFiles H F [runDocument] [] (js "running") =
      SearchOutcome.displayed
        [⟨js "d3", js "run.txt", [⟨js "run", 5, js "they run and ran", js "run", false⟩],
          js "They run and ran.", js "they run and ran", false⟩] raw info) := by
  have hk := expandKeywords_running H
  have h1 : findKeywordsInText H F (js "she runs and ran") [js "running", js "run"] = some [] := by
    rw [findKeywordsInText_ascii H F _ _ (by decide) (by decide)]; decide
  have h2 : findKeywordsInText H F (js "they run and ran") [js "running", js "run"] =
      some [⟨js "run", 5, js "they run and ran", js "run", false⟩] := by
    rw [findKeywordsInText_ascii H F _ _ (by decide) (by decide)]; decide
  have t1 : searchedText runsDocument = js "she runs and ran" := by decide
  have t2 : searchedText runDocument = js "they run and ran" := by decide
  have hq : (trim (js "running")).length ≠ 0 := by decide
  have hraw : (rawKeywords H (trim (js "running"))).length ≠ 0 := by
    have : trim (js "running") = js "running" := by decide
    rw [this]
    unfold rawKeywords
    rw [H.lower_ascii _ (by decide)]
    decide
  have htrim : trim (js "running") = js "running" := by decide
  refine ⟨hk, h1, h2, ?_, ?_⟩
  · unfold searchFiles
    simp only [htrim] at hraw ⊢
    simp only [searchDocuments, searchSamples, hk, t1, h1]
    simp only [hraw, beq_iff_eq, List.length_eq_zero, if_false, List.length_nil,
      Nat.lt_irrefl, decide_False, Bool.false_eq_true, List.nil_append]
    rw [if_neg (by decide)]
    exact ⟨_, _, rfl⟩
  · unfold searchFiles
    simp only [htrim] at hraw ⊢
    simp only [searchDocuments, searchSamples, hk, t2, h2]
    simp only [hraw, beq_iff_eq, List.length_eq_zero, if_false, List.length_singleton,
      Nat.lt_one_iff, Nat.zero_lt_one, decide_True, if_true, List.singleton_append]
    rw [if_neg (by decide)]
    exact ⟨_, _, rfl⟩


/-! ## The accented-character stage -/

theorem countIn_nil (H : Host) (set : List JSString) : countIn H set [] = 0 := rfl

/-- The accented-character stage, on the counts it computes: with no signature,
10 or more for `spanishUnique` gives `Spanish`; fewer, and 10 or more for
`frenchHeavy`, gives `French`. -/
theorem detectLanguage_accent_stage (H : Host) (text : JSString) (letterFreq : JSObject Nat)
    (foreignChars : List ForeignChar) (hf : frenchSignature letterFreq = false)
    (he : englishSignature letterFreq = false) (hs : spanishSignature letterFreq = false) :
    (10 ≤ countIn H spanishUnique foreignChars →
      detectLanguage H text letterFreq foreignChars = js "Spanish") ∧
    (countIn H spanishUnique foreignChars < 10 → 10 ≤ countIn H frenchHeavy foreignChars →
      detectLanguage H text letterFreq foreignChars = js "French") := by
  have hne : ∀ set, 10 ≤ countIn H set foreignChars → 0 < foreignChars.length := by
    intro set h
    cases foreignChars with
    | nil => rw [countIn_nil] at h; omega
    | cons a l => simp
  unfold detectLanguage
  simp only [hf, he, hs, Bool.false_eq_true, if_false]
  unfold detectByChars
  constructor
  · intro h
    rw [if_pos (hne _ h)]
    simp only
    rw [if_pos h]
  · intro h1 h2
    rw [if_pos (hne _ h2)]
    simp only
    rw [if_neg (by omega), if_pos h2]


/-! ## Navigation -/

theorem removeHighlight_length (nav : Navigation) :
    (removeHighlight nav).length = nav.allMatches.length := by
  unfold removeHighlight
  split
  · split <;> simp
  · rfl

theorem highlightCurrent_length (allMatches : List MatchElement) (index : Int) :
    (highlightCurrent allMatches index).length = allMatches.length := by
  unfold highlightCurrent
  split <;> simp

theorem next_length (nav : Navigation) :
    (jumpToNextOccurrence nav).allMatches.length = nav.allMatches.length := by
  unfold jumpToNextOccurrence
  split
  · rfl
  · simp only [highlightCurrent_length, removeHighlight_length]

theorem previous_length (nav : Navigation) :
    (jumpToPreviousOccurrence nav).allMatches.length = nav.allMatches.length := by
  unfold jumpToPreviousOccurrence
  split
  · rfl
  · simp only [highlightCurrent_length, removeHighlight_length]

theorem next_index_tmod (nav : Navigation) (hN : 0 < nav.allMatches.length) :
    (jumpToNextOccurrence nav).currentMatchIndex =
      Int.tmod (nav.currentMatchIndex + 1) nav.allMatches.length := by
  unfold jumpToNextOccurrence
  have : (nav.allMatches.length == 0) = false := by
    rw [beq_eq_false_iff_ne]; omega
  simp only [this, Bool.false_eq_true, if_false]

/-- The index after `jumpToNextOccurrence`, for an index from `-1` to `N - 1`. -/
theorem next_index (nav : Navigation) (hN : 0 < nav.allMatches.length)
    (h0 : -1 ≤ nav.currentMatchIndex) (h1 : nav.currentMatchIndex < nav.allMatches.length) :
    (jumpToNextOccurrence nav).currentMatchIndex =
      (nav.currentMatchIndex + 1) % (nav.allMatches.length : Int) ∧
    (jumpToNextOccurrence nav).currentMatchIndex =
      (if nav.currentMatchIndex + 1 = nav.allMatches.length then 0
        else nav.currentMatchIndex + 1) := by
  rw [next_index_tmod nav hN, Int.tmod_eq_emod (by omega) (by omega)]
  refine ⟨rfl, ?_⟩
  split
  · next h => rw [h, Int.emod_self]
  · next h => exact Int.emod_eq_of_lt (by omega) (by omega)

/-- The index after `jumpToPreviousOccurrence`. -/
theorem previous_index (nav : Navigation) (hN : 0 < nav.allMatches.length) :
    (jumpToPreviousOccurrence nav).currentMatchIndex =
      (if nav.currentMatchIndex ≤ 0 then (nav.allMatches.length : Int) - 1
        else nav.currentMatchIndex - 1) := by
  unfold jumpToPreviousOccurrence
  have : (nav.allMatches.length == 0) = false := by
    rw [beq_eq_false_iff_ne]; omega
  simp only [this, Bool.false_eq_true, if_false]

/-- C21: `jumpToNextOccurrence` leaves the state as it is when there is no
match; with `N ≥ 1` matches it moves the index `i`, from `-1` to `N - 1`, to
`(i + 1) mod N`, so `-1` goes to `0`; on 3 matches four calls from the initial
state give the indices 0, 1, 2, 0. -/
theorem jumpToNextOccurrence_cycles (nav : Navigation) :
    (nav.allMatches.length = 0 → jumpToNextOccurrence nav = nav) ∧
    (0 < nav.allMatches.length → -1 ≤ nav.currentMatchIndex →
      nav.currentMatchIndex < nav.allMatches.length →
      (jumpToNextOccurrence nav).currentMatchIndex =
        (nav.currentMatchIndex + 1) % (nav.allMatches.length : Int)) ∧
    (0 < nav.allMatches.length → nav.currentMatchIndex = -1 →
      (jumpToNextOccurrence nav).currentMatchIndex = 0) ∧
    (∀ a b c : MatchElement,
      (jumpToNextOccurrence (initializeSearchNavigation [a, b, c])).currentMatchIndex = 0 ∧
      (jumpToNextOccurrence (jumpToNextOccurrence
        (initializeSearchNavigation [a, b, c]))).currentMatchIndex = 1 ∧
      (jumpToNextOccurrence (jumpToNextOccurrence (jumpToNextOccurrence
        (initializeSearchNavigation [a, b, c])))).currentMatchIndex = 2 ∧
      (jumpToNextOccurrence (jumpToNextOccurrence (jumpToNextOccurrence (jumpToNextOccurrence
        (initializeSearchNavigation [a, b, c]))))).currentMatchIndex = 0) := by
  refine ⟨?_, ?_, ?_, ?_⟩
  · intro h
    unfold jumpToNextOccurrence
    simp [h]
  · intro hN h0 h1
    exact (next_index nav hN h0 h1).1
  · intro hN h
    rw [(next_index nav hN (by omega) (by omega)).2, h]
    have : ¬ ((-1 : Int) + 1 = nav.allMatches.length) := by omega
    simp [this]
  · intro a b c
    have l0 : (initializeSearchNavigation [a, b, c]).allMatches.length = 3 := rfl
    have i0 : (initializeSearchNavigation [a, b, c]).currentMatchIndex = -1 := rfl
    generalize initializeSearchNavigation [a, b, c] = n0 at l0 i0
    have l1 := next_length n0
    have i1 := (next_index n0 (by omega) (by omega) (by omega)).2
    rw [l0] at l1
    rw [l0, i0] at i1
    simp only [Int.reduceNeg, Int.reduceAdd, Nat.cast_ofNat, Int.reduceEq, if_false] at i1
    generalize jumpToNextOccurrence n0 = n1 at l1 i1 ⊢
    have l2 := next_length n1
    have i2 := (next_index n1 (by omega) (by omega) (by omega)).2
    rw [l1] at l2
    rw [l1, i1] at i2
    simp only [Int.reduceAdd, Nat.cast_ofNat, Int.reduceEq, if_false] at i2
    generalize jumpToNextOccurrence n1 = n2 at l2 i2 ⊢
    have l3 := next_length n2
    have i3 := (next_index n2 (by omega) (by omega) (by omega)).2
    rw [l2] at l3
    rw [l2, i2] at i3
    simp only [Int.reduceAdd, Nat.cast_ofNat, Int.reduceEq, if_false] at i3
    generalize jumpToNextOccurrence n2 = n3 at l3 i3 ⊢
    have i4 := (next_index n3 (by omega) (by omega) (by omega)).2
    rw [l3, i3] at i4
    simp only [Int.reduceAdd, Nat.cast_ofNat, if_true] at i4
    exact ⟨i1, i2, i3, i4⟩

/-- Witness for `jumpToNextOccurrence_cycles`: the first call on three matches. -/
theorem jumpToNextOccurrence_cycles_witness :
    (jumpToNextOccurrence (initializeSearchNavigation
      [plainElement, plainElement, plainElement])).currentMatchIndex = 0 ∧
    jumpToNextOccurrence (initializeSearchNavigation []) = initializeSearchNavigation [] :=
  ⟨(jumpToNextOccurrence_cycles (initializeSearchNavigation
      [plainElement, plainElement, plainElement])).2.2.1 (by decide) rfl,
   (jumpToNextOccurrence_cycles (initializeSearchNavigation [])).1 rfl⟩

/-- C22: `jumpToPreviousOccurrence` leaves the state as it is when there is no
match; with `N ≥ 1` matches it moves the index `i` of `[0, N)` to
`(i - 1) mod N` and the indices `-1` and `0` to `N - 1`; from an index between
`-1` and `N - 1` the new index lies in `[0, N)`. -/
theorem jumpToPreviousOccurrence_cycles (nav : Navigation) :
    (nav.allMatches.length = 0 → jumpToPreviousOccurrence nav = nav) ∧
    (0 < nav.allMatches.length → 0 ≤ nav.currentMatchIndex →
      nav.currentMatchIndex < nav.allMatches.length →
      (jumpToPreviousOccurrence nav).currentMatchIndex =
        (nav.currentMatchIndex - 1) % (nav.allMatches.length : Int)) ∧
    (0 < nav.allMatches.length → (nav.currentMatchIndex = -1 ∨ nav.currentMatchIndex = 0) →
      (jumpToPreviousOccurrence nav).currentMatchIndex = (nav.allMatches.length : Int) - 1) ∧
    (0 < nav.allMatches.length → -1 ≤ nav.currentMatchIndex →
      nav.currentMatchIndex < nav.allMatches.length →
      0 ≤ (jumpToPreviousOccurrence nav).currentMatchIndex ∧
        (jumpToPreviousOccurrence nav).currentMatchIndex <
          (jumpToPreviousOccurrence nav).allMatches.length) := by
  refine ⟨?_, ?_, ?_, ?_⟩
  · intro h
    unfold jumpToPreviousOccurrence
    simp [h]
  · intro hN h0 h1
    rw [previous_index nav hN]
    split
    · next h =>
      have e : nav.currentMatchIndex = 0 := by omega
      rw [e]
      have : ((0 : Int) - 1) % (nav.allMatches.length : Int) =
          ((nav.allMatches.length : Int) - 1) := by
        have h2 : ((0 : Int) - 1) = ((nav.allMatches.length : Int) - 1) +
            (nav.allMatches.length : Int) * (-1) := by ring
        rw [h2, Int.add_mul_emod_self_left]
        exact Int.emod_eq_of_lt (by omega) (by omega)
      rw [this]
    · next h => exact (Int.emod_eq_of_lt (by omega) (by omega)).symm
  · intro hN h
    rw [previous_index nav hN, if_pos (by omega)]
  · intro hN h0 h1
    rw [previous_index nav hN, previous_length]
    split <;> omega

/-- Witness for `jumpToPreviousOccurrence_cycles`: from the initial state on
three matches the index becomes 2. -/
theorem jumpToPreviousOccurrence_cycles_witness :
    (jumpToPreviousOccurrence (initializeSearchNavigation
      [plainElement, plainElement, plainElement])).currentMatchIndex = 2 :=
  (jumpToPreviousOccurrence_cycles (initializeSearchNavigation
    [plainElement, plainElement, plainElement])).2.2.1 (by decide) (Or.inl rfl)


theorem next_range (nav : Navigation) (hN : 0 < nav.allMatches.length)
    (h0 : -1 ≤ nav.currentMatchIndex) (h1 : nav.currentMatchIndex < nav.allMatches.length) :
    0 ≤ (jumpToNextOccurrence nav).currentMatchIndex ∧
    (jumpToNextOccurrence nav).currentMatchIndex <
      (jumpToNextOccurrence nav).allMatches.length := by
  rw [(next_index nav hN h0 h1).2, next_length]
  split <;> omega

theorem previous_range (nav : Navigation) (hN : 0 < nav.allMatches.length)
    (_h0 : -1 ≤ nav.currentMatchIndex) (h1 : nav.currentMatchIndex < nav.allMatches.length) :
    0 ≤ (jumpToPreviousOccurrence nav).currentMatchIndex ∧
    (jumpToPreviousOccurrence nav).currentMatchIndex <
      (jumpToPreviousOccurrence nav).allMatches.length := by
  rw [previous_index nav hN, previous_length]
  split <;> omega

/-- After `k` calls of `jumpToNextOccurrence` the index is `(i + k) mod N`. -/
theorem next_iterate (k : Nat) : ∀ nav : Navigation, 0 < nav.allMatches.length →
    0 ≤ nav.currentMatchIndex → nav.currentMatchIndex < nav.allMatches.length →
    (jumpToNextOccurrence^[k] nav).currentMatchIndex =
      (nav.currentMatchIndex + k) % (nav.allMatches.length : Int) ∧
    (jumpToNextOccurrence^[k] nav).allMatches.length = nav.allMatches.length := by
  induction k with
  | zero =>
    intro nav hN h0 h1
    simp only [Function.iterate_zero, id_eq, Nat.cast_zero, Int.add_zero, and_true]
    exact (Int.emod_eq_of_lt h0 h1).symm
  | succ k ih =>
    intro nav hN h0 h1
    rw [Function.iterate_succ, Function.comp_apply]
    have hr := next_range nav hN (by omega) h1
    have hl := next_length nav
    obtain ⟨e1, e2⟩ := ih (jumpToNextOccurrence nav) (by omega) hr.1 hr.2
    rw [e1, e2, hl, (next_index nav hN (by omega) h1).1, Int.emod_add_emod]
    refine ⟨?_, rfl⟩
    congr 1
    push_cast
    ring

/-- After at least one step the index lies in `[0, N)`. -/
theorem runSteps_range (steps : List Bool) : ∀ nav : Navigation, 0 < nav.allMatches.length →
    -1 ≤ nav.currentMatchIndex → nav.currentMatchIndex < nav.allMatches.length →
    steps ≠ [] →
    0 ≤ (runSteps steps nav).currentMatchIndex ∧
    (runSteps steps nav).currentMatchIndex < nav.allMatches.length ∧
    (runSteps steps nav).allMatches.length = nav.allMatches.length := by
  induction steps with
  | nil => intro nav _ _ _ h; exact absurd rfl h
  | cons b rest ih =>
    intro nav hN h0 h1 _
    cases b with
    | true =>
      have hr := next_range nav hN h0 h1
      have hl := next_length nav
      rw [runSteps]
      cases rest with
      | nil => rw [runSteps]; rw [hl] at hr; exact ⟨hr.1, hr.2, hl⟩
      | cons c cs =>
        have := ih (jumpToNextOccurrence nav) (by omega) (by omega) hr.2 (by simp)
        rw [hl] at this
        exact this
    | false =>
      have hr := previous_range nav hN h0 h1
      have hl := previous_length nav
      rw [runSteps]
      cases rest with
      | nil => rw [runSteps]; rw [hl] at hr; exact ⟨hr.1, hr.2, hl⟩
      | cons c cs =>
        have := ih (jumpToPreviousOccurrence nav) (by omega) (by omega) hr.2 (by simp)
        rw [hl] at this
        exact this

/-- C30: with `N ≥ 1` matches and an index `i` of `[0, N)`, previous after next
and next after previous return to `i`, and so do `N` calls of next; from the
index `-1` the round trips end at `N - 1` and at `0`, not at `-1`; after at least
one step, whatever the steps are, the index lies in `[0, N)`. -/
theorem navigation_round_trips (nav : Navigation) (hN : 0 < nav.allMatches.length) :
    (0 ≤ nav.currentMatchIndex → nav.currentMatchIndex < nav.allMatches.length →
      (jumpToPreviousOccurrence (jumpToNextOccurrence nav)).currentMatchIndex =
        nav.currentMatchIndex ∧
      (jumpToNextOccurrence (jumpToPreviousOccurrence nav)).currentMatchIndex =
        nav.currentMatchIndex ∧
      (jumpToNextOccurrence^[nav.allMatches.length] nav).currentMatchIndex =
        nav.currentMatchIndex) ∧
    (nav.currentMatchIndex = -1 →
      (jumpToPreviousOccurrence (jumpToNextOccurrence nav)).currentMatchIndex =
        (nav.allMatches.length : Int) - 1 ∧
      (jumpToNextOccurrence (jumpToPreviousOccurrence nav)).currentMatchIndex = 0 ∧
      (jumpToPreviousOccurrence (jumpToNextOccurrence nav)).currentMatchIndex ≠ -1 ∧
      (jumpToNextOccurrence (jumpToPreviousOccurrence nav)).currentMatchIndex ≠ -1) ∧
    (-1 ≤ nav.currentMatchIndex → nav.currentMatchIndex < nav.allMatches.length →
      ∀ steps : List Bool, steps ≠ [] →
        0 ≤ (runSteps steps nav).currentMatchIndex ∧
        (runSteps steps nav).currentMatchIndex < nav.allMatches.length) := by
  have pn : -1 ≤ nav.currentMatchIndex → nav.currentMatchIndex < nav.allMatches.length →
      (jumpToPreviousOccurrence (jumpToNextOccurrence nav)).currentMatchIndex =
        (if nav.currentMatchIndex + 1 = nav.allMatches.length ∨ nav.currentMatchIndex = -1
          then (nav.allMatches.length : Int) - 1 else nav.currentMatchIndex) := by
    intro h0 h1
    have hl := next_length nav
    rw [previous_index _ (by omega), (next_index nav hN h0 h1).2, hl]
    by_cases e : nav.currentMatchIndex + 1 = nav.allMatches.length
    · simp [e]
    · by_cases e2 : nav.currentMatchIndex = -1
      · simp [e, e2]
      · have e3 : ¬ (nav.currentMatchIndex + 1 ≤ 0) := by omega
        simp [e, e2, e3]
  have np : -1 ≤ nav.currentMatchIndex → nav.currentMatchIndex < nav.allMatches.length →
      (jumpToNextOccurrence (jumpToPreviousOccurrence nav)).currentMatchIndex =
        (if nav.currentMatchIndex ≤ 0 then 0 else nav.currentMatchIndex) := by
    intro h0 h1
    have hl := previous_length nav
    have hr := previous_range nav hN h0 h1
    rw [(next_index _ (by omega) (by omega) hr.2).2, previous_index nav hN, hl]
    by_cases e : nav.currentMatchIndex ≤ 0
    · simp [e]
    · have e3 : ¬ (nav.currentMatchIndex - 1 + 1 = nav.allMatches.length) := by omega
      simp only [e, if_false, e3]
      omega
  refine ⟨?_, ?_, ?_⟩
  · intro h0 h1
    refine ⟨?_, ?_, ?_⟩
    · rw [pn (by omega) h1]
      split
      · next h => omega
      · rfl
    · rw [np (by omega) h1]
      split
      · next h => omega
      · rfl
    · rw [(next_iterate nav.allMatches.length nav hN h0 h1).1, Int.add_emod_self]
      exact Int.emod_eq_of_lt h0 h1
  · intro h
    have a := pn (by omega) (by omega)
    have b := np (by omega) (by omega)
    rw [if_pos (Or.inr h)] at a
    rw [if_pos (by omega)] at b
    exact ⟨a, b, by rw [a]; omega, by rw [b]; omega⟩
  · intro h0 h1 steps hs
    have := runSteps_range steps nav hN h0 h1 hs
    exact ⟨this.1, this.2.1⟩

/-- Witness for `navigation_round_trips`: three matches, from index 2 and from
the initial state. -/
theorem navigation_round_trips_witness :
    (jumpToPreviousOccurrence (jumpToNextOccurrence
      ⟨2, [plainElement, plainElement, plainElement]⟩)).currentMatchIndex = 2 ∧
    (jumpToPreviousOccurrence (jumpToNextOccurrence (initializeSearchNavigation
      [plainElement, plainElement, plainElement]))).currentMatchIndex = 2 ∧
    0 ≤ (runSteps [false, true, true] (initializeSearchNavigation
      [plainElement, plainElement, plainElement])).currentMatchIndex :=
  ⟨((navigation_round_trips ⟨2, [plainElement, plainElement, plainElement]⟩ (by decide)).1
      (by decide) (by decide)).1,
   ((navigation_round_trips (initializeSearchNavigation
      [plainElement, plainElement, plainElement]) (by decide)).2.1 rfl).1,
   ((navigation_round_trips (initializeSearchNavigation
      [plainElement, plainElement, plainElement]) (by decide)).2.2 (by decide) (by decide)
      [false, true, true] (by decide)).1⟩


/-! ## Stems of the rule comments -/

/-- C24: on every host `stemWord` returns `goodnes`, `helples` and `dangerou`
for `goodness`, `helpless` and `dangerous`: the rule `-s`, earlier in the table,
fires first and the loop stops. -/
theorem stemWord_ness_less_ous (H : Host) :
    stemWord H (js "goodness") = js "goodnes" ∧ stemWord H (js "helpless") = js "helples" ∧
    stemWord H (js "dangerous") = js "dangerou" ∧
    applySuffixRules (js "goodness") suffixRules = replaceSuffix (js "goodness") ⟨js "s", [], some 4⟩ := by
  refine ⟨?_, ?_, ?_, by decide⟩
  · rw [stemWord_ascii H _ (by decide)]; decide
  · rw [stemWord_ascii H _ (by decide)]; decide
  · rw [stemWord_ascii H _ (by decide)]; decide

/-- C25: on every host `stemWord` returns `agre` for `agreed` and `ter` for
`terrible`: the rules give `agree` and `terr`, and the step for doubled final
letters then drops the last letter. -/
theorem stemWord_agreed_terrible (H : Host) :
    stemWord H (js "agreed") = js "agre" ∧ stemWord H (js "terrible") = js "ter" ∧
    applySuffixRules (js "agreed") suffixRules = js "agree" ∧
    applySuffixRules (js "terrible") suffixRules = js "terr" := by
  refine ⟨?_, ?_, by decide, by decide⟩
  · rw [stemWord_ascii H _ (by decide)]; decide
  · rw [stemWord_ascii H _ (by decide)]; decide

/-! ## The keywords of a query -/

theorem rawKeywords_ascii (H : Host) (query : JSString) (h : ∀ c ∈ query, isAscii c = true) :
    rawKeywords H query = rawKeywords jsHost query := by
  unfold rawKeywords
  rw [H.lower_ascii _ h, jsHost.lower_ascii _ h]

theorem expandStep_ascii (H : Host) (st : List JSString × List KeywordInfo) (keyword : JSString)
    (h : ∀ c ∈ keyword, isAscii c = true) :
    expandStep H st keyword = expandStep jsHost st keyword := by
  unfold expandStep
  rw [stemWord_ascii H keyword h]

theorem expandKeywords_ascii (H : Host) (raw : List JSString)
    (h : ∀ k ∈ raw, ∀ c ∈ k, isAscii c = true) :
    expandKeywords H raw = expandKeywords jsHost raw := by
  unfold expandKeywords
  generalize (([], []) : List JSString × List KeywordInfo) = st
  induction raw generalizing st with
  | nil => rfl
  | cons k ks ih =>
    rw [List.foldl_cons, List.foldl_cons, expandStep_ascii H st k (h k (List.mem_cons_self _ _))]
    exact ih (fun k2 h2 => h k2 (List.mem_cons_of_mem _ h2)) _

/-- C26: on every host the query `...` gives the empty keyword and the query
`a.b` the keyword `ab`: tokens are filtered by length before the punctuation is
removed.  The empty keyword is searched, and matches, with an empty match, at
each word boundary of `hello world`. -/
theorem short_keywords_are_searched (H : Host) (F : CaseFold) :
    (expandKeywords H (rawKeywords H (js "..."))).1 = [[]] ∧
    (expandKeywords H (rawKeywords H (js "a.b"))).1 = [js "ab"] ∧
    findKeywordsInText H F (js "hello world") [[]] =
      some [ ⟨[], 0, js "hello world", [], false⟩, ⟨[], 5, js "hello world", [], false⟩,
             ⟨[], 6, js "hello world", [], false⟩, ⟨[], 11, js "hello world", [], false⟩ ] ∧
    (∃ results info, searchFiles H F [helloDocument] [] (js "...") =
      SearchOutcome.displayed results [[]] info ∧ results.length = 1) := by
  have r1 : rawKeywords H (js "...") = [[]] := by
    rw [rawKeywords_ascii H _ (by decide)]; decide
  have r2 : rawKeywords H (js "a.b") = [js "ab"] := by
    rw [rawKeywords_ascii H _ (by decide)]; decide
  have e1 : expandKeywords H [[]] = expandKeywords jsHost [[]] :=
    expandKeywords_ascii H _ (by decide)
  have e2 : expandKeywords H [js "ab"] = expandKeywords jsHost [js "ab"] :=
    expandKeywords_ascii H _ (by decide)
  have f1 : findKeywordsInText H F (js "hello world") [[]] =
      some [ ⟨[], 0, js "hello world", [], false⟩, ⟨[], 5, js "hello world", [], false⟩,
             ⟨[], 6, js "hello world", [], false⟩, ⟨[], 11, js "hello world", [], false⟩ ] := by
    rw [findKeywordsInText_ascii H F _ _ (by decide) (by decide)]; decide
  have k1 : (expandKeywords H [[]]).1 = [[]] := by rw [e1]; decide
  refine ⟨by rw [r1, k1], by rw [r2, e2]; decide, f1, ?_⟩
  have htrim : trim (js "...") = js "..." := by decide
  have t1 : searchedText helloDocument = js "hello world" := by decide
  unfold searchFiles
  simp only [htrim, r1, k1, searchDocuments, searchSamples, t1, f1]
  rw [if_neg (by decide), if_neg (by decide), if_pos (by decide)]
  exact ⟨_, _, rfl, rfl⟩


theorem rawKeywords_chars (H : Host) (query : JSString) :
    ∀ k ∈ rawKeywords H query, ∀ c ∈ k, isWordChar c = true ∨ c = 42 := by
  intro k hk c hc
  unfold rawKeywords at hk
  rw [List.mem_map] at hk
  obtain ⟨w, _, rfl⟩ := hk
  have := (List.mem_filter.1 hc).2
  simpa using this

theorem isWordChar_not_operator {c : Nat} (h : isWordChar c = true) :
    isRegexOperator c = false := by
  simp only [isWordChar, isLowerAZ, isUpperAZ, isDigit, Bool.or_eq_true, Bool.and_eq_true,
    decide_eq_true_eq, beq_iff_eq] at h
  simp only [isRegexOperator, Bool.or_eq_false_iff, beq_eq_false_iff_ne, ne_eq]
  omega

theorem suffixRules_replacements : ∀ r ∈ suffixRules, ∀ c ∈ r.replacement, isWordChar c = true := by
  decide

/-- The stem of a word of word characters is made of word characters. -/
theorem stemWord_wordChars (H : Host) (w : JSString) (hw : ∀ c ∈ w, isWordChar c = true) :
    ∀ c ∈ stemWord H w, isWordChar c = true := by
  unfold stemWord
  split
  · exact hw
  · have hl : ∀ c ∈ H.toLowerCase w, isWordChar c = true := by
      rw [H.lower_ascii w (fun c hc => isWordChar_ascii (hw c hc))]
      intro c hc
      rw [List.mem_map] at hc
      obtain ⟨d, hd, rfl⟩ := hc
      exact isWordChar_lower (hw d hd)
    have ha := applySuffixRules_chars (fun c => isWordChar c = true) _ suffixRules hl
      suffixRules_replacements
    simp only
    split
    · intro c hc
      exact ha c (List.mem_of_mem_dropLast hc)
    · exact ha

theorem termsOfToken_chars (H : Host) (token : JSString)
    (ht : ∀ c ∈ token, isWordChar c = true ∨ c = 42) :
    ∀ k ∈ termsOfToken H token, ∀ c ∈ k, isWordChar c = true ∨ c = 42 := by
  unfold termsOfToken
  split
  · intro k hk
    rw [List.mem_singleton] at hk
    subst hk; exact ht
  · next hs =>
    have hw : ∀ c ∈ token, isWordChar c = true := by
      intro c hc
      rcases ht c hc with h | h
      · exact h
      · subst h; exact absurd hc hs
    split
    · intro k hk c hc
      simp only [List.mem_cons, List.mem_singleton, List.not_mem_nil, or_false] at hk
      rcases hk with e | e
      · subst e; exact ht c hc
      · subst e; exact Or.inl (stemWord_wordChars H token hw c hc)
    · intro k hk
      rw [List.mem_singleton] at hk
      subst hk; exact ht

/-- Every term of the expansion of a query is made of word characters and `*`. -/
theorem expandKeywords_chars (H : Host) (query : JSString) :
    ∀ k ∈ (expandKeywords H (rawKeywords H query)).1, ∀ c ∈ k, isWordChar c = true ∨ c = 42 := by
  intro k hk
  have e := (expandLoop_eq H (rawKeywords H query) ([], [])).1
  unfold expandKeywords at hk
  rw [e, List.nil_append, List.mem_flatMap] at hk
  obtain ⟨token, ht, hk2⟩ := hk
  exact termsOfToken_chars H token (rawKeywords_chars H query token ht) k hk2

theorem isPlainKeyword_of_chars (k : JSString) (h : ∀ c ∈ k, isWordChar c = true ∨ c = 42) :
    isPlainKeyword k = true := by
  unfold isPlainKeyword
  by_cases hs : 42 ∈ k
  · simp [hs]
  · simp only [hs, decide_False, Bool.false_or, Bool.not_eq_true', List.any_eq_false]
    intro c hc
    rcases h c hc with hw | hw
    · rw [isWordChar_not_operator hw]; simp
    · subst hw; exact absurd hc hs

theorem searchDocuments_isSome (H : Host) (F : CaseFold) (keywords : List JSString)
    (hk : ∀ k ∈ keywords, isPlainKeyword k = true) (documents : List StoredDocument) :
    ∃ rs, searchDocuments H F keywords documents = some rs := by
  induction documents with
  | nil => exact ⟨[], rfl⟩
  | cons d ds ih =>
    obtain ⟨more, hm⟩ := ih
    obtain ⟨ms, hms⟩ := (collectMatches_isSome F (searchedText d)
      (H.toLowerCase (searchedText d)) keywords).2 hk
    rw [searchDocuments]
    unfold findKeywordsInText
    rw [hms, hm]
    simp only
    split
    · exact ⟨_, rfl⟩
    · exact ⟨_, rfl⟩

theorem searchSamples_isSome (H : Host) (F : CaseFold) (keywords : List JSString)
    (hk : ∀ k ∈ keywords, isPlainKeyword k = true) (samples : List SampleFile) :
    ∃ rs, searchSamples H F keywords samples = some rs := by
  induction samples with
  | nil => exact ⟨[], rfl⟩
  | cons d ds ih =>
    obtain ⟨more, hm⟩ := ih
    obtain ⟨ms, hms⟩ := (collectMatches_isSome F d.cleanedText
      (H.toLowerCase d.cleanedText) keywords).2 hk
    rw [searchSamples]
    unfold findKeywordsInText
    rw [hms, hm]
    simp only
    split
    · exact ⟨_, rfl⟩
    · exact ⟨_, rfl⟩

/-- C27: for every query, each term of the expansion consists of word characters
(letters, digits, underscore) and `*`; its pattern is a sequence of such
characters and `\w*`; `findKeywordsInText` has a result on every text, and
`searchFiles` never ends in its `catch` branch. -/
theorem query_terms_are_safe (H : Host) (F : CaseFold) (query : JSString) :
    (∀ k ∈ (expandKeywords H (rawKeywords H query)).1,
      (∀ c ∈ k, isWordChar c = true ∨ c = 42) ∧ ∃ items, keywordPattern k = some items) ∧
    (∀ text : JSString, ∃ ms,
      findKeywordsInText H F text (expandKeywords H (rawKeywords H query)).1 = some ms) ∧
    (∀ (documents : List StoredDocument) (sampleFilesCache : List SampleFile),
      searchFiles H F documents sampleFilesCache query ≠ SearchOutcome.failed) := by
  have hplain : ∀ q : JSString, ∀ k ∈ (expandKeywords H (rawKeywords H q)).1,
      isPlainKeyword k = true :=
    fun q k hk => isPlainKeyword_of_chars k (expandKeywords_chars H q k hk)
  refine ⟨?_, ?_, ?_⟩
  · intro k hk
    exact ⟨expandKeywords_chars H query k hk, (keywordPattern_isSome k).2 (hplain query k hk)⟩
  · intro text
    exact (collectMatches_isSome F text (H.toLowerCase text) _).2 (hplain query)
  · intro documents samples
    unfold searchFiles
    simp only
    split
    · intro h; cases h
    · split
      · intro h; cases h
      · obtain ⟨a, ha⟩ := searchDocuments_isSome H F _ (hplain (trim query)) documents
        obtain ⟨b, hb⟩ := searchSamples_isSome H F _ (hplain (trim query)) samples
        rw [ha, hb]
        intro h; cases h

/-! ## Totality -/

theorem toLowerCase_nil (H : Host) : H.toLowerCase [] = [] := by
  rw [H.lower_ascii [] (by simp)]; rfl

theorem hasUnclosedGroup_not_plain (k : JSString) (h : hasUnclosedGroup k = true) :
    keywordPattern k = none := by
  unfold hasUnclosedGroup at h
  simp only [Bool.and_eq_true, Bool.not_eq_true', List.any_eq_true, beq_iff_eq] at h
  obtain ⟨⟨hs, c, hc, rfl⟩, _⟩ := h
  unfold keywordPattern
  rw [hs]
  have : k.any isRegexOperator = true := by
    rw [List.any_eq_true]
    exact ⟨40, hc, by decide⟩
  simp [this]

/-- C23, as stated, fails for `findKeywordsInText`: the keyword `(` has no `*`, so
it is the pattern itself, with a group that is never closed; `new RegExp`
rejects the pattern and the function has no result. -/
theorem findKeywordsInText_fails_on_parenthesis :
    hasUnclosedGroup (js "(") = true ∧ keywordPattern (js "(") = none ∧
    findKeywordsInText jsHost asciiFold (js "f(x) = 1") [js "("] = none := by
  decide

/-- C23, amended: on the empty string `stemWord` returns the empty string,
every letter percentage is 0, and there are no character counts and no word
counts; `findKeywordsInText` has a result, for every text, when every keyword
contains `*` or has no character with a meaning in a pattern, and on the empty
text the result then has no match. -/
theorem total_on_plain_input (H : Host) (F : CaseFold) :
    stemWord H [] = [] ∧ (∀ e ∈ calculateLetterFrequency H [], e.2 = 0) ∧
    calculateCharacterFrequency H [] = [] ∧ calculateWordFrequency H [] = [] ∧
    (∀ (text : JSString) (keywords : List JSString),
      (∀ k ∈ keywords, isPlainKeyword k = true) →
        ∃ ms, findKeywordsInText H F text keywords = some ms) ∧
    (∀ keywords : List JSString, (∀ k ∈ keywords, isPlainKeyword k = true) →
      findKeywordsInText H F [] keywords = some []) := by
  refine ⟨rfl, ?_, ?_, rfl, ?_, ?_⟩
  · apply calculateLetterFrequency_zero
    rw [toLowerCase_nil]
    intro c hc; simp at hc
  · unfold calculateCharacterFrequency
    rw [toLowerCase_nil]; rfl
  · intro text keywords
    exact (collectMatches_isSome F text (H.toLowerCase text) keywords).2
  · intro keywords hk
    unfold findKeywordsInText
    rw [toLowerCase_nil]
    induction keywords with
    | nil => rfl
    | cons k ks ih =>
      obtain ⟨items, hi⟩ := (keywordPattern_isSome k).2 (hk k (List.mem_cons_self _ _))
      have e : keywordMatches F [] [] k = some [] := by
        unfold keywordMatches
        rw [hi]
        simp [matchAll, matchAllAux, matchAt, isBoundary]
      rw [collectMatches, e, ih (fun k2 h2 => hk k2 (List.mem_cons_of_mem _ h2))]
      rfl

/-- Witness for `total_on_plain_input`: a wildcard keyword and a word on the
empty text. -/
theorem total_on_plain_input_witness :
    (∃ ms, findKeywordsInText jsHost asciiFold (js "the cat runs")
      [js "run*", js "cat"] = some ms) ∧
    findKeywordsInText jsHost asciiFold [] [js "run*", js "cat"] = some [] :=
  ⟨(total_on_plain_input jsHost asciiFold).2.2.2.2.1 (js "the cat runs")
      [js "run*", js "cat"] (by decide),
    (total_on_plain_input jsHost asciiFold).2.2.2.2.2 [js "run*", js "cat"] (by decide)⟩


/-- C19, amended: for every text and every list of keywords that each contain
`*` or no character with a meaning in a pattern, `findKeywordsInText` returns the
matches of the first keyword, then those of the second, and so on; the positions
of the matches of one keyword are strictly increasing.  Every keyword that
`searchFiles` derives from a query is such a keyword. -/
theorem findKeywordsInText_grouped_by_keyword (H : Host) (F : CaseFold) :
    (∀ (text : JSString) (keywords : List JSString),
      (∀ k ∈ keywords, isPlainKeyword k = true) →
      ∃ groups : List (List SearchMatch),
        List.Forall₂ (fun keyword g => findKeywordsInText H F text [keyword] = some g)
          keywords groups ∧
        findKeywordsInText H F text keywords = some groups.flatten ∧
        ∀ g ∈ groups, (g.map (fun m => m.position)).Pairwise (fun a b => a < b)) ∧
    (∀ query : JSString, ∀ k ∈ (expandKeywords H (rawKeywords H query)).1,
      isPlainKeyword k = true) := by
  refine ⟨?_, fun query k hk => isPlainKeyword_of_chars k (expandKeywords_chars H query k hk)⟩
  intro text keywords hk
  obtain ⟨ms, h⟩ := (collectMatches_isSome F text (H.toLowerCase text) keywords).2 hk
  obtain ⟨groups, hf, hm⟩ := collectMatches_groups F text (H.toLowerCase text) keywords ms h
  refine ⟨groups, ?_, ?_, ?_⟩
  · simp only [findKeywordsInText_single]
    exact hf
  · unfold findKeywordsInText
    rw [h, hm]
  · intro g hg
    clear hm h
    induction hf with
    | nil => simp at hg
    | cons hk1 _ ih =>
      rcases List.mem_cons.1 hg with e | e
      · subst e
        exact (keywordMatches_facts F text _ _ _ hk1).1
      · exact ih (fun k hkm => hk k (List.mem_cons_of_mem _ hkm)) e

/-- Witness for `findKeywordsInText_grouped_by_keyword`: the keywords `cat`,
`the` on `the cat`. -/
theorem findKeywordsInText_grouped_by_keyword_witness :
    ∃ groups : List (List SearchMatch),
      List.Forall₂
        (fun keyword g => findKeywordsInText jsHost asciiFold (js "the cat") [keyword] = some g)
        [js "cat", js "the"] groups ∧
      findKeywordsInText jsHost asciiFold (js "the cat") [js "cat", js "the"] =
        some groups.flatten ∧
      ∀ g ∈ groups, (g.map (fun m => m.position)).Pairwise (fun a b => a < b) :=
  (findKeywordsInText_grouped_by_keyword jsHost asciiFold).1 (js "the cat")
    [js "cat", js "the"] (by decide)


/-! ## Letter counts of an ASCII text -/

theorem isAscii_not_surrogate {c : Nat} (h : isAscii c = true) : isHighSurrogate c = false := by
  simp only [isAscii, decide_eq_true_eq] at h
  simp only [isHighSurrogate, Bool.and_eq_false_imp, decide_eq_true_eq, decide_eq_false_iff_not]
  omega

/-- Without surrogates the loop visits the units one by one. -/
theorem codePoints_units (s : JSString) (h : ∀ c ∈ s, isHighSurrogate c = false) :
    codePoints s = s.map (fun c => [c]) := by
  induction s using codePoints.induct with
  | case1 => rfl
  | case2 c => rfl
  | case3 c d rest hs ih =>
    rw [h c (List.mem_cons_self _ _)] at hs
    cases hs
  | case4 c d rest _ ih =>
    have hc := h c (List.mem_cons_self _ _)
    rw [codePoints, hc]
    simp only [Bool.false_and, Bool.false_eq_true, if_false, List.map_cons]
    rw [ih (fun x hx => h x (List.mem_cons_of_mem _ hx))]
    rfl

theorem getProp_updateProp {α : Type} (obj : JSObject α) (key key2 : JSString) (f : α → α) :
    getProp (updateProp obj key f) key2 =
      if key2 = key then (getProp obj key2).map f else getProp obj key2 := by
  unfold getProp updateProp
  induction obj with
  | nil => simp
  | cons e es ih =>
    simp only [List.map_cons, List.find?_cons]
    by_cases h1 : e.1 = key
    · by_cases h2 : key2 = key
      · subst h1; subst h2
        simp
      · have h3 : (e.1 == key2) = false := by
          rw [beq_eq_false_iff_ne]; intro h; exact h2 (h ▸ h1)
        simp only [h1, beq_self_eq_true, if_true, h2, if_false]
        rw [← h1, h3]
        simp only
        rw [if_neg h2] at ih
        rw [← ih, h1]
    · have hb : (e.1 == key) = false := by rw [beq_eq_false_iff_ne]; exact h1
      simp only [hb, Bool.false_eq_true, if_false]
      cases h3 : (e.1 == key2)
      · simpa using ih
      · have e2 : e.1 = key2 := by simpa using h3
        have h2 : ¬ key2 = key := fun h => h1 (e2.trans h)
        simp [h2]

theorem getProp_append_absent {α : Type} (obj : JSObject α) (key key2 : JSString) (v : α)
    (h : hasProp obj key = false) :
    getProp (obj ++ [(key, v)]) key2 =
      if key2 = key then some v else getProp obj key2 := by
  unfold getProp hasProp at *
  induction obj with
  | nil =>
    by_cases h2 : key2 = key
    · subst h2; simp
    · have : (key == key2) = false := by rw [beq_eq_false_iff_ne]; exact fun e => h2 e.symm
      simp [this, h2]
  | cons e es ih =>
    simp only [List.any_cons, Bool.or_eq_false_iff] at h
    have ih2 := ih h.2
    simp only [List.cons_append, List.find?_cons]
    cases h3 : (e.1 == key2)
    · simpa using ih2
    · have e2 : e.1 = key2 := by simpa using h3
      have h2 : ¬ key2 = key := by
        intro hh
        have : (e.1 == key) = true := by rw [beq_iff_eq]; exact e2.trans hh
        rw [this] at h; cases h.1
      simp [h2]

theorem getProp_of_hasProp {α : Type} (obj : JSObject α) (key : JSString)
    (h : hasProp obj key = true) : ∃ v, getProp obj key = some v := by
  unfold getProp hasProp at *
  induction obj with
  | nil => cases h
  | cons e es ih =>
    simp only [List.find?_cons]
    cases h3 : (e.1 == key)
    · simp only [List.any_cons, h3, Bool.false_or] at h
      simpa using ih h
    · exact ⟨e.2, rfl⟩

/-- Reading after a write. -/
theorem getProp_setProp {α : Type} (obj : JSObject α) (key key2 : JSString) (v : α) :
    getProp (setProp obj key v) key2 = if key2 = key then some v else getProp obj key2 := by
  unfold setProp
  by_cases h : hasProp obj key = true
  · rw [if_pos h, getProp_updateProp]
    by_cases h2 : key2 = key
    · subst h2
      obtain ⟨w, hw⟩ := getProp_of_hasProp obj key2 h
      simp [hw]
    · simp [h2]
  · have h2 : hasProp obj key = false := by simpa using h
    rw [if_neg h, getProp_append_absent obj key key2 v h2]

/-- The count of a letter after the loop of `calculateCharacterFrequency` over
the units of `s`. -/
theorem characterLoop_count (s : JSString) (c : Nat) : ∀ freq : JSObject Nat,
    (getProp ((s.map (fun d => [d])).foldl
      (fun freq char =>
        if char.any isLowerAZ then setProp freq char ((getProp freq char).getD 0 + 1) else freq)
      freq) [c]).getD 0 =
      (getProp freq [c]).getD 0 + s.countP (fun d => isLowerAZ d && d == c) := by
  induction s with
  | nil => intro freq; simp
  | cons d ds ih =>
    intro freq
    rw [List.map_cons, List.foldl_cons, ih, List.countP_cons]
    by_cases hd : isLowerAZ d = true
    · have e1 : ([d] : JSString).any isLowerAZ = true := by simp [hd]
      rw [if_pos e1, getProp_setProp]
      by_cases hc : c = d
      · subst hc
        simp [hd]
        omega
      · have : ¬ ([c] : JSString) = [d] := by simpa using hc
        have h2 : (d == c) = false := by rw [beq_eq_false_iff_ne]; exact fun e => hc e.symm
        simp [this, h2]
    · have hd2 : isLowerAZ d = false := by simpa using hd
      have e1 : ([d] : JSString).any isLowerAZ = false := by simp [hd2]
      rw [e1]
      simp [hd2]

/-- The count of a letter after the loop of `calculateLetterFrequency` over the
units of `s`. -/
theorem letterLoop_count (s : JSString) (c : Nat) : ∀ st : JSObject Nat × Nat,
    getProp ((s.map (fun d => [d])).foldl letterStep st).1 [c] =
      (getProp st.1 [c]).map (fun n => n + s.countP (fun d => isLowerAZ d && d == c)) := by
  induction s with
  | nil => intro st; simp
  | cons d ds ih =>
    intro st
    rw [List.map_cons, List.foldl_cons, ih, List.countP_cons]
    unfold letterStep
    rw [isLetterChar_single]
    by_cases hd : isLowerAZ d = true
    · rw [if_pos hd]
      simp only [getProp_updateProp]
      by_cases hc : c = d
      · subst hc
        simp [hd]
        cases getProp st.1 [c] with
        | none => rfl
        | some n => simp; omega
      · have : ¬ ([c] : JSString) = [d] := by simpa using hc
        have h2 : (d == c) = false := by rw [beq_eq_false_iff_ne]; exact fun e => hc e.symm
        simp [this, h2]
    · have hd2 : isLowerAZ d = false := by simpa using hd
      simp [hd2]

theorem initialLetterCounts_get (c : Nat) (h : isLowerAZ c = true) :
    getProp initialLetterCounts [c] = some 0 := by
  have := isLowerAZ_lt h
  obtain ⟨h1, h2⟩ := this
  interval_cases c <;> rfl

/-- Occurrences of a non-white-space unit are kept by the collapse of white space. -/
theorem collapseAux_count (p : Nat → Bool) (hp : ∀ c, isWhiteSpace c = true → p c = false)
    (s : JSString) : ∀ inWs : Bool, (collapseAux inWs s).countP p = s.countP p := by
  induction s with
  | nil => intro _; rfl
  | cons d ds ih =>
    intro inWs
    by_cases hd : isWhiteSpace d = true
    · cases inWs with
      | true =>
        simp only [collapseAux, hd, if_true, List.countP_cons, hp d hd]
        rw [ih]; simp
      | false =>
        simp only [collapseAux, hd, if_true, Bool.false_eq_true, if_false, List.countP_cons,
          hp d hd, hp 32 isWhiteSpace_space]
        rw [ih]
    · have hd2 : isWhiteSpace d = false := by simpa using hd
      simp only [collapseAux, hd2, Bool.false_eq_true, if_false, List.countP_cons]
      rw [ih]

theorem trimStart_count (p : Nat → Bool) (hp : ∀ c, isWhiteSpace c = true → p c = false)
    (s : JSString) : (trimStart s).countP p = s.countP p := by
  induction s with
  | nil => rfl
  | cons d ds ih =>
    by_cases hd : isWhiteSpace d = true
    · simp only [trimStart, hd, if_true, List.countP_cons, hp d hd]
      rw [ih]; simp
    · have hd2 : isWhiteSpace d = false := by simpa using hd
      simp only [trimStart, hd2, Bool.false_eq_true, if_false]

theorem trimEnd_count (p : Nat → Bool) (hp : ∀ c, isWhiteSpace c = true → p c = false)
    (s : JSString) : (trimEnd s).countP p = s.countP p := by
  induction s with
  | nil => rfl
  | cons d ds ih =>
    rw [trimEnd]
    cases hr : trimEnd ds with
    | nil =>
      rw [hr] at ih
      simp only [List.countP_nil] at ih
      by_cases hd : isWhiteSpace d = true
      · simp only [hd, if_true, List.countP_cons, hp d hd, List.countP_nil, ← ih]
        simp
      · have hd2 : isWhiteSpace d = false := by simpa using hd
        simp only [hd2, Bool.false_eq_true, if_false, List.countP_cons, List.countP_nil, ← ih]
    | cons r rs =>
      rw [hr] at ih
      simp only [List.countP_cons] at ih ⊢
      rw [← ih]

/-- Cleaning an ASCII text keeps the occurrences of each letter, both cases
counted together. -/
theorem cleanText_count (H : Host) (t : JSString) (ha : ∀ c ∈ t, isAscii c = true)
    (c : Nat) (hc : isLowerAZ c = true) :
    (cleanText H t).countP (fun d => isLowerAZ d && d == c) =
      t.countP (fun d => d == c || d + 32 == c) := by
  have hp : ∀ x, isWhiteSpace x = true → (isLowerAZ x && x == c) = false := by
    intro x hx
    cases hl : isLowerAZ x
    · rfl
    · rw [isLowerAZ_not_ws hl] at hx; cases hx
  unfold cleanText trim
  simp only
  rw [trimEnd_count _ hp, trimStart_count _ hp, collapseAux_count _ hp]
  rw [List.filter_eq_self.2 ha, H.lower_ascii t ha]
  rw [List.map_map, List.map_map, List.countP_map]
  apply List.countP_congr
  intro d hd
  have hda := ha d hd
  have hcl := isLowerAZ_lt hc
  simp only [isAscii, decide_eq_true_eq] at hda
  simp only [Function.comp, asciiLower, isUpperAZ, isDigit, isLowerAZ, isWhiteSpace,
    Bool.and_eq_true, Bool.or_eq_true, decide_eq_true_eq, beq_iff_eq]
  split_ifs <;> omega

theorem asciiLower_ascii {c : Nat} (h : isAscii c = true) : isAscii (asciiLower c) = true := by
  simp only [isAscii, decide_eq_true_eq] at h ⊢
  unfold asciiLower
  split
  · next hu =>
    simp only [isUpperAZ, Bool.and_eq_true, decide_eq_true_eq] at hu
    omega
  · exact h

/-- The characters the loops visit in the lower-cased form of an ASCII text. -/
theorem codePoints_lower_ascii (H : Host) (t : JSString) (ha : ∀ c ∈ t, isAscii c = true) :
    codePoints (H.toLowerCase t) = (t.map asciiLower).map (fun d => [d]) := by
  rw [H.lower_ascii t ha]
  apply codePoints_units
  intro c hc
  rw [List.mem_map] at hc
  obtain ⟨d, hd, rfl⟩ := hc
  exact isAscii_not_surrogate (asciiLower_ascii (ha d hd))

theorem lower_letter_count (t : JSString) (c : Nat) (hc : isLowerAZ c = true) :
    (t.map asciiLower).countP (fun d => isLowerAZ d && d == c) =
      t.countP (fun d => d == c || d + 32 == c) := by
  rw [List.countP_map]
  apply List.countP_congr
  intro d _
  have hcl := isLowerAZ_lt hc
  simp only [Function.comp, asciiLower, isUpperAZ, isLowerAZ,
    Bool.and_eq_true, Bool.or_eq_true, decide_eq_true_eq, beq_iff_eq]
  split_ifs <;> omega

theorem lower_total_count (t : JSString) :
    ((t.map asciiLower).map (fun d => [d])).countP isLetterChar =
      t.countP (fun d => isLowerAZ d || isUpperAZ d) := by
  rw [List.countP_map, List.countP_map]
  apply List.countP_congr
  intro d _
  simp only [Function.comp, isLetterChar_single]
  simp only [asciiLower, isUpperAZ, isLowerAZ,
    Bool.and_eq_true, Bool.or_eq_true, decide_eq_true_eq]
  split_ifs <;> omega

/-- C29: for an ASCII text and a letter `c` of `a`-`z`, the count of `c` in
`calculateCharacterFrequency(cleanText(text))`, `0` when the key is absent, is
the number of units of the text equal to `c` or to its capital; the loop of
`calculateLetterFrequency(text)` holds the same number under `c`, its total is
the number of ASCII letters of the text, and the percentage of `c` is the one
the host shows for these two numbers. -/
theorem cleaning_keeps_letter_counts (H : Host) (t : JSString)
    (ha : ∀ u ∈ t, isAscii u = true) (c : Nat) (hc : isLowerAZ c = true) :
    (getProp (calculateCharacterFrequency H (cleanText H t)) [c]).getD 0 =
      t.countP (fun d => d == c || d + 32 == c) ∧
    getProp ((codePoints (H.toLowerCase t)).foldl letterStep (initialLetterCounts, 0)).1 [c] =
      some (t.countP (fun d => d == c || d + 32 == c)) ∧
    ((codePoints (H.toLowerCase t)).foldl letterStep (initialLetterCounts, 0)).2 =
      t.countP (fun d => isLowerAZ d || isUpperAZ d) ∧
    getProp (calculateLetterFrequency H t) [c] =
      some (if 0 < t.countP (fun d => isLowerAZ d || isUpperAZ d) then
        H.percent2 (t.countP (fun d => d == c || d + 32 == c))
          (t.countP (fun d => isLowerAZ d || isUpperAZ d))
        else 0) := by
  have hclean := (cleanText_isClean H t).1
  have hca : ∀ u ∈ cleanText H t, isAscii u = true :=
    fun u hu => (clean_unit_facts (hclean u hu)).1
  have hlow : (cleanText H t).map asciiLower = cleanText H t := by
    conv_rhs => rw [← List.map_id (cleanText H t)]
    exact List.map_congr_left (fun u hu => (clean_unit_facts (hclean u hu)).2.1)
  have h1 : (getProp (calculateCharacterFrequency H (cleanText H t)) [c]).getD 0 =
      t.countP (fun d => d == c || d + 32 == c) := by
    unfold calculateCharacterFrequency
    rw [codePoints_lower_ascii H _ hca, hlow, characterLoop_count, cleanText_count H t ha c hc]
    simp [getProp]
  have h2 : getProp ((codePoints (H.toLowerCase t)).foldl letterStep
      (initialLetterCounts, 0)).1 [c] = some (t.countP (fun d => d == c || d + 32 == c)) := by
    rw [codePoints_lower_ascii H t ha, letterLoop_count, initialLetterCounts_get c hc,
      lower_letter_count t c hc]
    simp
  have h3 : ((codePoints (H.toLowerCase t)).foldl letterStep (initialLetterCounts, 0)).2 =
      t.countP (fun d => isLowerAZ d || isUpperAZ d) := by
    rw [(letterLoop_facts H t).2.2, codePoints_lower_ascii H t ha, lower_total_count]
  refine ⟨h1, h2, h3, ?_⟩
  rw [calculateLetterFrequency_unfold]
  rw [getProp_map _ (fun n => if 0 < ((codePoints (H.toLowerCase t)).foldl letterStep
      (initialLetterCounts, 0)).2 then H.percent2 n ((codePoints (H.toLowerCase t)).foldl
      letterStep (initialLetterCounts, 0)).2 else 0) [c], h2, h3]
  rfl

/-- Witness for `cleaning_keeps_letter_counts`: the letter `a` in `A1 a.b!Aa`. -/
theorem cleaning_keeps_letter_counts_witness :
    (getProp (calculateCharacterFrequency jsHost (cleanText jsHost (js "A1 a.b!Aa"))) (js "a")).getD 0
      = 4 ∧
    (js "A1 a.b!Aa").countP (fun d => d == 97 || d + 32 == 97) = 4 :=
  ⟨(cleaning_keeps_letter_counts jsHost (js "A1 a.b!Aa") (by decide) 97 (by decide)).1.trans
    (by decide), by decide⟩


/-! ## Accepted ASCII documents have a word -/

/-- In a string without two adjacent units of a class, at most every other unit
is of the class. -/
theorem pairless_count (p : Nat → Bool) (w : JSString)
    (h : ∀ a b, [a, b] <:+: w → ¬ (p a = true ∧ p b = true)) :
    2 * w.countP p ≤ w.length + (w.take 1).countP p := by
  induction w with
  | nil => simp
  | cons a w ih =>
    have ih2 := ih (fun x y hxy => h x y (List.infix_cons hxy))
    have hle : (w.take 1).countP p ≤ 1 :=
      (List.countP_le_length p).trans ((List.length_take_le 1 w))
    have e : ((a :: w).take 1).countP p = if p a = true then 1 else 0 := by
      simp [List.countP_cons]
    rw [List.countP_cons, List.length_cons, e]
    by_cases ha : p a = true
    · have hb : (w.take 1).countP p = 0 := by
        cases w with
        | nil => rfl
        | cons b r =>
          have hn := h a b ⟨[], r, rfl⟩
          have : p b = false := by
            cases hpb : p b
            · rfl
            · exact absurd ⟨ha, hpb⟩ hn
          simp [List.countP_cons, this]
      rw [hb] at ih2
      simp only [ha, if_true]
      omega
    · simp only [ha, Bool.false_eq_true, if_false]
      omega

/-- A word the loop counts as valid has two adjacent units of the class of the
source file. -/
theorem valid_token_pair (w : JSString) (h : isValidWord w = true) :
    ∃ a b, [a, b] <:+: w ∧ isWordLetter a = true ∧ isWordLetter b = true := by
  by_contra hn
  have hp : ∀ a b, [a, b] <:+: w → ¬ (isWordLetter a = true ∧ isWordLetter b = true) :=
    fun a b hab hl => hn ⟨a, b, hab, hl.1, hl.2⟩
  have hc := pairless_count isWordLetter w hp
  have hle : (w.take 1).countP isWordLetter ≤ 1 :=
    (List.countP_le_length isWordLetter).trans ((List.length_take_le 1 w))
  simp only [isValidWord, Bool.and_eq_true, decide_eq_true_eq,
    ← List.countP_eq_length_filter] at h
  omega

/-- Every field of the split is a piece of the string. -/
theorem splitAux_piece (s : JSString) : ∀ (cur : JSString) (inWs : Bool),
    ∀ w ∈ splitAux s cur inWs, w <:+: cur.reverse ++ s := by
  induction s with
  | nil =>
    intro cur inWs w hw
    simp only [splitAux, List.mem_singleton] at hw
    subst hw
    simp
  | cons d ds ih =>
    intro cur inWs w hw
    have tail : ∀ v, v <:+: ds → v <:+: cur.reverse ++ d :: ds := fun v hv =>
      hv.trans ((List.suffix_cons d ds).isInfix.trans (List.suffix_append _ _).isInfix)
    by_cases hd : isWhiteSpace d = true
    · cases inWs with
      | true =>
        simp only [splitAux, hd, if_true] at hw
        exact tail w (by simpa using ih [] true w hw)
      | false =>
        simp only [splitAux, hd, if_true, Bool.false_eq_true, if_false, List.mem_cons] at hw
        rcases hw with hw | hw
        · subst hw; exact (List.prefix_append _ _).isInfix
        · exact tail w (by simpa using ih [] true w hw)
    · have hd2 : isWhiteSpace d = false := by simpa using hd
      simp only [splitAux, hd2, Bool.false_eq_true, if_false] at hw
      have := ih (d :: cur) false w hw
      simpa using this

theorem token_piece (t w : JSString) (hw : w ∈ tokens t) : w <:+: t := by
  rw [← words_eq_tokens] at hw
  have := splitAux_piece t [] false w (List.mem_filter.1 hw).1
  simpa using this

/-- An accepted text has two adjacent letters. -/
theorem accepted_letter_pair (t : JSString) (hg : (detectGarbageFile t).isGarbage = false) :
    ∃ a b, [a, b] <:+: t ∧ isWordLetter a = true ∧ isWordLetter b = true := by
  have hc := detectGarbageFile_chain t
  have hr : hasNoToken t = false ∧ tooFewValidWords t = false := by
    rw [hc] at hg
    revert hg
    cases hasPdfMarker t <;> cases hasBinarySignature t <;> cases isEmptyText t <;>
      cases tooManyNulls t <;> cases tooManyControls t <;> cases hasNoToken t <;>
      cases tooFewValidWords t <;> simp
  obtain ⟨h1, h2⟩ := hr
  simp only [hasNoToken, decide_eq_false_iff_not] at h1
  simp only [tooFewValidWords, decide_eq_false_iff_not, not_lt] at h2
  have hlen : 0 < (tokens t).length := List.length_pos.2 h1
  have hpos : 0 < ((tokens t).take (min 100 (tokens t).length)).countP isValidWord := by
    have : 0 < min 100 (tokens t).length := by omega
    omega
  obtain ⟨w, hw, hv⟩ := List.countP_pos_iff.1 hpos
  obtain ⟨a, b, hab, hl⟩ := valid_token_pair w hv
  exact ⟨a, b, hab.trans (token_piece t w (List.mem_of_mem_take hw)), hl⟩

theorem collapseAux_pair (a b : Nat) (ha : isWhiteSpace a = false) (hb : isWhiteSpace b = false)
    (l r : JSString) : ∀ inWs : Bool, [a, b] <:+: collapseAux inWs (l ++ a :: b :: r) := by
  induction l with
  | nil =>
    intro inWs
    simp only [List.nil_append, collapseAux, ha, hb, Bool.false_eq_true, if_false]
    exact ⟨[], collapseAux false r, rfl⟩
  | cons d ds ih =>
    intro inWs
    rw [List.cons_append, collapseAux]
    split
    · split
      · exact ih true
      · exact List.infix_cons (ih true)
    · exact List.infix_cons (ih false)

theorem trimStart_pair (a b : Nat) (ha : isWhiteSpace a = false)
    (l r : JSString) : [a, b] <:+: trimStart (l ++ a :: b :: r) := by
  induction l with
  | nil =>
    simp only [List.nil_append, trimStart, ha, Bool.false_eq_true, if_false]
    exact ⟨[], r, rfl⟩
  | cons d ds ih =>
    rw [List.cons_append, trimStart]
    split
    · exact ih
    · exact ⟨d :: ds, r, by simp⟩

theorem trimEnd_keep (x : Nat) (hx : isWhiteSpace x = false) (r : JSString) :
    ∀ l : JSString, ∃ r2, trimEnd (l ++ x :: r) = l ++ x :: r2 := by
  intro l
  induction l with
  | nil =>
    rw [List.nil_append, trimEnd]
    cases trimEnd r with
    | nil => exact ⟨[], by simp [hx]⟩
    | cons y ys => exact ⟨y :: ys, rfl⟩
  | cons d ds ih =>
    obtain ⟨r2, h2⟩ := ih
    rw [List.cons_append, trimEnd, h2]
    cases ds with
    | nil => exact ⟨r2, rfl⟩
    | cons e es => exact ⟨r2, rfl⟩

theorem trimEnd_pair (a b : Nat) (hb : isWhiteSpace b = false)
    (l r : JSString) : [a, b] <:+: trimEnd (l ++ a :: b :: r) := by
  obtain ⟨r2, h⟩ := trimEnd_keep b hb r (l ++ [a])
  have e : l ++ a :: b :: r = (l ++ [a]) ++ b :: r := by simp
  rw [e, h]
  exact ⟨l, r2, by simp⟩

theorem splitAux_run (r : JSString) : ∀ cur : JSString,
    ∃ w ∈ splitAux r cur false, cur.length ≤ w.length := by
  induction r with
  | nil => intro cur; exact ⟨cur.reverse, by simp [splitAux], by simp⟩
  | cons d ds ih =>
    intro cur
    by_cases hd : isWhiteSpace d = true
    · refine ⟨cur.reverse, ?_, by simp⟩
      simp [splitAux, hd]
    · have hd2 : isWhiteSpace d = false := by simpa using hd
      obtain ⟨w, hw, hl⟩ := ih (d :: cur)
      refine ⟨w, ?_, ?_⟩
      · simpa [splitAux, hd2] using hw
      · rw [List.length_cons] at hl; omega

/-- Two adjacent units that are not white space lie in one field of two units
or more. -/
theorem splitAux_pair (a b : Nat) (ha : isWhiteSpace a = false) (hb : isWhiteSpace b = false)
    (l r : JSString) : ∀ (cur : JSString) (inWs : Bool),
    ∃ w ∈ splitAux (l ++ a :: b :: r) cur inWs, 2 ≤ w.length := by
  induction l with
  | nil =>
    intro cur inWs
    obtain ⟨w, hw, hl⟩ := splitAux_run r (b :: a :: cur)
    refine ⟨w, ?_, ?_⟩
    · simpa [splitAux, ha, hb] using hw
    · simp only [List.length_cons] at hl; omega
  | cons d ds ih =>
    intro cur inWs
    rw [List.cons_append, splitAux]
    split
    · obtain ⟨w, hw, hl⟩ := ih [] true
      split
      · exact ⟨w, hw, hl⟩
      · exact ⟨w, List.mem_cons_of_mem _ hw, hl⟩
    · exact ih (d :: cur) false

theorem splitAux_no_ws (s : JSString) : ∀ (cur : JSString) (inWs : Bool),
    ∀ w ∈ splitAux s cur inWs, ∀ c ∈ w, isWhiteSpace c = false ∨ c ∈ cur := by
  induction s with
  | nil =>
    intro cur inWs w hw c hc
    simp only [splitAux, List.mem_singleton] at hw
    subst hw
    exact Or.inr (List.mem_reverse.1 hc)
  | cons d ds ih =>
    intro cur inWs w hw c hc
    by_cases hd : isWhiteSpace d = true
    · cases inWs with
      | true =>
        simp only [splitAux, hd, if_true] at hw
        rcases ih [] true w hw c hc with h | h
        · exact Or.inl h
        · simp at h
      | false =>
        simp only [splitAux, hd, if_true, Bool.false_eq_true, if_false, List.mem_cons] at hw
        rcases hw with hw | hw
        · subst hw; exact Or.inr (List.mem_reverse.1 hc)
        · rcases ih [] true w hw c hc with h | h
          · exact Or.inl h
          · simp at h
    · have hd2 : isWhiteSpace d = false := by simpa using hd
      simp only [splitAux, hd2, Bool.false_eq_true, if_false] at hw
      rcases ih (d :: cur) false w hw c hc with h | h
      · exact Or.inl h
      · rcases List.mem_cons.1 h with h | h
        · subst h; exact Or.inl hd2
        · exact Or.inr h

/-- The letter class of `detectGarbageFile` on ASCII. -/
theorem isWordLetter_ascii {c : Nat} (ha : isAscii c = true) (h : isWordLetter c = true) :
    (isLowerAZ c || isUpperAZ c) = true := by
  simp only [isAscii, decide_eq_true_eq] at ha
  simp only [isWordLetter, isLowerAZ, isUpperAZ, Bool.or_eq_true, Bool.and_eq_true,
    decide_eq_true_eq, beq_iff_eq] at h ⊢
  omega

/-- What the four first steps of `cleanText` make of an ASCII letter. -/
theorem clean_letter {c : Nat} (h : (isLowerAZ c || isUpperAZ c) = true) :
    isLowerAZ ((fun c => if (isLowerAZ c || isWhiteSpace c) = true then c else 32)
      ((fun c => if isDigit c = true then 32 else c) (asciiLower c))) = true := by
  simp only [isLowerAZ, isUpperAZ, Bool.or_eq_true, Bool.and_eq_true, decide_eq_true_eq] at h
  have e : asciiLower c = if 65 ≤ c ∧ c ≤ 90 then c + 32 else c := by
    simp [asciiLower, isUpperAZ]
  have hl : 97 ≤ asciiLower c ∧ asciiLower c ≤ 122 := by
    rw [e]; split_ifs <;> omega
  have h1 : isDigit (asciiLower c) = false := by
    simp only [isDigit, Bool.and_eq_false_imp, decide_eq_true_eq, decide_eq_false_iff_not]
    omega
  have h2 : isLowerAZ (asciiLower c) = true := by
    simp only [isLowerAZ, Bool.and_eq_true, decide_eq_true_eq]; exact hl
  simp only [h1, Bool.false_eq_true, if_false, h2, Bool.true_or, if_true]

/-- C28: an ASCII text that `detectGarbageFile` accepts has, after `cleanText`, a
field of two or more units, all of them letters `a`-`z`; so the cleaned text is
not empty and has a letter, and the letter total of `calculateLetterFrequency`
on the text is positive. -/
theorem accepted_ascii_has_word (H : Host) (t : JSString) (ha : ∀ u ∈ t, isAscii u = true)
    (hg : (detectGarbageFile t).isGarbage = false) :
    (∃ w ∈ splitWs (cleanText H t), 2 ≤ w.length ∧ ∀ c ∈ w, isLowerAZ c = true) ∧
    cleanText H t ≠ [] ∧ (∃ c ∈ cleanText H t, isLowerAZ c = true) ∧
    0 < ((codePoints (H.toLowerCase t)).foldl letterStep (initialLetterCounts, 0)).2 := by
  obtain ⟨a, b, hab, hla, hlb⟩ := accepted_letter_pair t hg
  have hat : a ∈ t := hab.mem (List.mem_cons_self _ _)
  have hbt : b ∈ t := hab.mem (List.mem_cons_of_mem _ (List.mem_cons_self _ _))
  have hA := isWordLetter_ascii (ha a hat) hla
  have hB := isWordLetter_ascii (ha b hbt) hlb
  have hword : ∃ w ∈ splitWs (cleanText H t), 2 ≤ w.length := by
    unfold cleanText trim
    simp only
    rw [List.filter_eq_self.2 ha, H.lower_ascii t ha, List.map_map, List.map_map]
    generalize hg4 : (((fun c => if (isLowerAZ c || isWhiteSpace c) = true then c else 32) ∘
      (fun c => if isDigit c = true then 32 else c)) ∘ asciiLower) = g
    have hga : isLowerAZ (g a) = true := by rw [← hg4]; exact clean_letter hA
    have hgb : isLowerAZ (g b) = true := by rw [← hg4]; exact clean_letter hB
    have wa := isLowerAZ_not_ws hga
    have wb := isLowerAZ_not_ws hgb
    have h4 : [g a, g b] <:+: t.map g := by
      have := List.IsInfix.map g hab
      simpa using this
    obtain ⟨l4, r4, e4⟩ := h4
    have h5 : [g a, g b] <:+: collapseAux false (t.map g) := by
      rw [← e4]
      have := collapseAux_pair (g a) (g b) wa wb l4 r4 false
      simpa using this
    obtain ⟨l5, r5, e5⟩ := h5
    have h6 : [g a, g b] <:+: trimStart (collapseAux false (t.map g)) := by
      rw [← e5]
      have := trimStart_pair (g a) (g b) wa l5 r5
      simpa using this
    obtain ⟨l6, r6, e6⟩ := h6
    have h7 : [g a, g b] <:+: trimEnd (trimStart (collapseAux false (t.map g))) := by
      rw [← e6]
      have := trimEnd_pair (g a) (g b) wb l6 r6
      simpa using this
    obtain ⟨l7, r7, e7⟩ := h7
    rw [← e7]
    have := splitAux_pair (g a) (g b) wa wb l7 r7 [] false
    simpa [splitWs] using this
  obtain ⟨w, hw, hl⟩ := hword
  have hletters : ∀ c ∈ w, isLowerAZ c = true := by
    intro c hc
    have hm := splitWs_units _ w hw c hc
    rcases (cleanText_isClean H t).1 c hm with h | h
    · exact h
    · rcases splitAux_no_ws _ [] false w hw c hc with h2 | h2
      · rw [h, isWhiteSpace_space] at h2; cases h2
      · simp at h2
  obtain ⟨c, hc⟩ : ∃ c, c ∈ w := by
    cases w with
    | nil => simp at hl
    | cons c r => exact ⟨c, List.mem_cons_self _ _⟩
  have hcm := splitWs_units _ w hw c hc
  refine ⟨⟨w, hw, hl, hletters⟩, List.ne_nil_of_mem hcm, ⟨c, hcm, hletters c hc⟩, ?_⟩
  rw [(letterLoop_facts H t).2.2, codePoints_lower_ascii H t ha, lower_total_count]
  exact List.countP_pos_iff.2 ⟨a, hat, hA⟩

/-- Witness for `accepted_ascii_has_word`: the text `It is 4 pm`. -/
theorem accepted_ascii_has_word_witness :
    (∀ u ∈ js "It is 4 pm", isAscii u = true) ∧
    (detectGarbageFile (js "It is 4 pm")).isGarbage = false ∧
    cleanText jsHost (js "It is 4 pm") ≠ [] :=
  ⟨by decide, by decide,
    (accepted_ascii_has_word jsHost (js "It is 4 pm") (by decide) (by decide)).2.1⟩


/-! ## The matcher on words -/

theorem upper_wordChar {c d : Nat} (hc : isWordChar c = true)
    (h : (asciiUpper c == asciiUpper d) = true) : isWordChar d = true := by
  simp only [isWordChar, isLowerAZ, isUpperAZ, isDigit, Bool.or_eq_true, Bool.and_eq_true,
    decide_eq_true_eq, beq_iff_eq, asciiUpper] at hc h ⊢
  split_ifs at h <;> omega

theorem starFits_all (w : JSString) (hw : ∀ c ∈ w, isWordChar c = true) :
    starFits (wildcardFits []) w = true := by
  induction w with
  | nil => rfl
  | cons d w ih =>
    rw [starFits, hw d (List.mem_cons_self _ _), ih (fun c hc => hw c (List.mem_cons_of_mem _ hc))]
    simp

theorem wildcardFits_nil (k : JSString) (hl : ∃ c ∈ k, c ≠ 42) : wildcardFits k [] = false := by
  induction k with
  | nil => obtain ⟨c, hc, _⟩ := hl; cases hc
  | cons c k ih =>
    rw [wildcardFits]
    by_cases hc : c = 42
    · subst hc
      obtain ⟨x, hx, hne⟩ := hl
      rcases List.mem_cons.1 hx with e | e
      · exact absurd e hne
      · simp only [beq_self_eq_true, if_true, starFits]
        exact ih ⟨x, e, hne⟩
    · have : (c == 42) = false := by rw [beq_eq_false_iff_ne]; exact hc
      simp [this]

theorem wildcardFits_star (k w : JSString) :
    wildcardFits (42 :: k) w = starFits (wildcardFits k) w := by
  conv_lhs => unfold wildcardFits
  simp only [beq_self_eq_true, if_true]

theorem starLoop_stop (k : Option Nat → JSString → Option Nat) (before : Option Nat)
    (rest : JSString) (hr : rest.head?.any isWordChar = false) :
    starLoop k before rest = k before rest := by
  cases rest with
  | nil => rfl
  | cons d r =>
    have hd : isWordChar d = false := by simpa using hr
    simp [starLoop, hd]

/-- The items of a term between the two `\b`, on a run of word characters that
ends the string or is followed by another character: they match the whole run
when the run fits the term, and nothing otherwise. -/
theorem matchItems_word (F : CaseFold) (k : JSString)
    (hk : ∀ c ∈ k, isWordChar c = true ∨ c = 42) :
    ∀ (w rest : JSString) (before : Option Nat), (∀ c ∈ w, isWordChar c = true) →
      rest.head?.any isWordChar = false → (k ≠ [] ∨ before.any isWordChar = true) →
      matchItems F (k.map (fun c => if c == 42 then PatItem.wordStar else PatItem.lit c))
          before (w ++ rest) =
        if (wildcardFits k w && (!w.isEmpty || before.any isWordChar)) = true
        then some w.length else none := by
  induction k with
  | nil =>
    intro w rest before hw hr hb
    have hb2 : before.any isWordChar = true := by
      rcases hb with h | h
      · exact absurd rfl h
      · exact h
    cases w with
    | nil => simp [matchItems, isBoundary, hr, hb2, wildcardFits]
    | cons d w2 =>
      have hd := hw d (List.mem_cons_self _ _)
      simp [matchItems, isBoundary, hd, hb2, wildcardFits]
  | cons c k ih =>
    have ihk := ih (fun x hx => hk x (List.mem_cons_of_mem _ hx))
    by_cases hc : c = 42
    · subst hc
      intro w
      induction w with
      | nil =>
        intro rest before _ hr _
        simp only [List.map_cons, beq_self_eq_true, if_true, List.nil_append, matchItems]
        rw [starLoop_stop _ _ _ hr]
        by_cases h0 : k ≠ [] ∨ before.any isWordChar = true
        · have := ihk [] rest before (by simp) hr h0
          rw [List.nil_append] at this
          rw [this]
          simp [wildcardFits, starFits]
        · have hk0 : k = [] := by
            by_contra h; exact h0 (Or.inl h)
          have hb0 : before.any isWordChar = false := by
            cases hq : before.any isWordChar
            · rfl
            · exact absurd (Or.inr hq) h0
          subst hk0
          simp [matchItems, isBoundary, hr, hb0]
      | cons d w2 ihw =>
        intro rest before hw hr _
        have hd := hw d (List.mem_cons_self _ _)
        have hw2 : ∀ c ∈ w2, isWordChar c = true := fun c hc => hw c (List.mem_cons_of_mem _ hc)
        have inner := ihw rest (some d) hw2 hr (Or.inl (by simp))
        simp only [List.map_cons, beq_self_eq_true, if_true, matchItems] at inner ⊢
        rw [List.cons_append, starLoop]
        simp only [hd, if_true]
        rw [inner]
        have e42 : wildcardFits (42 :: k) (d :: w2) =
            (wildcardFits k (d :: w2) || wildcardFits (42 :: k) w2) := by
          simp [wildcardFits, starFits, hd]
        by_cases hf : wildcardFits (42 :: k) w2 = true
        · simp [hf, e42, hd]
        · have hf2 : wildcardFits (42 :: k) w2 = false := by simpa using hf
          have hkne : k ≠ [] := by
            intro e
            subst e
            have := starFits_all w2 hw2
            rw [wildcardFits_star, this] at hf2
            cases hf2
          have outer := ihk (d :: w2) rest before hw hr (Or.inl hkne)
          rw [List.cons_append] at outer
          simp only [hf2, Option.some.injEq, Bool.false_eq_true, if_false, List.isEmpty_cons,
            Bool.not_false, Bool.true_or, Bool.and_true, hd, Option.any_some]
          rw [outer, e42, hf2]
          simp
    · have hcb : (c == 42) = false := by rw [beq_eq_false_iff_ne]; exact hc
      have hcw : isWordChar c = true := by
        rcases hk c (List.mem_cons_self _ _) with h | h
        · exact h
        · exact absurd h hc
      intro w rest before hw hr _
      simp only [List.map_cons, hcb, Bool.false_eq_true, if_false]
      cases w with
      | nil =>
        cases rest with
        | nil => simp [matchItems, wildcardFits, hcb]
        | cons d r =>
          have hd : isWordChar d = false := by simpa using hr
          have hs : F.sameUnit c d = false := by
            rw [F.same_ascii c d (isWordChar_ascii hcw)]
            cases hq : (asciiUpper c == asciiUpper d)
            · rfl
            · rw [upper_wordChar hcw hq] at hd; cases hd
          simp [matchItems, wildcardFits, hcb, hs]
      | cons d w2 =>
        have hd := hw d (List.mem_cons_self _ _)
        have hw2 : ∀ c ∈ w2, isWordChar c = true := fun c hc => hw c (List.mem_cons_of_mem _ hc)
        have inner := ihk w2 rest (some d) hw2 hr (Or.inr (by simp [hd]))
        rw [List.cons_append, matchItems, inner, F.same_ascii c d (isWordChar_ascii hcw)]
        simp only [wildcardFits, hcb, Bool.false_eq_true, if_false]
        cases (asciiUpper c == asciiUpper d) <;> cases wildcardFits k w2 <;> simp [hd]


/-! ## Whole words -/

theorem isWordRun_iff (s : JSString) (n : Nat) :
    isWordRun s n = true ↔ 0 < n ∧ n ≤ s.length ∧ (∀ x ∈ s.take n, isWordChar x = true) ∧
      (s.drop n).head?.any isWordChar = false := by
  simp [isWordRun, and_assoc]

theorem isWordRun_cons (c : Nat) (s : JSString) (n : Nat) :
    isWordRun (c :: s) (n + 1) = true ↔
      isWordChar c = true ∧ (if n = 0 then s.head?.any isWordChar = false
        else isWordRun s n = true) := by
  rw [isWordRun_iff]
  by_cases hn : n = 0
  · subst hn
    simp
  · rw [if_neg hn, isWordRun_iff]
    simp only [List.take_succ_cons, List.mem_cons, List.drop_succ_cons, List.length_cons,
      forall_eq_or_imp]
    constructor
    · rintro ⟨_, h2, ⟨h3, h4⟩, h5⟩
      exact ⟨h3, by omega, by omega, h4, h5⟩
    · rintro ⟨h3, _, h2, h4, h5⟩
      exact ⟨by omega, by omega, ⟨h3, h4⟩, h5⟩

/-- A string starts with at most one run. -/
theorem isWordRun_unique (s : JSString) : ∀ n m : Nat,
    isWordRun s n = true → isWordRun s m = true → n = m := by
  induction s with
  | nil =>
    intro n m hn _
    rw [isWordRun_iff] at hn
    simp at hn
    omega
  | cons c s ih =>
    intro n m hn hm
    have n0 : 0 < n := ((isWordRun_iff _ _).1 hn).1
    have m0 : 0 < m := ((isWordRun_iff _ _).1 hm).1
    obtain ⟨n, rfl⟩ : ∃ k, n = k + 1 := ⟨n - 1, by omega⟩
    obtain ⟨m, rfl⟩ : ∃ k, m = k + 1 := ⟨m - 1, by omega⟩
    rw [isWordRun_cons] at hn hm
    have key : ∀ a : Nat, a ≠ 0 → isWordRun s a = true → s.head?.any isWordChar = true := by
      intro a _ ha
      rw [isWordRun_iff] at ha
      cases s with
      | nil => simp at ha; omega
      | cons d r =>
        obtain ⟨a, rfl⟩ : ∃ k, a = k + 1 := ⟨a - 1, by omega⟩
        have := ha.2.2.1 d (by simp)
        simp [this]
    by_cases hn0 : n = 0
    · by_cases hm0 : m = 0
      · omega
      · rw [if_pos hn0] at hn
        rw [if_neg hm0] at hm
        rw [key m hm0 hm.2] at hn
        cases hn.2
    · by_cases hm0 : m = 0
      · rw [if_neg hn0] at hn
        rw [if_pos hm0] at hm
        rw [key n hn0 hn.2] at hm
        cases hm.2
      · rw [if_neg hn0] at hn
        rw [if_neg hm0] at hm
        rw [ih n m hn.2 hm.2]

/-- A string that starts with a word character starts with a run. -/
theorem isWordRun_exists (s : JSString) : ∀ c : Nat, isWordChar c = true →
    ∃ n, isWordRun (c :: s) n = true := by
  induction s with
  | nil =>
    intro c hc
    exact ⟨1, by rw [isWordRun_cons]; simp [hc]⟩
  | cons d s ih =>
    intro c hc
    by_cases hd : isWordChar d = true
    · obtain ⟨n, hn⟩ := ih d hd
      have n0 : 0 < n := ((isWordRun_iff _ _).1 hn).1
      refine ⟨n + 1, ?_⟩
      rw [isWordRun_cons, if_neg (by omega)]
      exact ⟨hc, hn⟩
    · have hd2 : isWordChar d = false := by simpa using hd
      exact ⟨1, by rw [isWordRun_cons]; simp [hc, hd2]⟩

theorem isWholeWord_at (pre s : JSString) (n : Nat) :
    isWholeWord (pre ++ s) pre.length n =
      (!(pre.getLast?.any isWordChar) && isWordRun s n) := by
  unfold isWholeWord
  rw [List.take_left, List.drop_left]

/-- The pattern of a term of word characters and `*`. -/
theorem keywordPattern_word (k : JSString) (hk : ∀ c ∈ k, isWordChar c = true ∨ c = 42) :
    keywordPattern k =
      some (k.map (fun c => if c == 42 then PatItem.wordStar else PatItem.lit c)) := by
  unfold keywordPattern
  rw [includes_star]
  by_cases hs : 42 ∈ k
  · simp [hs]
  · have hop : k.any isRegexOperator = false := by
      rw [List.any_eq_false]
      intro c hc
      rcases hk c hc with h | h
      · rw [isWordChar_not_operator h]; simp
      · subst h; exact absurd hc hs
    have hm : k.map PatItem.lit =
        k.map (fun c => if c == 42 then PatItem.wordStar else PatItem.lit c) := by
      apply List.map_congr_left
      intro c hc
      have : (c == 42) = false := by
        rw [beq_eq_false_iff_ne]; intro e; subst e; exact hs hc
      simp [this]
    simp [hs, hop, hm]

/-- At the start of a whole word the expression matches the word when it fits
the term, and does not match otherwise. -/
theorem matchAt_run (F : CaseFold) (k : JSString)
    (hk : ∀ c ∈ k, isWordChar c = true ∨ c = 42) (hl : ∃ c ∈ k, c ≠ 42)
    (before : Option Nat) (s : JSString) (n : Nat) (hb : before.any isWordChar = false)
    (hr : isWordRun s n = true) :
    matchAt F (k.map (fun c => if c == 42 then PatItem.wordStar else PatItem.lit c)) before s =
      if wildcardFits k (s.take n) = true then some n else none := by
  obtain ⟨n0, hn, hw, hx⟩ := (isWordRun_iff s n).1 hr
  have hne : k ≠ [] := by
    obtain ⟨c, hc, _⟩ := hl
    exact List.ne_nil_of_mem hc
  have hhead : s.head?.any isWordChar = true := by
    cases s with
    | nil => simp at hn; omega
    | cons d r =>
      obtain ⟨m, rfl⟩ : ∃ m, n = m + 1 := ⟨n - 1, by omega⟩
      simp [hw d (by simp)]
  have hm := matchItems_word F k hk (s.take n) (s.drop n) before hw hx (Or.inl hne)
  rw [List.take_append_drop] at hm
  unfold matchAt
  rw [isBoundary, hb, hhead, hm]
  have hemp : (s.take n).isEmpty = false := by
    cases s with
    | nil => simp at hn; omega
    | cons d r =>
      obtain ⟨m, rfl⟩ : ∃ m, n = m + 1 := ⟨n - 1, by omega⟩
      rfl
  have hlen : (s.take n).length = n := by
    rw [List.length_take]; omega
  simp [hemp, hlen]

/-- Where no whole word starts, the expression does not match. -/
theorem matchAt_none (F : CaseFold) (k : JSString)
    (hk : ∀ c ∈ k, isWordChar c = true ∨ c = 42) (hl : ∃ c ∈ k, c ≠ 42)
    (before : Option Nat) (s : JSString)
    (h : before.any isWordChar = true ∨ ∀ n, isWordRun s n = false) :
    matchAt F (k.map (fun c => if c == 42 then PatItem.wordStar else PatItem.lit c)) before s =
      none := by
  have hne : k ≠ [] := by
    obtain ⟨c, hc, _⟩ := hl
    exact List.ne_nil_of_mem hc
  unfold matchAt
  by_cases hh : s.head?.any isWordChar = true
  · have hb : before.any isWordChar = true := by
      rcases h with h | h
      · exact h
      · cases s with
        | nil => simp at hh
        | cons d r =>
          have hd : isWordChar d = true := by simpa using hh
          obtain ⟨n, hn⟩ := isWordRun_exists r d hd
          rw [h n] at hn; cases hn
    simp [isBoundary, hb, hh]
  · have hh2 : s.head?.any isWordChar = false := by simpa using hh
    split
    · have hm := matchItems_word F k hk [] s before (by simp) hh2 (Or.inl hne)
      rw [List.nil_append] at hm
      rw [hm, wildcardFits_nil k hl]
      simp
    · rfl

/-- The matches of the global expression of a term are the whole words of the
text that fit the term. -/
theorem matchAllAux_words (F : CaseFold) (k : JSString)
    (hk : ∀ c ∈ k, isWordChar c = true ∨ c = 42) (hl : ∃ c ∈ k, c ≠ 42) :
    ∀ (s pre : JSString) (skip : Nat), skip ≤ s.length →
      (0 < skip → pre.getLast?.any isWordChar = true ∧ ∀ x ∈ s.take skip, isWordChar x = true) →
      ∀ i n : Nat,
        (i, n) ∈ matchAllAux F
            (k.map (fun c => if c == 42 then PatItem.wordStar else PatItem.lit c))
            pre.getLast? pre.length skip s ↔
          (pre.length ≤ i ∧ isWholeWord (pre ++ s) i n = true ∧
            wildcardFits k (((pre ++ s).drop i).take n) = true) := by
  intro s
  induction s with
  | nil =>
    intro pre skip hs _ i n
    have h0 : skip = 0 := by simpa using hs
    subst h0
    have hnone := matchAt_none F k hk hl pre.getLast? []
      (Or.inr (fun m => by
        cases hq : isWordRun [] m
        · rfl
        · have := (isWordRun_iff _ _).1 hq
          simp only [List.length_nil] at this
          omega))
    simp only [matchAllAux, beq_self_eq_true, if_true, hnone, List.not_mem_nil, false_iff,
      List.append_nil]
    rintro ⟨hle, hw, _⟩
    unfold isWholeWord at hw
    simp only [Bool.and_eq_true] at hw
    have := ((isWordRun_iff _ _).1 hw.2)
    simp only [List.length_drop] at this
    omega
  | cons c cs ih =>
    intro pre skip hs hinv i n
    have e1 : (pre ++ [c]).getLast? = some c := by simp
    have e2 : (pre ++ [c]).length = pre.length + 1 := by simp
    have e3 : (pre ++ [c]) ++ cs = pre ++ c :: cs := by simp
    have here : ∀ m, (isWholeWord (pre ++ c :: cs) pre.length m = true ↔
        pre.getLast?.any isWordChar = false ∧ isWordRun (c :: cs) m = true) := by
      intro m
      rw [isWholeWord_at]
      simp
    have slice : ∀ m, ((pre ++ c :: cs).drop pre.length).take m = (c :: cs).take m := by
      intro m; rw [List.drop_left]
    cases skip with
    | succ j =>
      have hb := (hinv (by omega)).1
      have hx := (hinv (by omega)).2
      have hrec := ih (pre ++ [c]) j (by simp at hs; omega)
        (fun hj => ⟨by rw [e1]; simpa using hx c (by simp), fun x hxm =>
          hx x (by rw [List.take_succ_cons]; exact List.mem_cons_of_mem _ hxm)⟩) i n
      rw [e1, e2, e3] at hrec
      have hj : (j + 1 == 0) = false := rfl
      rw [matchAllAux, hj]
      simp only [Bool.false_eq_true, if_false, Nat.add_sub_cancel]
      rw [hrec]
      constructor
      · rintro ⟨h1, h2, h3⟩
        exact ⟨by omega, h2, h3⟩
      · rintro ⟨h1, h2, h3⟩
        refine ⟨?_, h2, h3⟩
        by_contra hlt
        have hi : i = pre.length := by omega
        subst hi
        rw [here] at h2
        rw [hb] at h2
        cases h2.1
    | zero =>
      simp only [matchAllAux, beq_self_eq_true, if_true]
      by_cases hcase : pre.getLast?.any isWordChar = false ∧ ∃ n0, isWordRun (c :: cs) n0 = true
      · obtain ⟨hb, n0, hn0⟩ := hcase
        obtain ⟨p0, pl, pw, px⟩ := (isWordRun_iff _ _).1 hn0
        have hm := matchAt_run F k hk hl pre.getLast? (c :: cs) n0 hb hn0
        have hcw : isWordChar c = true := by
          obtain ⟨m, rfl⟩ : ∃ m, n0 = m + 1 := ⟨n0 - 1, by omega⟩
          exact pw c (by simp)
        have hrec := ih (pre ++ [c]) (n0 - 1) (by simp at pl; omega)
          (fun hj => ⟨by rw [e1]; simpa using hcw, fun x hxm => pw x (by
            obtain ⟨m, rfl⟩ : ∃ m, n0 = m + 1 := ⟨n0 - 1, by omega⟩
            rw [List.take_succ_cons]
            exact List.mem_cons_of_mem _ (by simpa using hxm))⟩) i n
        have hrec0 := ih (pre ++ [c]) 0 (by simp) (fun hj => absurd hj (by omega)) i n
        rw [e1, e2, e3] at hrec hrec0
        rw [hm]
        by_cases hf : wildcardFits k ((c :: cs).take n0) = true
        · rw [if_pos hf]
          simp only [List.mem_cons, Prod.mk.injEq]
          rw [hrec]
          constructor
          · rintro (⟨rfl, rfl⟩ | ⟨h1, h2, h3⟩)
            · refine ⟨le_refl _, (here n).2 ⟨hb, hn0⟩, ?_⟩
              rw [slice]; exact hf
            · exact ⟨by omega, h2, h3⟩
          · rintro ⟨h1, h2, h3⟩
            by_cases hi : i = pre.length
            · subst hi
              left
              exact ⟨rfl, isWordRun_unique _ _ _ ((here n).1 h2).2 hn0⟩
            · right
              exact ⟨by omega, h2, h3⟩
        · rw [if_neg hf]
          simp only
          rw [hrec0]
          constructor
          · rintro ⟨h1, h2, h3⟩
            exact ⟨by omega, h2, h3⟩
          · rintro ⟨h1, h2, h3⟩
            refine ⟨?_, h2, h3⟩
            by_contra hlt
            have hi : i = pre.length := by omega
            subst hi
            have hu := isWordRun_unique _ _ _ ((here n).1 h2).2 hn0
            subst hu
            rw [slice] at h3
            exact hf h3
      · have hnone := matchAt_none F k hk hl pre.getLast? (c :: cs) (by
          by_cases hb : pre.getLast?.any isWordChar = true
          · exact Or.inl hb
          · right
            intro m
            cases hq : isWordRun (c :: cs) m
            · rfl
            · exact absurd ⟨by simpa using hb, m, hq⟩ hcase)
        have hrec0 := ih (pre ++ [c]) 0 (by simp) (fun hj => absurd hj (by omega)) i n
        rw [e1, e2, e3] at hrec0
        rw [hnone]
        simp only
        rw [hrec0]
        constructor
        · rintro ⟨h1, h2, h3⟩
          exact ⟨by omega, h2, h3⟩
        · rintro ⟨h1, h2, h3⟩
          refine ⟨?_, h2, h3⟩
          by_contra hlt
          have hi : i = pre.length := by omega
          subst hi
          exact hcase ⟨((here n).1 h2).1, n, ((here n).1 h2).2⟩


/-- C17, as stated, fails for a term made of `*` alone, such as the term `***`
that `searchFiles` derives from the query `***`: on `ab cd` it matches the two
words and also the empty string at the end of each word, which is no whole
word. -/
theorem stars_only_match_empty_strings :
    (expandKeywords jsHost (rawKeywords jsHost (js "***"))).1 = [js "***"] ∧
    (findKeywordsInText jsHost asciiFold (js "ab cd") [js "***"]).map
        (fun ms => ms.map (fun m => (m.fullMatch, m.position, m.isWildcard))) =
      some [(js "ab", 0, true), ([], 2, true), (js "cd", 3, true), ([], 5, true)] ∧
    isWholeWord (js "ab cd") 2 0 = false ∧ isWholeWord (js "ab cd") 5 0 = false := by
  decide

/-- C17, amended: for a term made of word characters and `*` with at least one
character other than `*`, on every text, the matches of `findKeywordsInText` are
the whole words of the lower-cased text that fit the term, `*` standing for zero
or more word characters: every match is such a word, every such word is a match,
the positions are strictly increasing, and each match is flagged `isWildcard`
when the term has a `*`.  The term `run*` on `running runs run overrun` gives the
three matches `running`, `runs` and `run` and none inside `overrun`. -/
theorem wildcard_matches_whole_words (H : Host) (F : CaseFold) :
    (∀ text keyword : JSString, (∀ c ∈ keyword, isWordChar c = true ∨ c = 42) →
      (∃ c ∈ keyword, c ≠ 42) →
      ∃ ms, findKeywordsInText H F text [keyword] = some ms ∧
        (∀ m ∈ ms, m.keyword = keyword ∧ m.isWildcard = decide (42 ∈ keyword) ∧
          isWholeWord (H.toLowerCase text) m.position m.fullMatch.length = true ∧
          m.fullMatch = ((H.toLowerCase text).drop m.position).take m.fullMatch.length ∧
          wildcardFits keyword m.fullMatch = true) ∧
        (∀ i n : Nat, isWholeWord (H.toLowerCase text) i n = true →
          wildcardFits keyword (((H.toLowerCase text).drop i).take n) = true →
          ∃ m ∈ ms, m.position = i ∧ m.fullMatch = ((H.toLowerCase text).drop i).take n) ∧
        (ms.map (fun m => m.position)).Pairwise (fun a b => a < b)) ∧
    keywordPattern (js "run*") =
      some [PatItem.lit 114, PatItem.lit 117, PatItem.lit 110, PatItem.wordStar] ∧
    findKeywordsInText H F (js "running runs run overrun") [js "run*"] =
      some [ ⟨js "run*", 0, js "running runs run overrun", js "running", true⟩,
             ⟨js "run*", 8, js "running runs run overrun", js "runs", true⟩,
             ⟨js "run*", 13, js "running runs run overrun", js "run", true⟩ ] := by
  refine ⟨?_, by decide, ?_⟩
  · intro text keyword hk hl
    have hp := keywordPattern_word keyword hk
    have hall := matchAllAux_words F keyword hk hl (H.toLowerCase text) [] 0 (Nat.zero_le _)
      (fun h => absurd h (by omega))
    simp only [List.getLast?_nil, List.length_nil, List.nil_append, Nat.zero_le, true_and]
      at hall
    have hms : findKeywordsInText H F text [keyword] =
        some ((matchAll F (keyword.map (fun c => if c == 42 then PatItem.wordStar
          else PatItem.lit c)) (H.toLowerCase text)).map
            (fun m => makeMatch text (H.toLowerCase text) keyword m.1 m.2)) := by
      rw [findKeywordsInText_single]
      unfold keywordMatches
      rw [hp]
      rfl
    have hk2 : keywordMatches F text (H.toLowerCase text) keyword = some
        ((matchAll F (keyword.map (fun c => if c == 42 then PatItem.wordStar
          else PatItem.lit c)) (H.toLowerCase text)).map
            (fun m => makeMatch text (H.toLowerCase text) keyword m.1 m.2)) := by
      rw [← findKeywordsInText_single]; exact hms
    have hfacts := keywordMatches_facts F text (H.toLowerCase text) keyword _ hk2
    refine ⟨_, hms, ?_, ?_, hfacts.1⟩
    · intro m hm
      obtain ⟨f1, f2, f3, f4, _⟩ := hfacts.2 m hm
      rw [List.mem_map] at hm
      obtain ⟨p, hpm, rfl⟩ := hm
      have hw := (hall p.1 p.2).1 hpm
      have hlen : (makeMatch text (H.toLowerCase text) keyword p.1 p.2).fullMatch.length = p.2 := by
        have hb : p.1 + p.2 ≤ (H.toLowerCase text).length := by
          have := hw.1
          unfold isWholeWord at this
          simp only [Bool.and_eq_true] at this
          have h2 := (isWordRun_iff _ _).1 this.2
          simp only [List.length_drop] at h2
          omega
        simp only [makeMatch, List.length_take, List.length_drop]
        omega
      refine ⟨f1, f2, ?_, f4.symm, ?_⟩
      · rw [hlen]; exact hw.1
      · exact hw.2
    · intro i n hw hf
      have hmem := (hall i n).2 ⟨hw, hf⟩
      refine ⟨makeMatch text (H.toLowerCase text) keyword i n, ?_, rfl, rfl⟩
      rw [List.mem_map]
      exact ⟨(i, n), hmem, rfl⟩
  · rw [findKeywordsInText_ascii H F _ _ (by decide) (by decide)]
    decide

/-- Witness for `wildcard_matches_whole_words`: the term `r*n` on `Run ran rain`
gives matches, each a whole word that fits the term. -/
theorem wildcard_matches_whole_words_witness :
    ∃ ms, findKeywordsInText jsHost asciiFold (js "Run ran rain") [js "r*n"] = some ms ∧
      (∀ m ∈ ms, m.keyword = js "r*n" ∧ m.isWildcard = decide (42 ∈ js "r*n") ∧
        isWholeWord (jsHost.toLowerCase (js "Run ran rain")) m.position m.fullMatch.length
          = true ∧
        m.fullMatch = ((jsHost.toLowerCase (js "Run ran rain")).drop m.position).take
          m.fullMatch.length ∧
        wildcardFits (js "r*n") m.fullMatch = true) ∧
      (∀ i n : Nat, isWholeWord (jsHost.toLowerCase (js "Run ran rain")) i n = true →
        wildcardFits (js "r*n") (((jsHost.toLowerCase (js "Run ran rain")).drop i).take n)
          = true →
        ∃ m ∈ ms, m.position = i ∧
          m.fullMatch = ((jsHost.toLowerCase (js "Run ran rain")).drop i).take n) ∧
      (ms.map (fun m => m.position)).Pairwise (fun a b => a < b) :=
  (wildcard_matches_whole_words jsHost asciiFold).1 (js "Run ran rain") (js "r*n")
    (by decide) (by decide)


/-! ## Rule 6 and the letters -/

/-- On a text in which the class of the source file holds the letters and
nothing else, rule 6 as the source decides it is rule 6 of the specification. -/
theorem tooFewValidWords_eq (t : JSString) (h : ∀ c ∈ t, isWordLetter c = isLetter c) :
    tooFewValidWords t = tooFewValidTokens t := by
  unfold tooFewValidWords tooFewValidTokens
  have e : ((tokens t).take (min 100 (tokens t).length)).countP isValidWord =
      ((tokens t).take (min 100 (tokens t).length)).countP isValidToken := by
    apply List.countP_congr
    intro w hw
    have hp := token_piece t w (List.mem_of_mem_take hw)
    rw [isValidWord_eq w (fun c hc => h c (hp.mem hc))]
  rw [e]

theorem isWordLetter_eq_isLetter {c : Nat} (h : c < 0xC0) : isWordLetter c = isLetter c := by
  have h1 : (c == 0x221A) = false := by rw [beq_eq_false_iff_ne]; omega
  have h2 : (0xC4 ≤ c && c ≤ 0x221A) = false := by simp; omega
  have h3 : (c == 0xF8) = false := by rw [beq_eq_false_iff_ne]; omega
  have h4 : (0xC0 ≤ c && c ≤ 0xFF) = false := by simp; omega
  simp only [isWordLetter, isLetter, h1, h2, h3, h4, Bool.or_false]

/-- On a text in which the class of the source file holds the letters and
nothing else, as in every text of units below `U+00C0`, `detectGarbageFile`
returns the verdict of the first rule of the specification that fires and
accepts exactly when none fires; on every text a PDF marker or a binary
signature decides before the densities; the seven reasons are pairwise distinct
and not empty. -/
theorem detectGarbageFile_first_rule_of_letters (t : JSString) :
    ((∀ c ∈ t, isWordLetter c = isLetter c) →
      detectGarbageFile t = firstVerdict garbageRules t ∧
      (detectGarbageFile t = ⟨false, []⟩ ↔ ∀ r ∈ garbageRules, r.1 t = false) ∧
      ((detectGarbageFile t).isGarbage = false ↔ ∀ r ∈ garbageRules, r.1 t = false)) ∧
    ((∀ c ∈ t, c < 0xC0) → detectGarbageFile t = firstVerdict garbageRules t) ∧
    (hasPdfMarker t = true → detectGarbageFile t = ⟨true, reasonPdf⟩) ∧
    (hasPdfMarker t = false → hasBinarySignature t = true →
      detectGarbageFile t = ⟨true, reasonBinary⟩) ∧
    (garbageRules.map (fun r => r.2)).Nodup ∧ (∀ r ∈ garbageRules, r.2 ≠ []) := by
  have hc := detectGarbageFile_chain t
  have main : (∀ c ∈ t, isWordLetter c = isLetter c) →
      detectGarbageFile t = firstVerdict garbageRules t ∧
      (detectGarbageFile t = ⟨false, []⟩ ↔ ∀ r ∈ garbageRules, r.1 t = false) ∧
      ((detectGarbageFile t).isGarbage = false ↔ ∀ r ∈ garbageRules, r.1 t = false) := by
    intro h
    rw [tooFewValidWords_eq t h] at hc
    refine ⟨?_, ?_, ?_⟩
    · rw [hc]
      unfold garbageRules
      simp only [firstVerdict_cons, firstVerdict_nil]
    · rw [no_rule_fires_iff, hc]
      cases hasPdfMarker t <;> cases hasBinarySignature t <;> cases isEmptyText t <;>
        cases tooManyNulls t <;> cases tooManyControls t <;> cases hasNoToken t <;>
        cases tooFewValidTokens t <;> simp
    · rw [no_rule_fires_iff, hc]
      cases hasPdfMarker t <;> cases hasBinarySignature t <;> cases isEmptyText t <;>
        cases tooManyNulls t <;> cases tooManyControls t <;> cases hasNoToken t <;>
        cases tooFewValidTokens t <;> simp
  refine ⟨main, ?_, ?_, ?_, garbageReasons_distinct.1, garbageReasons_distinct.2⟩
  · intro h
    exact (main (fun c hcm => isWordLetter_eq_isLetter (h c hcm))).1
  · intro h; rw [hc, h]; rfl
  · intro h1 h2; rw [hc, h1, h2]; rfl

/-- C1: rule 6 of `detectGarbageFile` does not count the letters of a token.  The
text `ÀÀÀ ÁÁÁ`, two tokens of three letters, is rejected for not having enough
recognizable words, where the rules of the specification accept it; the text
`—— —— ——`, three tokens of two dashes, is accepted, where the rules reject
it.  The class of the source file has `U+00C4`-`U+221A` where `À`-`ÿ` was
meant. -/
theorem detectGarbageFile_letters_miscounted :
    detectGarbageFile (js "ÀÀÀ ÁÁÁ") = ⟨true, reasonFewWords⟩ ∧
    firstVerdict garbageRules (js "ÀÀÀ ÁÁÁ") = ⟨false, []⟩ ∧
    detectGarbageFile (js "—— —— ——") = ⟨false, []⟩ ∧
    firstVerdict garbageRules (js "—— —— ——") = ⟨true, reasonFewWords⟩ ∧
    js "ÀÀÀ ÁÁÁ" = [0xC0, 0xC0, 0xC0, 32, 0xC1, 0xC1, 0xC1] ∧
    js "—— —— ——" = [0x2014, 0x2014, 32, 0x2014, 0x2014, 32, 0x2014, 0x2014] := by
  decide

end TextReader
